import Mathlib

set_option maxHeartbeats 1000000

/-!
Verification development for the AtomNetlist storage engine declared in
vpr/SRC/base/netlist2.h (class AtomNetlist).

The repository contains only the header (declarations and documentation
comments); the member-function bodies (netlist2.cpp) are not part of the
source tree.  Every operation below is therefore a shallow embedding
modelled from the specification of the engine: opaque integer handles for
blocks, ports, pins and nets, struct-of-arrays style storage split into a
validity array (the *_ids_ vectors of the header) and the attribute rows,
lazy mark-then-compact deletion, derived name lookups, the compaction
algorithm and the consistency validator.

Modelling conventions:
- A handle is a natural number; the absent / INVALID sentinel is `none`
  of an `Option Nat`.
- The C++ validity vectors (block_ids_, port_ids_, pin_ids_, net_ids_)
  hold `some i` at a valid index i and `none` at an invalidated index,
  exactly as the C++ stores either the id itself or AtomBlockId::INVALID().
- The per-entity attribute vectors of the header are grouped into one row
  record per entity kind; the validator's size check compares the length
  of the validity vector with the length of the row vector.
- The string interner is modelled extensionally: names are stored as the
  interned text itself (interning is specified to be a bijection between
  texts and string handles, so this is observation-equivalent).
- The unordered_map fast lookups are modelled extensionally as scans over
  the live entities; the maps are specified to be kept in lock-step with
  the stores, so the map contents always equal these derived functions.
-/

/-- Three-valued logic symbol used in truth tables (vtr::LogicValue). -/
inductive LogicValue
  | FALSE
  | TRUE
  | DC
deriving DecidableEq, Repr, Inhabited

/-- Role of a pin on a net (AtomPinType). -/
inductive AtomPinType
  | DRIVER
  | SINK
deriving DecidableEq, Repr, Inhabited

/-- Classification of a port (AtomPortType). -/
inductive AtomPortType
  | INPUT
  | OUTPUT
  | CLOCK
deriving DecidableEq, Repr, Inhabited

/-- Modelled from the spec: one named sub-port of an architecture model
descriptor (t_model_ports), with its width and direction class. -/
structure ModelPort where
  name : String
  width : Nat
  dir : AtomPortType
deriving DecidableEq, Repr, Inhabited

/-- Modelled from the spec: the externally owned architecture model
descriptor (t_model) read by create_port; the core only reads it. -/
structure TModel where
  ports : List ModelPort
deriving DecidableEq, Repr, Inhabited

/-- Truth table of a block (AtomNetlist::TruthTable). -/
abbrev TruthTable := List (List LogicValue)

/-- Attribute row of one block: name, borrowed model reference, truth
table, and the three categorized port-handle lists. -/
structure BlockData where
  name : String
  model : TModel
  truth_table : TruthTable
  input_ports : List Nat
  output_ports : List Nat
  clock_ports : List Nat
deriving DecidableEq, Repr, Inhabited

/-- Attribute row of one port: name, owning block handle, and the pin
slots indexed by bit position (length equals the port width; a slot is
none until a pin is created for that bit). -/
structure PortData where
  name : String
  block : Nat
  pins : List (Option Nat)
deriving DecidableEq, Repr, Inhabited

/-- Attribute row of one pin: owning port handle, bit index inside the
port, associated net handle (none when unassociated), and role. -/
structure PinData where
  port : Nat
  port_bit : Nat
  net : Option Nat
  ptype : AtomPinType
deriving DecidableEq, Repr, Inhabited

/-- Attribute row of one net: name and the pin slots, where position 0 is
reserved for the (possibly absent) driver and the remaining positions are
the sink pins. -/
structure NetData where
  name : String
  pins : List (Option Nat)
deriving DecidableEq, Repr, Inhabited

/-- The netlist state: for every entity kind a validity vector (the
*_ids_ vector of the header) and the attribute rows, plus the netlist
name and the dirty flag. -/
structure AtomNetlist where
  netlist_name_ : String
  dirty_ : Bool
  block_ids_ : List (Option Nat)
  blocks_ : List BlockData
  port_ids_ : List (Option Nat)
  ports_ : List PortData
  pin_ids_ : List (Option Nat)
  pins_ : List PinData
  net_ids_ : List (Option Nat)
  nets_ : List NetData
deriving DecidableEq, Repr, Inhabited

/-- Validity test of a handle against a validity vector: the entry at the
handle's index stores the handle itself (C++: block_ids_[id] == id). -/
def vId (ids : List (Option Nat)) (i : Nat) : Bool :=
  ids.getD i none == some i

/-! Small total-indexing lemmas used throughout. -/

theorem getD_of_lt {α : Type} (l : List α) {i : Nat} (h : i < l.length) (d : α) :
    l.getD i d = l[i] := by
  rw [List.getD_eq_getElem?_getD, List.getElem?_eq_getElem h]
  rfl

theorem getD_of_le {α : Type} (l : List α) {i : Nat} (h : l.length ≤ i) (d : α) :
    l.getD i d = d := by
  rw [List.getD_eq_getElem?_getD, List.getElem?_eq_none h]
  rfl

theorem getD_append_lt {α : Type} (l1 l2 : List α) {i : Nat} (h : i < l1.length) (d : α) :
    (l1 ++ l2).getD i d = l1.getD i d := by
  rw [List.getD_eq_getElem?_getD, List.getD_eq_getElem?_getD, List.getElem?_append]
  simp [h]

theorem getD_append_right {α : Type} (l1 l2 : List α) {i : Nat} (h : l1.length ≤ i) (d : α) :
    (l1 ++ l2).getD i d = l2.getD (i - l1.length) d := by
  rw [List.getD_eq_getElem?_getD, List.getD_eq_getElem?_getD, List.getElem?_append]
  simp [Nat.not_lt.mpr h]

theorem getD_snoc_self {α : Type} (l : List α) (a : α) (d : α) :
    (l ++ [a]).getD l.length d = a := by
  rw [getD_append_right l [a] (Nat.le_refl _) d]
  simp

theorem getD_set_self {α : Type} (l : List α) {i : Nat} (h : i < l.length) (a d : α) :
    (l.set i a).getD i d = a := by
  rw [List.getD_eq_getElem?_getD, List.getElem?_set]
  simp [h]

theorem getD_set_ne {α : Type} (l : List α) {i j : Nat} (h : i ≠ j) (a d : α) :
    (l.set i a).getD j d = l.getD j d := by
  rw [List.getD_eq_getElem?_getD, List.getElem?_set, List.getD_eq_getElem?_getD]
  simp [h]

theorem getD_map_range {α : Type} (f : Nat → α) (n i : Nat) (d : α) :
    (((List.range n).map f).getD i d) = if i < n then f i else d := by
  by_cases h : i < n
  · rw [List.getD_eq_getElem?_getD, List.getElem?_map, List.getElem?_range h]
    simp [h]
  · rw [getD_of_le]
    · simp [h]
    · simp [Nat.not_lt.mp h]

theorem vId_lt {ids : List (Option Nat)} {i : Nat} (h : vId ids i = true) :
    i < ids.length := by
  by_contra hc
  rw [vId, getD_of_le ids (Nat.not_lt.mp hc)] at h
  simp at h

theorem vId_getD {ids : List (Option Nat)} {i : Nat} (h : vId ids i = true) :
    ids.getD i none = some i := by
  simpa [vId] using h

theorem vId_of_getD {ids : List (Option Nat)} {i : Nat} (h : ids.getD i none = some i) :
    vId ids i = true := by
  unfold vId
  rw [h]
  simp

/-! Rank / survivor machinery for the compaction engine: the surviving
old handles in ascending order, and the new handle assigned to each. -/

/-- Old handles that survive compaction, in ascending order. -/
def survivors (n : Nat) (q : Nat → Bool) : List Nat :=
  (List.range n).filter q

/-- New handle assigned to old handle i by compaction: the number of
surviving handles below i. -/
def rankOf (q : Nat → Bool) (i : Nat) : Nat :=
  ((List.range i).filter q).length

theorem mem_survivors {n : Nat} {q : Nat → Bool} {i : Nat} :
    i ∈ survivors n q ↔ i < n ∧ q i = true := by
  simp [survivors, List.mem_filter, List.mem_range]

theorem survivors_nodup (n : Nat) (q : Nat → Bool) : (survivors n q).Nodup :=
  (List.nodup_range n).filter q

theorem survivors_succ (n : Nat) (q : Nat → Bool) :
    survivors (n + 1) q = survivors n q ++ if q n then [n] else [] := by
  unfold survivors
  rw [List.range_succ, List.filter_append]
  congr 1
  by_cases h : q n <;> simp [h]

theorem getElem?_survivors_rank {q : Nat → Bool} {i : Nat} :
    ∀ {n : Nat}, i < n → q i = true → (survivors n q)[rankOf q i]? = some i := by
  intro n
  induction n with
  | zero => intro h; exact absurd h (Nat.not_lt_zero i)
  | succ m ih =>
    intro hlt hq
    rw [survivors_succ]
    by_cases hm : i < m
    · have := ih hm hq
      rw [List.getElem?_append]
      have hrk : rankOf q i < (survivors m q).length := by
        rcases List.getElem?_eq_some.mp this with ⟨h1, _⟩
        exact h1
      simp [hrk, this]
    · have him : i = m := Nat.le_antisymm (Nat.lt_succ_iff.mp hlt) (Nat.not_lt.mp hm)
      subst him
      have hrk : rankOf q i = (survivors i q).length := rfl
      rw [hrk, List.getElem?_append]
      simp [hq]

theorem rank_lt_survivors_length {n : Nat} {q : Nat → Bool} {i : Nat}
    (h1 : i < n) (h2 : q i = true) : rankOf q i < (survivors n q).length := by
  rcases List.getElem?_eq_some.mp (getElem?_survivors_rank h1 h2) with ⟨h, _⟩
  exact h

theorem getD_survivors_rank {n : Nat} {q : Nat → Bool} {i : Nat}
    (h1 : i < n) (h2 : q i = true) : (survivors n q).getD (rankOf q i) 0 = i := by
  rw [List.getD_eq_getElem?_getD, getElem?_survivors_rank h1 h2]
  rfl

theorem rank_inj {n : Nat} {q : Nat → Bool} {i j : Nat}
    (hi : i < n) (hqi : q i = true) (hj : j < n) (hqj : q j = true)
    (h : rankOf q i = rankOf q j) : i = j := by
  have h1 := getElem?_survivors_rank (q := q) hi hqi
  have h2 := getElem?_survivors_rank (q := q) (n := n) hj hqj
  rw [h] at h1
  rw [h1] at h2
  exact Option.some_inj.mp h2

theorem survivors_getD_spec {n : Nat} {q : Nat → Bool} {j : Nat}
    (h : j < (survivors n q).length) :
    (survivors n q).getD j 0 < n ∧ q ((survivors n q).getD j 0) = true ∧
      rankOf q ((survivors n q).getD j 0) = j := by
  have hmem : (survivors n q).getD j 0 ∈ survivors n q := by
    rw [getD_of_lt _ h]
    exact List.getElem_mem h
  rcases mem_survivors.mp hmem with ⟨hlt, hq⟩
  refine ⟨hlt, hq, ?_⟩
  have hg := getElem?_survivors_rank (n := n) hlt hq
  have hrk : rankOf q ((survivors n q).getD j 0) < (survivors n q).length :=
    rank_lt_survivors_length hlt hq
  rw [List.getElem?_eq_getElem hrk] at hg
  have h2 : (survivors n q)[rankOf q ((survivors n q).getD j 0)] = (survivors n q)[j] := by
    have h3 := Option.some_inj.mp hg
    rw [h3]
    exact getD_of_lt _ h 0
  exact ((survivors_nodup n q).getElem_inj_iff).mp h2

/-- Combined port lists of a block, in category order input, output, clock. -/
def BlockData.allPorts (bd : BlockData) : List Nat :=
  bd.input_ports ++ bd.output_ports ++ bd.clock_ports

/-- Modelled from the spec: insertion of a freshly created pin into a
net's pin list by create_pin; a driver occupies position 0, a sink is
appended after the existing positions. -/
def NetData.addPin (nd : NetData) (x : Nat) (ptype : AtomPinType) : NetData :=
  match ptype with
  | AtomPinType.DRIVER =>
    { nd with pins := match nd.pins with
                      | [] => [some x]
                      | _ :: t => some x :: t }
  | AtomPinType.SINK => { nd with pins := nd.pins ++ [some x] }

/-- Test whether a pin slot refers to one of the pins in xs. -/
def slotRemoved (xs : List Nat) : Option Nat → Bool
  | some x => decide (x ∈ xs)
  | none => false

/-- Pin-slot effect of removing the pins xs from a net's pin list: a
removed driver leaves position 0 absent, removed sinks are erased from
the remaining positions. -/
def removeSlots (pins : List (Option Nat)) (xs : List Nat) : List (Option Nat) :=
  match pins with
  | [] => []
  | h :: t => (if slotRemoved xs h then none else h) ::
                t.filter (fun s => ! slotRemoved xs s)

/-- Modelled from the spec: removal of a set of pins from a net's pin
list; a removed driver leaves position 0 absent, removed sinks are erased
from the remaining positions. -/
def NetData.removePins (nd : NetData) (xs : List Nat) : NetData :=
  { nd with pins := removeSlots nd.pins xs }

/-- Rewrite the net reference of the pins listed in targets to v, leaving
every other pin row unchanged. -/
def setPinNets (ps : List PinData) (targets : List Nat) (v : Option Nat) : List PinData :=
  (List.range ps.length).map (fun i =>
    if i ∈ targets then { ps.getD i default with net := v } else ps.getD i default)

/-- New handle of old handle i under compaction against validity vector
ids: defined exactly for the valid handles, contiguously from 0. -/
def remapH (ids : List (Option Nat)) (i : Nat) : Option Nat :=
  if vId ids i then some (rankOf (vId ids) i) else none

/-- Valid handles of a validity vector in ascending order. -/
def survH (ids : List (Option Nat)) : List Nat :=
  survivors ids.length (vId ids)

namespace AtomNetlist

/-- Modelled from the spec: the AtomNetlist constructor; an empty netlist
with the given name and a clear dirty flag. -/
def initial (name : String) : AtomNetlist :=
  ⟨name, false, [], [], [], [], [], [], [], []⟩

/-- Attribute row of block b (a junk default row for an out-of-range handle). -/
def blockD (nl : AtomNetlist) (b : Nat) : BlockData := nl.blocks_.getD b default

/-- Attribute row of port p. -/
def portD (nl : AtomNetlist) (p : Nat) : PortData := nl.ports_.getD p default

/-- Attribute row of pin x. -/
def pinD (nl : AtomNetlist) (x : Nat) : PinData := nl.pins_.getD x default

/-- Attribute row of net n. -/
def netD (nl : AtomNetlist) (n : Nat) : NetData := nl.nets_.getD n default

/-- Validity of a block handle in the current state. -/
def valid_block_id (nl : AtomNetlist) (b : Nat) : Bool := vId nl.block_ids_ b

/-- Validity of a port handle in the current state. -/
def valid_port_id (nl : AtomNetlist) (p : Nat) : Bool := vId nl.port_ids_ p

/-- Validity of a pin handle in the current state. -/
def valid_pin_id (nl : AtomNetlist) (x : Nat) : Bool := vId nl.pin_ids_ x

/-- Validity of a net handle in the current state. -/
def valid_net_id (nl : AtomNetlist) (n : Nat) : Bool := vId nl.net_ids_ n

/-- Name of the netlist. -/
def netlist_name (nl : AtomNetlist) : String := nl.netlist_name_

/-- Dirty flag: the netlist has invalid entries from remove calls. -/
def dirty (nl : AtomNetlist) : Bool := nl.dirty_

/-- Range of all block handles (the block_ids_ vector). -/
def blocks (nl : AtomNetlist) : List (Option Nat) := nl.block_ids_

/-- Range of all net handles (the net_ids_ vector). -/
def nets (nl : AtomNetlist) : List (Option Nat) := nl.net_ids_

/-- Name of a block. -/
def block_name (nl : AtomNetlist) (b : Nat) : String := (nl.blockD b).name

/-- Architecture model of a block. -/
def block_model (nl : AtomNetlist) (b : Nat) : TModel := (nl.blockD b).model

/-- Truth table of a block. -/
def block_truth_table (nl : AtomNetlist) (b : Nat) : TruthTable := (nl.blockD b).truth_table

/-- Input ports of a block. -/
def block_input_ports (nl : AtomNetlist) (b : Nat) : List Nat := (nl.blockD b).input_ports

/-- Output ports of a block. -/
def block_output_ports (nl : AtomNetlist) (b : Nat) : List Nat := (nl.blockD b).output_ports

/-- Clock ports of a block. -/
def block_clock_ports (nl : AtomNetlist) (b : Nat) : List Nat := (nl.blockD b).clock_ports

/-- Name of a port. -/
def port_name (nl : AtomNetlist) (p : Nat) : String := (nl.portD p).name

/-- Width (number of bits) of a port. -/
def port_width (nl : AtomNetlist) (p : Nat) : Nat := (nl.portD p).pins.length

/-- Owning block of a port. -/
def port_block (nl : AtomNetlist) (p : Nat) : Nat := (nl.portD p).block

/-- Pin slots of a port indexed by bit. -/
def port_pins (nl : AtomNetlist) (p : Nat) : List (Option Nat) := (nl.portD p).pins

/-- Pin (potentially absent) at the given bit of a port. -/
def port_pin (nl : AtomNetlist) (port_id : Nat) (port_bit : Nat) : Option Nat :=
  (nl.portD port_id).pins.getD port_bit none

/-- Net (potentially absent) reached through the pin at the given bit of
a port; absent when the bit has no pin or the pin is unassociated. -/
def port_net (nl : AtomNetlist) (port_id : Nat) (port_bit : Nat) : Option Nat :=
  (nl.port_pin port_id port_bit).bind (fun x => (nl.pinD x).net)

/-- Net associated with a pin (none when unassociated). -/
def pin_net (nl : AtomNetlist) (x : Nat) : Option Nat := (nl.pinD x).net

/-- Role of a pin. -/
def pin_type (nl : AtomNetlist) (x : Nat) : AtomPinType := (nl.pinD x).ptype

/-- Owning port of a pin. -/
def pin_port (nl : AtomNetlist) (x : Nat) : Nat := (nl.pinD x).port

/-- Bit position of a pin inside its port. -/
def pin_port_bit (nl : AtomNetlist) (x : Nat) : Nat := (nl.pinD x).port_bit

/-- Modelled from the spec: convenience accessor for the block of a pin,
bypassing the intermediate port handle. -/
def pin_block (nl : AtomNetlist) (x : Nat) : Nat := nl.port_block (nl.pin_port x)

/-- Name of a net. -/
def net_name (nl : AtomNetlist) (n : Nat) : String := (nl.netD n).name

/-- Pin list of a net; position 0 is the (possibly absent) driver, the
remaining positions are the sinks. -/
def net_pins (nl : AtomNetlist) (n : Nat) : List (Option Nat) := (nl.netD n).pins

/-- Driver pin (potentially absent) of a net. -/
def net_driver (nl : AtomNetlist) (n : Nat) : Option Nat := (nl.netD n).pins.headD none

/-- Sink pins of a net. -/
def net_sinks (nl : AtomNetlist) (n : Nat) : List Nat := (nl.netD n).pins.tail.filterMap id

/-- Modelled from the spec: name lookup of a block; the unordered_map
index is kept in lock-step with the store, so it is modelled
extensionally as the scan for the live block of that name. -/
def find_block (nl : AtomNetlist) (name : String) : Option Nat :=
  (List.range nl.block_ids_.length).find? (fun b =>
    nl.valid_block_id b && ((nl.blockD b).name == name))

/-- Modelled from the spec: (block, name) lookup of a port. -/
def find_port (nl : AtomNetlist) (blk : Nat) (name : String) : Option Nat :=
  (List.range nl.port_ids_.length).find? (fun p =>
    nl.valid_port_id p && ((nl.portD p).block == blk) && ((nl.portD p).name == name))

/-- Modelled from the spec: (port, bit) lookup of a pin. -/
def find_pin (nl : AtomNetlist) (port_id : Nat) (port_bit : Nat) : Option Nat :=
  nl.port_pin port_id port_bit

/-- Modelled from the spec: name lookup of a net. -/
def find_net (nl : AtomNetlist) (name : String) : Option Nat :=
  (List.range nl.net_ids_.length).find? (fun n =>
    nl.valid_net_id n && ((nl.netD n).name == name))

/-- Modelled from the spec: create_block; returns the existing block when
the name is already used (first-writer-wins, ignoring model and truth
table), otherwise allocates a fresh block with empty port lists. -/
def create_block (nl : AtomNetlist) (name : String) (model : TModel) (tt : TruthTable) :
    AtomNetlist × Nat :=
  match nl.find_block name with
  | some b => (nl, b)
  | none =>
    let b := nl.block_ids_.length
    ({ nl with block_ids_ := nl.block_ids_ ++ [some b],
               blocks_ := nl.blocks_ ++ [⟨name, model, tt, [], [], []⟩] }, b)

/-- Modelled from the spec: create_port; requires a valid block, returns
the existing port on a repeated (block, name) key, otherwise derives the
width and direction class from the block's architecture model (a missing
model port is a contract violation yielding none) and appends the new
port to the matching categorized list of the block. -/
def create_port (nl : AtomNetlist) (blk : Nat) (name : String) :
    Option (AtomNetlist × Nat) :=
  if nl.valid_block_id blk then
    match nl.find_port blk name with
    | some p => some (nl, p)
    | none =>
      match (nl.blockD blk).model.ports.find? (fun mp => mp.name == name) with
      | none => none
      | some mp =>
        let p := nl.port_ids_.length
        let bd := nl.blockD blk
        let bd2 :=
          match mp.dir with
          | AtomPortType.INPUT => { bd with input_ports := bd.input_ports ++ [p] }
          | AtomPortType.OUTPUT => { bd with output_ports := bd.output_ports ++ [p] }
          | AtomPortType.CLOCK => { bd with clock_ports := bd.clock_ports ++ [p] }
        some ({ nl with
                 port_ids_ := nl.port_ids_ ++ [some p],
                 ports_ := nl.ports_ ++ [⟨name, blk, List.replicate mp.width none⟩],
                 blocks_ := nl.blocks_.set blk bd2 }, p)
  else none

/-- Validity-or-absence of the optional net argument of create_pin. -/
def netOk (nl : AtomNetlist) (net : Option Nat) : Bool :=
  match net with
  | none => true
  | some n => nl.valid_net_id n

/-- Modelled from the spec: the policy chosen for the open question of
create_pin with role driver on a net whose position 0 is already
occupied: it is treated as a contract violation (error). -/
def driverSlotFree (nl : AtomNetlist) (net : Option Nat) (ptype : AtomPinType) : Bool :=
  match ptype, net with
  | AtomPinType.DRIVER, some n => (nl.netD n).pins.headD none == none
  | _, _ => true

/-- Modelled from the spec: create_pin; requires a valid port, an
in-range bit and a valid-or-absent net; returns the existing pin on a
repeated (port, bit) key without applying the net and role arguments;
otherwise allocates the pin, fills the port's bit slot and inserts the
pin into the net's pin list according to its role. -/
def create_pin (nl : AtomNetlist) (port_id : Nat) (port_bit : Nat)
    (net : Option Nat) (ptype : AtomPinType) : Option (AtomNetlist × Nat) :=
  if nl.valid_port_id port_id && decide (port_bit < (nl.portD port_id).pins.length)
      && nl.netOk net then
    match nl.find_pin port_id port_bit with
    | some x => some (nl, x)
    | none =>
      if nl.driverSlotFree net ptype then
        let x := nl.pin_ids_.length
        let pd := nl.portD port_id
        let nl1 := { nl with
          pin_ids_ := nl.pin_ids_ ++ [some x],
          pins_ := nl.pins_ ++ [⟨port_id, port_bit, net, ptype⟩],
          ports_ := nl.ports_.set port_id { pd with pins := pd.pins.set port_bit (some x) } }
        match net with
        | none => some (nl1, x)
        | some n => some ({ nl1 with nets_ := nl1.nets_.set n ((nl1.netD n).addPin x ptype) }, x)
      else none
  else none

/-- Modelled from the spec: create_net; returns the existing net on a
repeated name, otherwise allocates a net with no driver and no sinks
(position 0 holds the absent driver slot). -/
def create_net (nl : AtomNetlist) (name : String) : AtomNetlist × Nat :=
  match nl.find_net name with
  | some n => (nl, n)
  | none =>
    let n := nl.net_ids_.length
    ({ nl with net_ids_ := nl.net_ids_ ++ [some n],
               nets_ := nl.nets_ ++ [⟨name, [none]⟩] }, n)

/-- Modelled from the spec: add_net; a duplicate name is a contract
violation, otherwise the net is allocated with the given (possibly
absent) driver at position 0 and the sinks thereafter, and each given
pin's net reference is set to the new net.  The given pins must be valid,
distinct and currently unassociated. -/
def add_net (nl : AtomNetlist) (name : String) (driver : Option Nat) (sinks : List Nat) :
    Except String (AtomNetlist × Nat) :=
  if (nl.find_net name).isSome then Except.error "duplicate net name"
  else
    let xs := driver.toList ++ sinks
    if xs.all (fun x => nl.valid_pin_id x && ((nl.pinD x).net == none)) && decide xs.Nodup then
      let n := nl.net_ids_.length
      Except.ok ({ nl with
        net_ids_ := nl.net_ids_ ++ [some n],
        nets_ := nl.nets_ ++ [⟨name, driver :: sinks.map some⟩],
        pins_ := setPinNets nl.pins_ xs (some n) }, n)
    else Except.error "invalid pins"

/-- Pins currently occupying the slots of port p. -/
def portPinsOf (nl : AtomNetlist) (p : Nat) : List Nat := (nl.portD p).pins.filterMap id

/-- Valid ports owned by block b. -/
def blockLivePorts (nl : AtomNetlist) (b : Nat) : List Nat :=
  (nl.blockD b).allPorts.filter nl.valid_port_id

/-- Pins occupying slots of the valid ports of block b. -/
def blockPins (nl : AtomNetlist) (b : Nat) : List Nat :=
  ((nl.blockLivePorts b).map nl.portPinsOf).flatten

/-- Modelled from the spec: remove_block; requires a valid handle,
invalidates the block and cascades to every port it owns and every pin on
those ports, detaching each removed pin from the net it was associated
with; nets are not invalidated. -/
def remove_block (nl : AtomNetlist) (blk : Nat) : Option AtomNetlist :=
  if nl.valid_block_id blk then
    let ps := nl.blockLivePorts blk
    let xs := nl.blockPins blk
    some { nl with
      dirty_ := true,
      block_ids_ := nl.block_ids_.set blk none,
      port_ids_ := (List.range nl.port_ids_.length).map
        (fun i => if i ∈ ps then none else nl.port_ids_.getD i none),
      pin_ids_ := (List.range nl.pin_ids_.length).map
        (fun i => if i ∈ xs then none else nl.pin_ids_.getD i none),
      pins_ := setPinNets nl.pins_ xs none,
      nets_ := nl.nets_.map (fun nd => nd.removePins xs) }
  else none

/-- Modelled from the spec: remove_net; requires a valid handle,
invalidates the net and clears the net reference of every pin formerly
on it; the pins themselves are not removed. -/
def remove_net (nl : AtomNetlist) (n : Nat) : Option AtomNetlist :=
  if nl.valid_net_id n then
    let xs := (nl.netD n).pins.filterMap id
    some { nl with
      dirty_ := true,
      net_ids_ := nl.net_ids_.set n none,
      pins_ := setPinNets nl.pins_ xs none }
  else none

/-- Modelled from the spec: remove_net_pin; removes one pin from the
given net's pin list (a removed driver leaves position 0 absent) and
clears that pin's net reference, invalidating neither of them. -/
def remove_net_pin (nl : AtomNetlist) (n : Nat) (x : Nat) : Option AtomNetlist :=
  if nl.valid_net_id n && nl.valid_pin_id x && ((nl.pinD x).net == some n) then
    some { nl with
      nets_ := nl.nets_.set n ((nl.netD n).removePins [x]),
      pins_ := nl.pins_.set x { nl.pinD x with net := none } }
  else none

/-- Condition under which the unused-entity sweep marks a port invalid:
the port is valid, has pin slots, and every slot is unoccupied. -/
def portUnused (nl : AtomNetlist) (p : Nat) : Bool :=
  nl.valid_port_id p && !(nl.portD p).pins.isEmpty &&
    (nl.portD p).pins.all (fun s => s == none)

/-- Port validity vector after the port phase of the unused-entity
sweep: ports left with only unoccupied slots are marked invalid. -/
def sweepPortIds (nl : AtomNetlist) : List (Option Nat) :=
  (List.range nl.port_ids_.length).map
    (fun p => if nl.portUnused p then none else nl.port_ids_.getD p none)

/-- Condition under which the unused-entity sweep marks a block invalid:
the block is valid, has ports, and every one of its ports is invalid
after the port phase of the sweep.  A block with no ports at all is kept,
as required by the compaction remap property of the spec. -/
def blockUnusedB (nl : AtomNetlist) (b : Nat) : Bool :=
  nl.valid_block_id b && !(nl.blockD b).allPorts.isEmpty &&
    (nl.blockD b).allPorts.all (fun p => !(vId (sweepPortIds nl) p))

/-- Modelled from the spec: the unused-entity sweep run as the first
phase of compress; marks any port left with only unoccupied slots, and
then any block left with only invalid ports, as invalid. -/
def remove_unused (nl : AtomNetlist) : AtomNetlist :=
  { nl with
    port_ids_ := sweepPortIds nl,
    block_ids_ := (List.range nl.block_ids_.length).map
      (fun b => if nl.blockUnusedB b then none else nl.block_ids_.getD b none) }

/-- Block row rewrite applied by compaction: the surviving entries of
the categorized port lists are remapped to their new handles. -/
def compactBlockRow (s : AtomNetlist) (b : Nat) : BlockData :=
  { s.blockD b with
    input_ports := (s.blockD b).input_ports.filterMap (remapH s.port_ids_),
    output_ports := (s.blockD b).output_ports.filterMap (remapH s.port_ids_),
    clock_ports := (s.blockD b).clock_ports.filterMap (remapH s.port_ids_) }

/-- Port row rewrite applied by compaction: the owning block reference
and the pin slots are remapped (slot width is preserved). -/
def compactPortRow (s : AtomNetlist) (p : Nat) : PortData :=
  { s.portD p with
    block := (remapH s.block_ids_ (s.portD p).block).getD 0,
    pins := (s.portD p).pins.map (fun sl => sl.bind (remapH s.pin_ids_)) }

/-- Pin row rewrite applied by compaction: the port and net references
are remapped. -/
def compactPinRow (s : AtomNetlist) (x : Nat) : PinData :=
  { s.pinD x with
    port := (remapH s.port_ids_ (s.pinD x).port).getD 0,
    net := (s.pinD x).net.bind (remapH s.net_ids_) }

/-- Net row rewrite applied by compaction: position 0 keeps the
(remapped, possibly absent) driver, the surviving sinks follow. -/
def compactNetRow (s : AtomNetlist) (n : Nat) : NetData :=
  { s.netD n with
    pins := ((s.netD n).pins.headD none).bind (remapH s.pin_ids_) ::
      (s.netD n).pins.tail.filterMap
        (fun sl => (sl.bind (remapH s.pin_ids_)).map some) }

/-- Modelled from the spec: the pure compaction pass of compress; keeps
only the valid entities of every kind, writes them contiguously from
handle 0, rewrites every surviving cross-reference through the old-to-new
handle maps, and clears the dirty flag. -/
def compact (s : AtomNetlist) : AtomNetlist :=
  { netlist_name_ := s.netlist_name_,
    dirty_ := false,
    block_ids_ := (List.range (survH s.block_ids_).length).map some,
    blocks_ := (survH s.block_ids_).map (compactBlockRow s),
    port_ids_ := (List.range (survH s.port_ids_).length).map some,
    ports_ := (survH s.port_ids_).map (compactPortRow s),
    pin_ids_ := (List.range (survH s.pin_ids_).length).map some,
    pins_ := (survH s.pin_ids_).map (compactPinRow s),
    net_ids_ := (List.range (survH s.net_ids_).length).map some,
    nets_ := (survH s.net_ids_).map (compactNetRow s) }

/-- Modelled from the spec: compress; runs the unused-entity sweep, then
the compaction pass.  The lookups being modelled extensionally, their
wholesale rebuild is implicit. -/
def compress (nl : AtomNetlist) : AtomNetlist :=
  nl.remove_unused.compact

/-- Size check of the validator: each kind's validity vector and row
vector have the same length. -/
def verify_sizesb (nl : AtomNetlist) : Bool :=
  (nl.block_ids_.length == nl.blocks_.length) &&
  (nl.port_ids_.length == nl.ports_.length) &&
  (nl.pin_ids_.length == nl.pins_.length) &&
  (nl.net_ids_.length == nl.nets_.length)

/-- Reference check of the validator: every stored cross-reference of a
valid entity resolves to a valid entity of the expected kind and the
references are mutually consistent. -/
def verify_refsb (nl : AtomNetlist) : Bool :=
  ((List.range nl.block_ids_.length).all fun b =>
     !(nl.valid_block_id b) ||
       ((nl.blockD b).allPorts.all fun p =>
         nl.valid_port_id p && ((nl.portD p).block == b))) &&
  ((List.range nl.port_ids_.length).all fun p =>
     !(nl.valid_port_id p) ||
       (nl.valid_block_id (nl.portD p).block &&
        decide (p ∈ (nl.blockD (nl.portD p).block).allPorts) &&
        ((List.range (nl.portD p).pins.length).all fun bit =>
          match (nl.portD p).pins.getD bit none with
          | none => true
          | some x => nl.valid_pin_id x && ((nl.pinD x).port == p) &&
                        ((nl.pinD x).port_bit == bit)))) &&
  ((List.range nl.pin_ids_.length).all fun x =>
     !(nl.valid_pin_id x) ||
       (nl.valid_port_id (nl.pinD x).port &&
        ((nl.portD (nl.pinD x).port).pins.getD (nl.pinD x).port_bit none == some x) &&
        (match (nl.pinD x).net with
         | none => true
         | some n => nl.valid_net_id n && decide (some x ∈ (nl.netD n).pins)))) &&
  ((List.range nl.net_ids_.length).all fun n =>
     !(nl.valid_net_id n) ||
       (!(nl.netD n).pins.isEmpty &&
        ((nl.netD n).pins.tail.all fun s => !(s == none)) &&
        ((nl.netD n).pins.all fun s =>
          match s with
          | none => true
          | some x => nl.valid_pin_id x && ((nl.pinD x).net == some n))))

/-- Lookup check of the validator: every live entity is reachable through
the lookup of its identifying key. -/
def verify_lookupsb (nl : AtomNetlist) : Bool :=
  ((List.range nl.block_ids_.length).all fun b =>
     !(nl.valid_block_id b) || (nl.find_block (nl.blockD b).name == some b)) &&
  ((List.range nl.port_ids_.length).all fun p =>
     !(nl.valid_port_id p) ||
       (nl.find_port (nl.portD p).block (nl.portD p).name == some p)) &&
  ((List.range nl.pin_ids_.length).all fun x =>
     !(nl.valid_pin_id x) ||
       (nl.find_pin (nl.pinD x).port (nl.pinD x).port_bit == some x)) &&
  ((List.range nl.net_ids_.length).all fun n =>
     !(nl.valid_net_id n) || (nl.find_net (nl.netD n).name == some n))

/-- Modelled from the spec: the validator; returns true when the size,
reference and lookup checks all pass, and reports a fatal structured
inconsistency (never a false or absent result) otherwise. -/
def verify (nl : AtomNetlist) : Except String Bool :=
  if !nl.verify_sizesb then Except.error "netlist sizes are inconsistent"
  else if !nl.verify_refsb then Except.error "netlist cross-references are inconsistent"
  else if !nl.verify_lookupsb then Except.error "netlist lookups are inconsistent"
  else Except.ok true

end AtomNetlist

/-! Well-formedness invariant of reachable netlist states.  It constrains
only the valid entities, so it holds also in dirty states between
remove calls and the next compress. -/

/-- Invariant satisfied by every netlist reachable through valid calls of
the public mutators. -/
structure WF (nl : AtomNetlist) : Prop where
  size_blocks : nl.block_ids_.length = nl.blocks_.length
  size_ports : nl.port_ids_.length = nl.ports_.length
  size_pins : nl.pin_ids_.length = nl.pins_.length
  size_nets : nl.net_ids_.length = nl.nets_.length
  port_block_valid : ∀ p, nl.valid_port_id p = true →
    nl.valid_block_id (nl.portD p).block = true
  port_in_block : ∀ p, nl.valid_port_id p = true →
    p ∈ (nl.blockD (nl.portD p).block).allPorts
  block_port_owner : ∀ b p, nl.valid_block_id b = true →
    p ∈ (nl.blockD b).allPorts → nl.valid_port_id p = true → (nl.portD p).block = b
  block_port_bound : ∀ b p, nl.valid_block_id b = true →
    p ∈ (nl.blockD b).allPorts → p < nl.port_ids_.length
  pin_port_valid : ∀ x, nl.valid_pin_id x = true →
    nl.valid_port_id (nl.pinD x).port = true
  pin_slot : ∀ x, nl.valid_pin_id x = true →
    (nl.portD (nl.pinD x).port).pins.getD (nl.pinD x).port_bit none = some x
  slot_pin : ∀ p bit x, nl.valid_port_id p = true →
    (nl.portD p).pins.getD bit none = some x →
    nl.valid_pin_id x = true ∧ (nl.pinD x).port = p ∧ (nl.pinD x).port_bit = bit
  pin_net_valid : ∀ x n, nl.valid_pin_id x = true → (nl.pinD x).net = some n →
    nl.valid_net_id n = true
  pin_in_net : ∀ x n, nl.valid_pin_id x = true → (nl.pinD x).net = some n →
    some x ∈ (nl.netD n).pins
  net_nonempty : ∀ n, nl.valid_net_id n = true → (nl.netD n).pins ≠ []
  net_tail_filled : ∀ n s, nl.valid_net_id n = true → s ∈ (nl.netD n).pins.tail → s ≠ none
  net_pin_bound : ∀ n x, nl.valid_net_id n = true → some x ∈ (nl.netD n).pins →
    x < nl.pin_ids_.length
  net_pin_back : ∀ n x, nl.valid_net_id n = true → some x ∈ (nl.netD n).pins →
    nl.valid_pin_id x = true → (nl.pinD x).net = some n
  block_names_inj : ∀ b1 b2, nl.valid_block_id b1 = true → nl.valid_block_id b2 = true →
    (nl.blockD b1).name = (nl.blockD b2).name → b1 = b2
  port_key_inj : ∀ p1 p2, nl.valid_port_id p1 = true → nl.valid_port_id p2 = true →
    (nl.portD p1).block = (nl.portD p2).block → (nl.portD p1).name = (nl.portD p2).name →
    p1 = p2
  net_names_inj : ∀ n1 n2, nl.valid_net_id n1 = true → nl.valid_net_id n2 = true →
    (nl.netD n1).name = (nl.netD n2).name → n1 = n2

/-! Characterization of the find lookups. -/

theorem vId_map_range (n : Nat) (f : Nat → Option Nat) (j : Nat) :
    vId ((List.range n).map f) j = (decide (j < n) && (f j == some j)) := by
  rw [vId, getD_map_range]
  by_cases h : j < n
  · simp [h]
  · simp [h]

theorem vId_snoc (ids : List (Option Nat)) (j : Nat) :
    vId (ids ++ [some ids.length]) j = (vId ids j || decide (j = ids.length)) := by
  rcases Nat.lt_trichotomy j ids.length with h | h | h
  · rw [vId, getD_append_lt _ _ h, ← vId]
    simp [Nat.ne_of_lt h]
  · rw [h, vId, getD_snoc_self]
    have h1 : vId ids ids.length = false := by
      cases hv : vId ids ids.length
      · rfl
      · exact absurd (vId_lt hv) (Nat.lt_irrefl _)
    simp [h1]
  · have hlen : (ids ++ [some ids.length]).length ≤ j := by
      simp only [List.length_append, List.length_cons, List.length_nil]
      omega
    rw [vId, getD_of_le _ hlen]
    have h1 : vId ids j = false := by
      cases hv : vId ids j
      · rfl
      · exact absurd (vId_lt hv) (by omega)
    have h2 : j ≠ ids.length := by omega
    simp [h1, h2]

theorem vId_set_none_self (ids : List (Option Nat)) (i : Nat) :
    vId (ids.set i none) i = false := by
  by_cases h : i < ids.length
  · rw [vId, getD_set_self _ h]
    simp
  · rw [vId, getD_of_le]
    · simp
    · simp [Nat.not_lt.mp h]

theorem vId_set_none_ne (ids : List (Option Nat)) {i j : Nat} (h : i ≠ j) :
    vId (ids.set i none) j = vId ids j := by
  rw [vId, getD_set_ne _ h, ← vId]

namespace AtomNetlist

theorem find_block_eq_none_iff (nl : AtomNetlist) (name : String) :
    nl.find_block name = none ↔
      ∀ b, nl.valid_block_id b = true → (nl.blockD b).name ≠ name := by
  unfold find_block
  rw [List.find?_eq_none]
  constructor
  · intro h b hb hn
    have hlt : b < nl.block_ids_.length := vId_lt hb
    have := h b (List.mem_range.mpr hlt)
    simp [hb, hn] at this
  · intro h b hb
    simp only [Bool.and_eq_true, beq_iff_eq, not_and]
    intro hv
    exact h b hv

theorem find_block_eq_some {nl : AtomNetlist} {name : String} {b : Nat}
    (h : nl.find_block name = some b) :
    nl.valid_block_id b = true ∧ (nl.blockD b).name = name := by
  have := List.find?_some h
  simpa using this

theorem find_block_of_valid {nl : AtomNetlist} {b : Nat}
    (hinj : ∀ b1 b2, nl.valid_block_id b1 = true → nl.valid_block_id b2 = true →
      (nl.blockD b1).name = (nl.blockD b2).name → b1 = b2)
    (hb : nl.valid_block_id b = true) :
    nl.find_block (nl.blockD b).name = some b := by
  have hne : nl.find_block (nl.blockD b).name ≠ none := by
    intro h
    exact (find_block_eq_none_iff nl _).mp h b hb rfl
  rcases Option.ne_none_iff_exists'.mp hne with ⟨c, hc⟩
  rcases find_block_eq_some hc with ⟨hcv, hcn⟩
  rw [hc, hinj c b hcv hb hcn]

theorem find_net_eq_none_iff (nl : AtomNetlist) (name : String) :
    nl.find_net name = none ↔
      ∀ n, nl.valid_net_id n = true → (nl.netD n).name ≠ name := by
  unfold find_net
  rw [List.find?_eq_none]
  constructor
  · intro h n hn hname
    have hlt : n < nl.net_ids_.length := vId_lt hn
    have := h n (List.mem_range.mpr hlt)
    simp [hn, hname] at this
  · intro h n hn
    simp only [Bool.and_eq_true, beq_iff_eq, not_and]
    intro hv
    exact h n hv

theorem find_net_eq_some {nl : AtomNetlist} {name : String} {n : Nat}
    (h : nl.find_net name = some n) :
    nl.valid_net_id n = true ∧ (nl.netD n).name = name := by
  have := List.find?_some h
  simpa using this

theorem find_net_of_valid {nl : AtomNetlist} {n : Nat}
    (hinj : ∀ n1 n2, nl.valid_net_id n1 = true → nl.valid_net_id n2 = true →
      (nl.netD n1).name = (nl.netD n2).name → n1 = n2)
    (hn : nl.valid_net_id n = true) :
    nl.find_net (nl.netD n).name = some n := by
  have hne : nl.find_net (nl.netD n).name ≠ none := by
    intro h
    exact (find_net_eq_none_iff nl _).mp h n hn rfl
  rcases Option.ne_none_iff_exists'.mp hne with ⟨c, hc⟩
  rcases find_net_eq_some hc with ⟨hcv, hcn⟩
  rw [hc, hinj c n hcv hn hcn]

theorem find_port_eq_none_iff (nl : AtomNetlist) (blk : Nat) (name : String) :
    nl.find_port blk name = none ↔
      ∀ p, nl.valid_port_id p = true → (nl.portD p).block = blk →
        (nl.portD p).name ≠ name := by
  unfold find_port
  rw [List.find?_eq_none]
  constructor
  · intro h p hp hblk hname
    have hlt : p < nl.port_ids_.length := vId_lt hp
    have := h p (List.mem_range.mpr hlt)
    simp [hp, hblk, hname] at this
  · intro h p hp
    simp only [Bool.and_eq_true, beq_iff_eq, not_and]
    intro hv
    exact h p hv.1 hv.2

theorem find_port_eq_some {nl : AtomNetlist} {blk : Nat} {name : String} {p : Nat}
    (h : nl.find_port blk name = some p) :
    nl.valid_port_id p = true ∧ (nl.portD p).block = blk ∧ (nl.portD p).name = name := by
  have := List.find?_some h
  simp only [Bool.and_eq_true, beq_iff_eq] at this
  exact ⟨this.1.1, this.1.2, this.2⟩

theorem find_port_of_valid {nl : AtomNetlist} {p : Nat}
    (hinj : ∀ p1 p2, nl.valid_port_id p1 = true → nl.valid_port_id p2 = true →
      (nl.portD p1).block = (nl.portD p2).block →
      (nl.portD p1).name = (nl.portD p2).name → p1 = p2)
    (hp : nl.valid_port_id p = true) :
    nl.find_port (nl.portD p).block (nl.portD p).name = some p := by
  have hne : nl.find_port (nl.portD p).block (nl.portD p).name ≠ none := by
    intro h
    exact (find_port_eq_none_iff nl _ _).mp h p hp rfl rfl
  rcases Option.ne_none_iff_exists'.mp hne with ⟨c, hc⟩
  rcases find_port_eq_some hc with ⟨hcv, hcb, hcn⟩
  rw [hc, hinj c p hcv hp hcb hcn]

end AtomNetlist

theorem vId_nil (i : Nat) : vId ([] : List (Option Nat)) i = false := by
  rw [vId, getD_of_le]
  · simp
  · simp

namespace AtomNetlist

theorem WF_initial (name : String) : WF (AtomNetlist.initial name) := by
  constructor <;>
    simp [AtomNetlist.initial, AtomNetlist.valid_block_id, AtomNetlist.valid_port_id,
      AtomNetlist.valid_pin_id, AtomNetlist.valid_net_id, vId_nil]

theorem create_block_WF {nl : AtomNetlist} (h : WF nl) (name : String) (model : TModel)
    (tt : TruthTable) : WF (nl.create_block name model tt).1 := by
  unfold create_block
  cases hf : nl.find_block name with
  | some b => exact h
  | none =>
    have hnames := (nl.find_block_eq_none_iff name).mp hf
    have hLB : nl.block_ids_.length = nl.blocks_.length := h.size_blocks
    show WF { nl with
      block_ids_ := nl.block_ids_ ++ [some nl.block_ids_.length],
      blocks_ := nl.blocks_ ++ [⟨name, model, tt, [], [], []⟩] }
    set row : BlockData := ⟨name, model, tt, [], [], []⟩ with hrowdef
    set N : AtomNetlist := { nl with
      block_ids_ := nl.block_ids_ ++ [some nl.block_ids_.length],
      blocks_ := nl.blocks_ ++ [row] } with hNdef
    have hvp : N.valid_port_id = nl.valid_port_id := rfl
    have hvx : N.valid_pin_id = nl.valid_pin_id := rfl
    have hvn : N.valid_net_id = nl.valid_net_id := rfl
    have hpd : N.portD = nl.portD := rfl
    have hxd : N.pinD = nl.pinD := rfl
    have hnd : N.netD = nl.netD := rfl
    have hvb : ∀ c, N.valid_block_id c =
        (vId nl.block_ids_ c || decide (c = nl.block_ids_.length)) :=
      fun c => vId_snoc nl.block_ids_ c
    have hbd_old : ∀ c, vId nl.block_ids_ c = true → N.blockD c = nl.blockD c := by
      intro c hc
      show (nl.blocks_ ++ [row]).getD c default = nl.blockD c
      exact getD_append_lt _ _ (hLB ▸ vId_lt hc) _
    have hbd_new : N.blockD nl.block_ids_.length = row := by
      show (nl.blocks_ ++ [row]).getD nl.block_ids_.length default = row
      rw [hLB]
      exact getD_snoc_self _ _ _
    constructor
    · show (nl.block_ids_ ++ [some nl.block_ids_.length]).length = (nl.blocks_ ++ [row]).length
      simp [hLB]
    · exact h.size_ports
    · exact h.size_pins
    · exact h.size_nets
    · intro p hp
      rw [hvp] at hp
      rw [hpd, hvb, Bool.or_eq_true]
      exact Or.inl (h.port_block_valid p hp)
    · intro p hp
      rw [hvp] at hp
      rw [hpd, hbd_old _ (h.port_block_valid p hp)]
      exact h.port_in_block p hp
    · intro b p hb hp hpv
      rw [hvb, Bool.or_eq_true] at hb
      rw [hvp] at hpv
      rw [hpd]
      rcases hb with hb | hb
      · rw [hbd_old _ hb] at hp
        exact h.block_port_owner b p hb hp hpv
      · rw [decide_eq_true_eq] at hb
        rw [hb, hbd_new] at hp
        rw [hrowdef] at hp
        simp [BlockData.allPorts] at hp
    · intro b p hb hp
      rw [hvb, Bool.or_eq_true] at hb
      show p < nl.port_ids_.length
      rcases hb with hb | hb
      · rw [hbd_old _ hb] at hp
        exact h.block_port_bound b p hb hp
      · rw [decide_eq_true_eq] at hb
        rw [hb, hbd_new] at hp
        rw [hrowdef] at hp
        simp [BlockData.allPorts] at hp
    · intro x hx
      rw [hvx] at hx
      rw [hvp, hxd]
      exact h.pin_port_valid x hx
    · intro x hx
      rw [hvx] at hx
      rw [hpd, hxd]
      exact h.pin_slot x hx
    · intro p bit x hp hs
      rw [hvp] at hp
      rw [hpd] at hs
      rw [hvx, hxd]
      exact h.slot_pin p bit x hp hs
    · intro x n hx hn
      rw [hvx] at hx
      rw [hxd] at hn
      rw [hvn]
      exact h.pin_net_valid x n hx hn
    · intro x n hx hn
      rw [hvx] at hx
      rw [hxd] at hn
      rw [hnd]
      exact h.pin_in_net x n hx hn
    · intro n hn
      rw [hvn] at hn
      rw [hnd]
      exact h.net_nonempty n hn
    · intro n s hn hs
      rw [hvn] at hn
      rw [hnd] at hs
      exact h.net_tail_filled n s hn hs
    · intro n x hn hx
      rw [hvn] at hn
      rw [hnd] at hx
      show x < nl.pin_ids_.length
      exact h.net_pin_bound n x hn hx
    · intro n x hn hx hv
      rw [hvn] at hn
      rw [hnd] at hx
      rw [hvx] at hv
      rw [hxd]
      exact h.net_pin_back n x hn hx hv
    · intro b1 b2 hb1 hb2 hname
      rw [hvb, Bool.or_eq_true] at hb1 hb2
      rcases hb1 with h1 | h1 <;> rcases hb2 with h2 | h2
      · rw [hbd_old _ h1, hbd_old _ h2] at hname
        exact h.block_names_inj b1 b2 h1 h2 hname
      · rw [decide_eq_true_eq] at h2
        rw [hbd_old _ h1, h2, hbd_new, hrowdef] at hname
        exact absurd hname (hnames b1 h1)
      · rw [decide_eq_true_eq] at h1
        rw [h1, hbd_new, hrowdef, hbd_old _ h2] at hname
        exact absurd hname.symm (hnames b2 h2)
      · rw [decide_eq_true_eq] at h1
        rw [decide_eq_true_eq] at h2
        rw [h1, h2]
    · intro p1 p2 hp1 hp2 hpb hpn
      rw [hvp] at hp1 hp2
      rw [hpd] at hpb hpn
      exact h.port_key_inj p1 p2 hp1 hp2 hpb hpn
    · intro n1 n2 hn1 hn2 hname
      rw [hvn] at hn1 hn2
      rw [hnd] at hname
      exact h.net_names_inj n1 n2 hn1 hn2 hname

theorem create_net_WF {nl : AtomNetlist} (h : WF nl) (name : String) :
    WF (nl.create_net name).1 := by
  unfold create_net
  cases hf : nl.find_net name with
  | some n => exact h
  | none =>
    have hnames := (nl.find_net_eq_none_iff name).mp hf
    have hLN : nl.net_ids_.length = nl.nets_.length := h.size_nets
    show WF { nl with
      net_ids_ := nl.net_ids_ ++ [some nl.net_ids_.length],
      nets_ := nl.nets_ ++ [⟨name, [none]⟩] }
    set row : NetData := ⟨name, [none]⟩ with hrowdef
    set N : AtomNetlist := { nl with
      net_ids_ := nl.net_ids_ ++ [some nl.net_ids_.length],
      nets_ := nl.nets_ ++ [row] } with hNdef
    have hvb : N.valid_block_id = nl.valid_block_id := rfl
    have hvp : N.valid_port_id = nl.valid_port_id := rfl
    have hvx : N.valid_pin_id = nl.valid_pin_id := rfl
    have hbd : N.blockD = nl.blockD := rfl
    have hpd : N.portD = nl.portD := rfl
    have hxd : N.pinD = nl.pinD := rfl
    have hvn : ∀ c, N.valid_net_id c =
        (vId nl.net_ids_ c || decide (c = nl.net_ids_.length)) :=
      fun c => vId_snoc nl.net_ids_ c
    have hnd_old : ∀ c, vId nl.net_ids_ c = true → N.netD c = nl.netD c := by
      intro c hc
      show (nl.nets_ ++ [row]).getD c default = nl.netD c
      exact getD_append_lt _ _ (hLN ▸ vId_lt hc) _
    have hnd_new : N.netD nl.net_ids_.length = row := by
      show (nl.nets_ ++ [row]).getD nl.net_ids_.length default = row
      rw [hLN]
      exact getD_snoc_self _ _ _
    constructor
    · exact h.size_blocks
    · exact h.size_ports
    · exact h.size_pins
    · show (nl.net_ids_ ++ [some nl.net_ids_.length]).length = (nl.nets_ ++ [row]).length
      simp [hLN]
    · intro p hp
      rw [hvp] at hp
      rw [hpd, hvb]
      exact h.port_block_valid p hp
    · intro p hp
      rw [hvp] at hp
      rw [hpd, hbd]
      exact h.port_in_block p hp
    · intro b p hb hp hpv
      rw [hvb] at hb
      rw [hbd] at hp
      rw [hvp] at hpv
      rw [hpd]
      exact h.block_port_owner b p hb hp hpv
    · intro b p hb hp
      rw [hvb] at hb
      rw [hbd] at hp
      show p < nl.port_ids_.length
      exact h.block_port_bound b p hb hp
    · intro x hx
      rw [hvx] at hx
      rw [hvp, hxd]
      exact h.pin_port_valid x hx
    · intro x hx
      rw [hvx] at hx
      rw [hpd, hxd]
      exact h.pin_slot x hx
    · intro p bit x hp hs
      rw [hvp] at hp
      rw [hpd] at hs
      rw [hvx, hxd]
      exact h.slot_pin p bit x hp hs
    · intro x n hx hn
      rw [hvx] at hx
      rw [hxd] at hn
      rw [hvn, Bool.or_eq_true]
      exact Or.inl (h.pin_net_valid x n hx hn)
    · intro x n hx hn
      rw [hvx] at hx
      rw [hxd] at hn
      rw [hnd_old _ (h.pin_net_valid x n hx hn)]
      exact h.pin_in_net x n hx hn
    · intro n hn
      rw [hvn, Bool.or_eq_true] at hn
      rcases hn with hn | hn
      · rw [hnd_old _ hn]
        exact h.net_nonempty n hn
      · rw [decide_eq_true_eq] at hn
        rw [hn, hnd_new, hrowdef]
        simp
    · intro n s hn hs
      rw [hvn, Bool.or_eq_true] at hn
      rcases hn with hn | hn
      · rw [hnd_old _ hn] at hs
        exact h.net_tail_filled n s hn hs
      · rw [decide_eq_true_eq] at hn
        rw [hn, hnd_new, hrowdef] at hs
        simp at hs
    · intro n x hn hx
      rw [hvn, Bool.or_eq_true] at hn
      show x < nl.pin_ids_.length
      rcases hn with hn | hn
      · rw [hnd_old _ hn] at hx
        exact h.net_pin_bound n x hn hx
      · rw [decide_eq_true_eq] at hn
        rw [hn, hnd_new, hrowdef] at hx
        simp at hx
    · intro n x hn hx hv
      rw [hvn, Bool.or_eq_true] at hn
      rw [hvx] at hv
      rw [hxd]
      rcases hn with hn | hn
      · rw [hnd_old _ hn] at hx
        exact h.net_pin_back n x hn hx hv
      · rw [decide_eq_true_eq] at hn
        rw [hn, hnd_new, hrowdef] at hx
        simp at hx
    · intro b1 b2 hb1 hb2 hname
      rw [hvb] at hb1 hb2
      rw [hbd] at hname
      exact h.block_names_inj b1 b2 hb1 hb2 hname
    · intro p1 p2 hp1 hp2 hpb hpn
      rw [hvp] at hp1 hp2
      rw [hpd] at hpb hpn
      exact h.port_key_inj p1 p2 hp1 hp2 hpb hpn
    · intro n1 n2 hn1 hn2 hname
      rw [hvn, Bool.or_eq_true] at hn1 hn2
      rcases hn1 with h1 | h1 <;> rcases hn2 with h2 | h2
      · rw [hnd_old _ h1, hnd_old _ h2] at hname
        exact h.net_names_inj n1 n2 h1 h2 hname
      · rw [decide_eq_true_eq] at h2
        rw [hnd_old _ h1, h2, hnd_new, hrowdef] at hname
        exact absurd hname (hnames n1 h1)
      · rw [decide_eq_true_eq] at h1
        rw [h1, hnd_new, hrowdef, hnd_old _ h2] at hname
        exact absurd hname.symm (hnames n2 h2)
      · rw [decide_eq_true_eq] at h1
        rw [decide_eq_true_eq] at h2
        rw [h1, h2]

theorem getD_replicate_none (w bit : Nat) :
    (List.replicate w (none : Option Nat)).getD bit none = none := by
  rw [List.getD_eq_getElem?_getD, List.getElem?_replicate]
  by_cases h : bit < w <;> simp [h]

theorem create_port_WF_aux {nl : AtomNetlist} (h : WF nl) {blk : Nat} {name : String}
    {w : Nat} {bd2 : BlockData}
    (hblk : nl.valid_block_id blk = true)
    (hfresh : ∀ p, nl.valid_port_id p = true → (nl.portD p).block = blk →
      (nl.portD p).name ≠ name)
    (hbd2name : bd2.name = (nl.blockD blk).name)
    (hmem : ∀ q, q ∈ bd2.allPorts ↔ q ∈ (nl.blockD blk).allPorts ∨ q = nl.port_ids_.length) :
    WF { nl with
      port_ids_ := nl.port_ids_ ++ [some nl.port_ids_.length],
      ports_ := nl.ports_ ++ [⟨name, blk, List.replicate w none⟩],
      blocks_ := nl.blocks_.set blk bd2 } := by
  have hLP : nl.port_ids_.length = nl.ports_.length := h.size_ports
  have hblk_lt : blk < nl.blocks_.length := h.size_blocks ▸ vId_lt hblk
  set row : PortData := ⟨name, blk, List.replicate w none⟩ with hrowdef
  set N : AtomNetlist := { nl with
    port_ids_ := nl.port_ids_ ++ [some nl.port_ids_.length],
    ports_ := nl.ports_ ++ [row],
    blocks_ := nl.blocks_.set blk bd2 } with hNdef
  have hvb : N.valid_block_id = nl.valid_block_id := rfl
  have hvx : N.valid_pin_id = nl.valid_pin_id := rfl
  have hvn : N.valid_net_id = nl.valid_net_id := rfl
  have hxd : N.pinD = nl.pinD := rfl
  have hnd : N.netD = nl.netD := rfl
  have hvp : ∀ c, N.valid_port_id c =
      (vId nl.port_ids_ c || decide (c = nl.port_ids_.length)) :=
    fun c => vId_snoc nl.port_ids_ c
  have hpd_old : ∀ c, vId nl.port_ids_ c = true → N.portD c = nl.portD c := by
    intro c hc
    show (nl.ports_ ++ [row]).getD c default = nl.portD c
    exact getD_append_lt _ _ (hLP ▸ vId_lt hc) _
  have hpd_new : N.portD nl.port_ids_.length = row := by
    show (nl.ports_ ++ [row]).getD nl.port_ids_.length default = row
    rw [hLP]
    exact getD_snoc_self _ _ _
  have hbd_ne : ∀ c, c ≠ blk → N.blockD c = nl.blockD c := by
    intro c hc
    show (nl.blocks_.set blk bd2).getD c default = nl.blockD c
    exact getD_set_ne _ (fun he => hc he.symm) _ _
  have hbd_blk : N.blockD blk = bd2 := by
    show (nl.blocks_.set blk bd2).getD blk default = bd2
    exact getD_set_self _ hblk_lt _ _
  have hbd_name : ∀ c, (N.blockD c).name = (nl.blockD c).name := by
    intro c
    by_cases hc : c = blk
    · rw [hc, hbd_blk, hbd2name]
    · rw [hbd_ne c hc]
  have hL_not_old : vId nl.port_ids_ nl.port_ids_.length = false := by
    cases hv : vId nl.port_ids_ nl.port_ids_.length
    · rfl
    · exact absurd (vId_lt hv) (Nat.lt_irrefl _)
  constructor
  · exact h.size_blocks.trans (List.length_set nl.blocks_ blk bd2).symm
  · show (nl.port_ids_ ++ [some nl.port_ids_.length]).length = (nl.ports_ ++ [row]).length
    simp [hLP]
  · exact h.size_pins
  · exact h.size_nets
  · intro p hp
    rw [hvp, Bool.or_eq_true] at hp
    rw [hvb]
    rcases hp with hp | hp
    · rw [hpd_old _ hp]
      exact h.port_block_valid p hp
    · rw [decide_eq_true_eq] at hp
      rw [hp, hpd_new, hrowdef]
      exact hblk
  · intro p hp
    rw [hvp, Bool.or_eq_true] at hp
    rcases hp with hp | hp
    · rw [hpd_old _ hp]
      by_cases hc : (nl.portD p).block = blk
      · rw [hc, hbd_blk]
        rw [hmem]
        exact Or.inl (hc ▸ h.port_in_block p hp)
      · rw [hbd_ne _ hc]
        exact h.port_in_block p hp
    · rw [decide_eq_true_eq] at hp
      rw [hp, hpd_new, hrowdef]
      show nl.port_ids_.length ∈ (N.blockD blk).allPorts
      rw [hbd_blk, hmem]
      exact Or.inr rfl
  · intro b p hb hp hpv
    rw [hvb] at hb
    rw [hvp, Bool.or_eq_true] at hpv
    rcases hpv with hpv | hpv
    · have hpL : p ≠ nl.port_ids_.length := by
        intro he
        rw [he] at hpv
        rw [hL_not_old] at hpv
        exact Bool.false_ne_true hpv
      rw [hpd_old _ hpv]
      by_cases hc : b = blk
      · rw [hc, hbd_blk, hmem] at hp
        rcases hp with hp | hp
        · rw [hc]
          exact h.block_port_owner blk p (hc ▸ hb) hp hpv
        · exact absurd hp hpL
      · rw [hbd_ne _ hc] at hp
        exact h.block_port_owner b p hb hp hpv
    · rw [decide_eq_true_eq] at hpv
      rw [hpv, hpd_new, hrowdef]
      by_cases hc : b = blk
      · exact hc.symm
      · rw [hbd_ne _ hc] at hp
        rw [hpv] at hp
        have := h.block_port_bound b _ hb hp
        exact absurd this (Nat.lt_irrefl _)
  · intro b p hb hp
    rw [hvb] at hb
    show p < (nl.port_ids_ ++ [some nl.port_ids_.length]).length
    have hlen : (nl.port_ids_ ++ [some nl.port_ids_.length]).length =
        nl.port_ids_.length + 1 := by simp
    rw [hlen]
    by_cases hc : b = blk
    · rw [hc, hbd_blk, hmem] at hp
      rcases hp with hp | hp
      · exact Nat.lt_succ_of_lt (h.block_port_bound blk p (hc ▸ hb) hp)
      · rw [hp]
        exact Nat.lt_succ_self _
    · rw [hbd_ne _ hc] at hp
      exact Nat.lt_succ_of_lt (h.block_port_bound b p hb hp)
  · intro x hx
    rw [hvx] at hx
    rw [hvp, Bool.or_eq_true, hxd]
    exact Or.inl (h.pin_port_valid x hx)
  · intro x hx
    rw [hvx] at hx
    rw [hxd, hpd_old _ (h.pin_port_valid x hx)]
    exact h.pin_slot x hx
  · intro p bit x hp hs
    rw [hvp, Bool.or_eq_true] at hp
    rw [hvx, hxd]
    rcases hp with hp | hp
    · rw [hpd_old _ hp] at hs
      exact h.slot_pin p bit x hp hs
    · rw [decide_eq_true_eq] at hp
      rw [hp, hpd_new, hrowdef] at hs
      rw [getD_replicate_none] at hs
      exact absurd hs (by simp)
  · intro x n hx hn
    rw [hvx] at hx
    rw [hxd] at hn
    rw [hvn]
    exact h.pin_net_valid x n hx hn
  · intro x n hx hn
    rw [hvx] at hx
    rw [hxd] at hn
    rw [hnd]
    exact h.pin_in_net x n hx hn
  · intro n hn
    rw [hvn] at hn
    rw [hnd]
    exact h.net_nonempty n hn
  · intro n s hn hs
    rw [hvn] at hn
    rw [hnd] at hs
    exact h.net_tail_filled n s hn hs
  · intro n x hn hx
    rw [hvn] at hn
    rw [hnd] at hx
    show x < nl.pin_ids_.length
    exact h.net_pin_bound n x hn hx
  · intro n x hn hx hv
    rw [hvn] at hn
    rw [hnd] at hx
    rw [hvx] at hv
    rw [hxd]
    exact h.net_pin_back n x hn hx hv
  · intro b1 b2 hb1 hb2 hname
    rw [hvb] at hb1 hb2
    rw [hbd_name, hbd_name] at hname
    exact h.block_names_inj b1 b2 hb1 hb2 hname
  · intro p1 p2 hp1 hp2 hpb hpn
    rw [hvp, Bool.or_eq_true] at hp1 hp2
    rcases hp1 with h1 | h1 <;> rcases hp2 with h2 | h2
    · rw [hpd_old _ h1, hpd_old _ h2] at hpb hpn
      exact h.port_key_inj p1 p2 h1 h2 hpb hpn
    · rw [decide_eq_true_eq] at h2
      rw [hpd_old _ h1, h2, hpd_new, hrowdef] at hpb hpn
      exact absurd hpn (hfresh p1 h1 hpb)
    · rw [decide_eq_true_eq] at h1
      rw [h1, hpd_new, hrowdef, hpd_old _ h2] at hpb hpn
      exact absurd hpn.symm (hfresh p2 h2 hpb.symm)
    · rw [decide_eq_true_eq] at h1
      rw [decide_eq_true_eq] at h2
      rw [h1, h2]
  · intro n1 n2 hn1 hn2 hname
    rw [hvn] at hn1 hn2
    rw [hnd] at hname
    exact h.net_names_inj n1 n2 hn1 hn2 hname

theorem create_port_WF {nl : AtomNetlist} (h : WF nl) (blk : Nat) (name : String) :
    ∀ res, nl.create_port blk name = some res → WF res.1 := by
  intro res hres
  unfold create_port at hres
  cases hblk : nl.valid_block_id blk with
  | false => simp [hblk] at hres
  | true =>
  rw [hblk] at hres
  simp only [if_true] at hres
  cases hfp : nl.find_port blk name with
  | some p =>
    rw [hfp] at hres
    simp only [Option.some_inj] at hres
    rw [← hres]
    exact h
  | none =>
    rw [hfp] at hres
    cases hmp : (nl.blockD blk).model.ports.find? (fun mp => mp.name == name) with
    | none => rw [hmp] at hres; simp at hres
    | some mp =>
      rw [hmp] at hres
      have hfresh := (nl.find_port_eq_none_iff blk name).mp hfp
      cases hdir : mp.dir with
      | INPUT =>
        simp only [hdir, Option.some_inj] at hres
        rw [← hres]
        exact create_port_WF_aux h hblk hfresh rfl (by
          intro q
          simp [BlockData.allPorts, List.mem_append]
          tauto)
      | OUTPUT =>
        simp only [hdir, Option.some_inj] at hres
        rw [← hres]
        exact create_port_WF_aux h hblk hfresh rfl (by
          intro q
          simp [BlockData.allPorts, List.mem_append]
          tauto)
      | CLOCK =>
        simp only [hdir, Option.some_inj] at hres
        rw [← hres]
        exact create_port_WF_aux h hblk hfresh rfl (by
          intro q
          simp [BlockData.allPorts, List.mem_append]
          tauto)

theorem NetData_addPin_mem_self (nd : NetData) (x : Nat) (pt : AtomPinType) :
    some x ∈ (nd.addPin x pt).pins := by
  cases pt
  · cases hp : nd.pins <;> simp [NetData.addPin, hp]
  · simp [NetData.addPin]

theorem NetData_addPin_mem_of_mem {nd : NetData} {x : Nat} {pt : AtomPinType}
    {s : Option Nat} (hfree : pt = AtomPinType.DRIVER → nd.pins.headD none = none)
    (hs : s ∈ nd.pins) (hsome : s ≠ none) : s ∈ (nd.addPin x pt).pins := by
  cases pt
  · cases hp : nd.pins with
    | nil => rw [hp] at hs; simp at hs
    | cons hd t =>
      have hhd : hd = none := by
        have := hfree rfl
        rw [hp] at this
        simpa using this
      rw [hp] at hs
      rcases List.mem_cons.mp hs with he | he
      · exact absurd (he.trans hhd) hsome
      · simp [NetData.addPin, hp]
        exact Or.inr he
  · simp [NetData.addPin]
    exact Or.inl hs

theorem NetData_addPin_mem_elim {nd : NetData} {x : Nat} {pt : AtomPinType} {s : Option Nat}
    (hs : s ∈ (nd.addPin x pt).pins) : s ∈ nd.pins ∨ s = some x := by
  cases pt
  · cases hp : nd.pins with
    | nil =>
      rw [NetData.addPin, hp] at hs
      simp at hs
      exact Or.inr hs
    | cons hd t =>
      rw [NetData.addPin, hp] at hs
      simp at hs
      rcases hs with hs | hs
      · exact Or.inr hs
      · exact Or.inl (List.mem_cons_of_mem hd hs)
  · rw [NetData.addPin] at hs
    simp at hs
    rcases hs with hs | hs
    · exact Or.inl hs
    · exact Or.inr hs

theorem NetData_addPin_ne_nil (nd : NetData) (x : Nat) (pt : AtomPinType) :
    (nd.addPin x pt).pins ≠ [] := by
  cases pt
  · cases hp : nd.pins <;> simp [NetData.addPin, hp]
  · simp [NetData.addPin]

theorem NetData_addPin_tail_driver (nd : NetData) (x : Nat) :
    (nd.addPin x AtomPinType.DRIVER).pins.tail = nd.pins.tail := by
  cases hp : nd.pins <;> simp [NetData.addPin, hp]

theorem NetData_addPin_tail_sink (nd : NetData) (x : Nat) (hne : nd.pins ≠ []) :
    (nd.addPin x AtomPinType.SINK).pins.tail = nd.pins.tail ++ [some x] := by
  cases hp : nd.pins with
  | nil => exact absurd hp hne
  | cons hd t => simp [NetData.addPin, hp]

theorem create_pin_WF_nonet {nl : AtomNetlist} (h : WF nl) {port bit : Nat}
    {ptype : AtomPinType}
    (hport : nl.valid_port_id port = true)
    (hbit : bit < (nl.portD port).pins.length)
    (hslot : (nl.portD port).pins.getD bit none = none) :
    WF { nl with
      pin_ids_ := nl.pin_ids_ ++ [some nl.pin_ids_.length],
      pins_ := nl.pins_ ++ [⟨port, bit, none, ptype⟩],
      ports_ := nl.ports_.set port
        { nl.portD port with
          pins := (nl.portD port).pins.set bit (some nl.pin_ids_.length) } } := by
  have hLX : nl.pin_ids_.length = nl.pins_.length := h.size_pins
  have hport_lt : port < nl.ports_.length := h.size_ports ▸ vId_lt hport
  set X := nl.pin_ids_.length with hXdef
  set row : PinData := ⟨port, bit, none, ptype⟩ with hrowdef
  set pd2 : PortData := { nl.portD port with
    pins := (nl.portD port).pins.set bit (some X) } with hpd2def
  set N : AtomNetlist := { nl with
    pin_ids_ := nl.pin_ids_ ++ [some X],
    pins_ := nl.pins_ ++ [row],
    ports_ := nl.ports_.set port pd2 } with hNdef
  have hvb : N.valid_block_id = nl.valid_block_id := rfl
  have hvp : N.valid_port_id = nl.valid_port_id := rfl
  have hvn : N.valid_net_id = nl.valid_net_id := rfl
  have hbd : N.blockD = nl.blockD := rfl
  have hnd : N.netD = nl.netD := rfl
  have hvx : ∀ c, N.valid_pin_id c = (vId nl.pin_ids_ c || decide (c = X)) :=
    fun c => vId_snoc nl.pin_ids_ c
  have hxd_old : ∀ c, vId nl.pin_ids_ c = true → N.pinD c = nl.pinD c := by
    intro c hc
    show (nl.pins_ ++ [row]).getD c default = nl.pinD c
    exact getD_append_lt _ _ (hLX ▸ vId_lt hc) _
  have hxd_new : N.pinD X = row := by
    show (nl.pins_ ++ [row]).getD X default = row
    rw [hLX]
    exact getD_snoc_self _ _ _
  have hpd_ne : ∀ q, q ≠ port → N.portD q = nl.portD q := by
    intro q hq
    show (nl.ports_.set port pd2).getD q default = nl.portD q
    exact getD_set_ne _ (fun he => hq he.symm) _ _
  have hpd_port : N.portD port = pd2 := by
    show (nl.ports_.set port pd2).getD port default = pd2
    exact getD_set_self _ hport_lt _ _
  have hpd_block : ∀ q, (N.portD q).block = (nl.portD q).block := by
    intro q
    by_cases hq : q = port
    · rw [hq, hpd_port, hpd2def]
    · rw [hpd_ne q hq]
  have hpd_name : ∀ q, (N.portD q).name = (nl.portD q).name := by
    intro q
    by_cases hq : q = port
    · rw [hq, hpd_port, hpd2def]
    · rw [hpd_ne q hq]
  have hX_not_old : vId nl.pin_ids_ X = false := by
    cases hv : vId nl.pin_ids_ X
    · rfl
    · exact absurd (vId_lt hv) (Nat.lt_irrefl _)
  constructor
  · exact h.size_blocks
  · exact h.size_ports.trans (List.length_set nl.ports_ port pd2).symm
  · show (nl.pin_ids_ ++ [some X]).length = (nl.pins_ ++ [row]).length
    simp [hXdef.symm.trans hLX]
  · exact h.size_nets
  · intro p hp
    rw [hvp] at hp
    rw [hvb, hpd_block]
    exact h.port_block_valid p hp
  · intro p hp
    rw [hvp] at hp
    rw [hbd, hpd_block]
    exact h.port_in_block p hp
  · intro b p hb hp hpv
    rw [hvb] at hb
    rw [hbd] at hp
    rw [hvp] at hpv
    rw [hpd_block]
    exact h.block_port_owner b p hb hp hpv
  · intro b p hb hp
    rw [hvb] at hb
    rw [hbd] at hp
    show p < nl.port_ids_.length
    exact h.block_port_bound b p hb hp
  · intro x hx
    rw [hvx, Bool.or_eq_true] at hx
    rw [hvp]
    rcases hx with hx | hx
    · rw [hxd_old _ hx]
      exact h.pin_port_valid x hx
    · rw [decide_eq_true_eq] at hx
      rw [hx, hxd_new, hrowdef]
      exact hport
  · intro x hx
    rw [hvx, Bool.or_eq_true] at hx
    rcases hx with hx | hx
    · rw [hxd_old _ hx]
      have hps := h.pin_slot x hx
      by_cases hq : (nl.pinD x).port = port
      · rw [hq, hpd_port, hpd2def]
        have hbne : (nl.pinD x).port_bit ≠ bit := by
          intro he
          rw [hq, he, hslot] at hps
          exact Option.noConfusion hps
        show ((nl.portD port).pins.set bit (some X)).getD (nl.pinD x).port_bit none = some x
        rw [getD_set_ne _ (fun he => hbne he.symm)]
        rw [hq] at hps
        exact hps
      · rw [hpd_ne _ hq]
        exact hps
    · rw [decide_eq_true_eq] at hx
      rw [hx, hxd_new, hrowdef, hpd_port, hpd2def]
      show ((nl.portD port).pins.set bit (some X)).getD bit none = some X
      exact getD_set_self _ hbit _ _
  · intro p bitq x hp hs
    rw [hvp] at hp
    rw [hvx]
    by_cases hq : p = port
    · rw [hq, hpd_port, hpd2def] at hs
      by_cases hbq : bitq = bit
      · rw [hbq] at hs
        have hsx : ((nl.portD port).pins.set bit (some X)).getD bit none = some X :=
          getD_set_self _ hbit _ _
        rw [hsx] at hs
        have hxX : x = X := (Option.some_inj.mp hs).symm
        refine ⟨?_, ?_, ?_⟩
        · simp [hxX]
        · rw [hxX, hxd_new, hrowdef, hq]
        · rw [hxX, hxd_new, hrowdef, hbq]
      · have : ((nl.portD port).pins.set bit (some X)).getD bitq none =
            (nl.portD port).pins.getD bitq none := getD_set_ne _ (fun he => hbq he.symm) _ _
        rw [this] at hs
        rcases h.slot_pin port bitq x hport hs with ⟨hv1, hv2, hv3⟩
        refine ⟨by rw [Bool.or_eq_true]; exact Or.inl hv1, ?_, ?_⟩
        · rw [hxd_old _ hv1, hv2, hq]
        · rw [hxd_old _ hv1, hv3]
    · rw [hpd_ne _ hq] at hs
      rcases h.slot_pin p bitq x hp hs with ⟨hv1, hv2, hv3⟩
      refine ⟨by rw [Bool.or_eq_true]; exact Or.inl hv1, ?_, ?_⟩
      · rw [hxd_old _ hv1, hv2]
      · rw [hxd_old _ hv1, hv3]
  · intro x n hx hn
    rw [hvx, Bool.or_eq_true] at hx
    rw [hvn]
    rcases hx with hx | hx
    · rw [hxd_old _ hx] at hn
      exact h.pin_net_valid x n hx hn
    · rw [decide_eq_true_eq] at hx
      rw [hx, hxd_new, hrowdef] at hn
      exact Option.noConfusion hn
  · intro x n hx hn
    rw [hvx, Bool.or_eq_true] at hx
    rw [hnd]
    rcases hx with hx | hx
    · rw [hxd_old _ hx] at hn
      exact h.pin_in_net x n hx hn
    · rw [decide_eq_true_eq] at hx
      rw [hx, hxd_new, hrowdef] at hn
      exact Option.noConfusion hn
  · intro n hn
    rw [hvn] at hn
    rw [hnd]
    exact h.net_nonempty n hn
  · intro n s hn hs
    rw [hvn] at hn
    rw [hnd] at hs
    exact h.net_tail_filled n s hn hs
  · intro n x hn hx
    rw [hvn] at hn
    rw [hnd] at hx
    show x < (nl.pin_ids_ ++ [some X]).length
    have := h.net_pin_bound n x hn hx
    simp only [List.length_append, List.length_cons, List.length_nil]
    omega
  · intro n x hn hx hv
    rw [hvn] at hn
    rw [hnd] at hx
    rw [hvx, Bool.or_eq_true] at hv
    have hxlt := h.net_pin_bound n x hn hx
    rcases hv with hv | hv
    · rw [hxd_old _ hv]
      exact h.net_pin_back n x hn hx hv
    · rw [decide_eq_true_eq] at hv
      rw [hv, hXdef] at hxlt
      exact absurd hxlt (Nat.lt_irrefl _)
  · intro b1 b2 hb1 hb2 hname
    rw [hvb] at hb1 hb2
    rw [hbd] at hname
    exact h.block_names_inj b1 b2 hb1 hb2 hname
  · intro p1 p2 hp1 hp2 hpb hpn
    rw [hvp] at hp1 hp2
    rw [hpd_block, hpd_block] at hpb
    rw [hpd_name, hpd_name] at hpn
    exact h.port_key_inj p1 p2 hp1 hp2 hpb hpn
  · intro n1 n2 hn1 hn2 hname
    rw [hvn] at hn1 hn2
    rw [hnd] at hname
    exact h.net_names_inj n1 n2 hn1 hn2 hname

theorem NetData_addPin_name (nd : NetData) (x : Nat) (pt : AtomPinType) :
    (nd.addPin x pt).name = nd.name := by
  cases pt <;> cases nd.pins <;> simp [NetData.addPin]

theorem create_pin_WF_net {nl : AtomNetlist} (h : WF nl) {port bit n : Nat}
    {ptype : AtomPinType}
    (hport : nl.valid_port_id port = true)
    (hbit : bit < (nl.portD port).pins.length)
    (hslot : (nl.portD port).pins.getD bit none = none)
    (hn : nl.valid_net_id n = true)
    (hfree : ptype = AtomPinType.DRIVER → (nl.netD n).pins.headD none = none) :
    WF { nl with
      pin_ids_ := nl.pin_ids_ ++ [some nl.pin_ids_.length],
      pins_ := nl.pins_ ++ [⟨port, bit, some n, ptype⟩],
      ports_ := nl.ports_.set port
        { nl.portD port with
          pins := (nl.portD port).pins.set bit (some nl.pin_ids_.length) },
      nets_ := nl.nets_.set n ((nl.netD n).addPin nl.pin_ids_.length ptype) } := by
  have hLX : nl.pin_ids_.length = nl.pins_.length := h.size_pins
  have hport_lt : port < nl.ports_.length := h.size_ports ▸ vId_lt hport
  have hn_lt : n < nl.nets_.length := h.size_nets ▸ vId_lt hn
  set X := nl.pin_ids_.length with hXdef
  set row : PinData := ⟨port, bit, some n, ptype⟩ with hrowdef
  set pd2 : PortData := { nl.portD port with
    pins := (nl.portD port).pins.set bit (some X) } with hpd2def
  set nd2 : NetData := (nl.netD n).addPin X ptype with hnd2def
  set N : AtomNetlist := { nl with
    pin_ids_ := nl.pin_ids_ ++ [some X],
    pins_ := nl.pins_ ++ [row],
    ports_ := nl.ports_.set port pd2,
    nets_ := nl.nets_.set n nd2 } with hNdef
  have hvb : N.valid_block_id = nl.valid_block_id := rfl
  have hvp : N.valid_port_id = nl.valid_port_id := rfl
  have hvn : N.valid_net_id = nl.valid_net_id := rfl
  have hbd : N.blockD = nl.blockD := rfl
  have hvx : ∀ c, N.valid_pin_id c = (vId nl.pin_ids_ c || decide (c = X)) :=
    fun c => vId_snoc nl.pin_ids_ c
  have hxd_old : ∀ c, vId nl.pin_ids_ c = true → N.pinD c = nl.pinD c := by
    intro c hc
    show (nl.pins_ ++ [row]).getD c default = nl.pinD c
    exact getD_append_lt _ _ (hLX ▸ vId_lt hc) _
  have hxd_new : N.pinD X = row := by
    show (nl.pins_ ++ [row]).getD X default = row
    rw [hLX]
    exact getD_snoc_self _ _ _
  have hpd_ne : ∀ q, q ≠ port → N.portD q = nl.portD q := by
    intro q hq
    show (nl.ports_.set port pd2).getD q default = nl.portD q
    exact getD_set_ne _ (fun he => hq he.symm) _ _
  have hpd_port : N.portD port = pd2 := by
    show (nl.ports_.set port pd2).getD port default = pd2
    exact getD_set_self _ hport_lt _ _
  have hpd_block : ∀ q, (N.portD q).block = (nl.portD q).block := by
    intro q
    by_cases hq : q = port
    · rw [hq, hpd_port, hpd2def]
    · rw [hpd_ne q hq]
  have hpd_name : ∀ q, (N.portD q).name = (nl.portD q).name := by
    intro q
    by_cases hq : q = port
    · rw [hq, hpd_port, hpd2def]
    · rw [hpd_ne q hq]
  have hnd_ne : ∀ m, m ≠ n → N.netD m = nl.netD m := by
    intro m hm
    show (nl.nets_.set n nd2).getD m default = nl.netD m
    exact getD_set_ne _ (fun he => hm he.symm) _ _
  have hnd_n : N.netD n = nd2 := by
    show (nl.nets_.set n nd2).getD n default = nd2
    exact getD_set_self _ hn_lt _ _
  have hnd_name : ∀ m, (N.netD m).name = (nl.netD m).name := by
    intro m
    by_cases hm : m = n
    · rw [hm, hnd_n, hnd2def]
      exact NetData_addPin_name _ _ _
    · rw [hnd_ne m hm]
  have hX_not_old : vId nl.pin_ids_ X = false := by
    cases hv : vId nl.pin_ids_ X
    · rfl
    · exact absurd (vId_lt hv) (Nat.lt_irrefl _)
  constructor
  · exact h.size_blocks
  · exact h.size_ports.trans (List.length_set nl.ports_ port pd2).symm
  · show (nl.pin_ids_ ++ [some X]).length = (nl.pins_ ++ [row]).length
    simp [hXdef.symm.trans hLX]
  · exact h.size_nets.trans (List.length_set nl.nets_ n nd2).symm
  · intro p hp
    rw [hvp] at hp
    rw [hvb, hpd_block]
    exact h.port_block_valid p hp
  · intro p hp
    rw [hvp] at hp
    rw [hbd, hpd_block]
    exact h.port_in_block p hp
  · intro b p hb hp hpv
    rw [hvb] at hb
    rw [hbd] at hp
    rw [hvp] at hpv
    rw [hpd_block]
    exact h.block_port_owner b p hb hp hpv
  · intro b p hb hp
    rw [hvb] at hb
    rw [hbd] at hp
    show p < nl.port_ids_.length
    exact h.block_port_bound b p hb hp
  · intro x hx
    rw [hvx, Bool.or_eq_true] at hx
    rw [hvp]
    rcases hx with hx | hx
    · rw [hxd_old _ hx]
      exact h.pin_port_valid x hx
    · rw [decide_eq_true_eq] at hx
      rw [hx, hxd_new, hrowdef]
      exact hport
  · intro x hx
    rw [hvx, Bool.or_eq_true] at hx
    rcases hx with hx | hx
    · rw [hxd_old _ hx]
      have hps := h.pin_slot x hx
      by_cases hq : (nl.pinD x).port = port
      · rw [hq, hpd_port, hpd2def]
        have hbne : (nl.pinD x).port_bit ≠ bit := by
          intro he
          rw [hq, he, hslot] at hps
          exact Option.noConfusion hps
        show ((nl.portD port).pins.set bit (some X)).getD (nl.pinD x).port_bit none = some x
        rw [getD_set_ne _ (fun he => hbne he.symm)]
        rw [hq] at hps
        exact hps
      · rw [hpd_ne _ hq]
        exact hps
    · rw [decide_eq_true_eq] at hx
      rw [hx, hxd_new, hrowdef, hpd_port, hpd2def]
      show ((nl.portD port).pins.set bit (some X)).getD bit none = some X
      exact getD_set_self _ hbit _ _
  · intro p bitq x hp hs
    rw [hvp] at hp
    rw [hvx]
    by_cases hq : p = port
    · rw [hq, hpd_port, hpd2def] at hs
      by_cases hbq : bitq = bit
      · rw [hbq] at hs
        have hsx : ((nl.portD port).pins.set bit (some X)).getD bit none = some X :=
          getD_set_self _ hbit _ _
        rw [hsx] at hs
        have hxX : x = X := (Option.some_inj.mp hs).symm
        refine ⟨?_, ?_, ?_⟩
        · simp [hxX]
        · rw [hxX, hxd_new, hrowdef, hq]
        · rw [hxX, hxd_new, hrowdef, hbq]
      · have : ((nl.portD port).pins.set bit (some X)).getD bitq none =
            (nl.portD port).pins.getD bitq none := getD_set_ne _ (fun he => hbq he.symm) _ _
        rw [this] at hs
        rcases h.slot_pin port bitq x hport hs with ⟨hv1, hv2, hv3⟩
        refine ⟨by rw [Bool.or_eq_true]; exact Or.inl hv1, ?_, ?_⟩
        · rw [hxd_old _ hv1, hv2, hq]
        · rw [hxd_old _ hv1, hv3]
    · rw [hpd_ne _ hq] at hs
      rcases h.slot_pin p bitq x hp hs with ⟨hv1, hv2, hv3⟩
      refine ⟨by rw [Bool.or_eq_true]; exact Or.inl hv1, ?_, ?_⟩
      · rw [hxd_old _ hv1, hv2]
      · rw [hxd_old _ hv1, hv3]
  · intro x m hx hm
    rw [hvx, Bool.or_eq_true] at hx
    rw [hvn]
    rcases hx with hx | hx
    · rw [hxd_old _ hx] at hm
      exact h.pin_net_valid x m hx hm
    · rw [decide_eq_true_eq] at hx
      rw [hx, hxd_new, hrowdef] at hm
      have : m = n := (Option.some_inj.mp hm).symm
      rw [this]
      exact hn
  · intro x m hx hm
    rw [hvx, Bool.or_eq_true] at hx
    rcases hx with hx | hx
    · rw [hxd_old _ hx] at hm
      have hmem := h.pin_in_net x m hx hm
      by_cases hq : m = n
      · rw [hq, hnd_n, hnd2def]
        refine NetData_addPin_mem_of_mem hfree ?_ (by simp)
        rw [← hq]
        exact hmem
      · rw [hnd_ne m hq]
        exact hmem
    · rw [decide_eq_true_eq] at hx
      rw [hx, hxd_new, hrowdef] at hm
      have hmn : m = n := (Option.some_inj.mp hm).symm
      rw [hx, hmn, hnd_n, hnd2def]
      exact NetData_addPin_mem_self _ _ _
  · intro m hm
    rw [hvn] at hm
    by_cases hq : m = n
    · rw [hq, hnd_n, hnd2def]
      exact NetData_addPin_ne_nil _ _ _
    · rw [hnd_ne m hq]
      exact h.net_nonempty m hm
  · intro m s hm hs
    rw [hvn] at hm
    by_cases hq : m = n
    · rw [hq, hnd_n, hnd2def] at hs
      cases hpt : ptype
      · rw [hpt, NetData_addPin_tail_driver] at hs
        exact h.net_tail_filled n s hn hs
      · rw [hpt, NetData_addPin_tail_sink _ _ (h.net_nonempty n hn)] at hs
        rcases List.mem_append.mp hs with hs | hs
        · exact h.net_tail_filled n s hn hs
        · rw [List.mem_singleton.mp hs]
          simp
    · rw [hnd_ne m hq] at hs
      exact h.net_tail_filled m s hm hs
  · intro m x hm hx
    rw [hvn] at hm
    show x < (nl.pin_ids_ ++ [some X]).length
    simp only [List.length_append, List.length_cons, List.length_nil]
    by_cases hq : m = n
    · rw [hq, hnd_n, hnd2def] at hx
      rcases NetData_addPin_mem_elim hx with hx | hx
      · have := h.net_pin_bound n x hn hx
        omega
      · have : x = X := Option.some_inj.mp hx
        rw [this, hXdef]
        omega
    · rw [hnd_ne m hq] at hx
      have := h.net_pin_bound m x hm hx
      omega
  · intro m x hm hx hv
    rw [hvn] at hm
    by_cases hq : m = n
    · rw [hq, hnd_n, hnd2def] at hx
      rcases NetData_addPin_mem_elim hx with hx | hx
      · have hbound := h.net_pin_bound n x hn hx
        have hxX : x ≠ X := by
          intro he
          rw [he, hXdef] at hbound
          exact absurd hbound (Nat.lt_irrefl _)
        rw [hvx, Bool.or_eq_true] at hv
        rcases hv with hv | hv
        · rw [hxd_old _ hv, hq]
          exact h.net_pin_back n x hn hx hv
        · rw [decide_eq_true_eq] at hv
          exact absurd hv hxX
      · have : x = X := Option.some_inj.mp hx
        rw [this, hxd_new, hrowdef, hq]
    · rw [hnd_ne m hq] at hx
      have hbound := h.net_pin_bound m x hm hx
      have hxX : x ≠ X := by
        intro he
        rw [he, hXdef] at hbound
        exact absurd hbound (Nat.lt_irrefl _)
      rw [hvx, Bool.or_eq_true] at hv
      rcases hv with hv | hv
      · rw [hxd_old _ hv]
        exact h.net_pin_back m x hm hx hv
      · rw [decide_eq_true_eq] at hv
        exact absurd hv hxX
  · intro b1 b2 hb1 hb2 hname
    rw [hvb] at hb1 hb2
    rw [hbd] at hname
    exact h.block_names_inj b1 b2 hb1 hb2 hname
  · intro p1 p2 hp1 hp2 hpb hpn
    rw [hvp] at hp1 hp2
    rw [hpd_block, hpd_block] at hpb
    rw [hpd_name, hpd_name] at hpn
    exact h.port_key_inj p1 p2 hp1 hp2 hpb hpn
  · intro n1 n2 hn1 hn2 hname
    rw [hvn] at hn1 hn2
    rw [hnd_name, hnd_name] at hname
    exact h.net_names_inj n1 n2 hn1 hn2 hname

theorem create_pin_WF {nl : AtomNetlist} (h : WF nl) (port bit : Nat) (net : Option Nat)
    (ptype : AtomPinType) :
    ∀ res, nl.create_pin port bit net ptype = some res → WF res.1 := by
  intro res hres
  unfold create_pin at hres
  split at hres
  case isFalse => exact absurd hres (by simp)
  case isTrue hcond =>
  rw [Bool.and_eq_true, Bool.and_eq_true] at hcond
  obtain ⟨⟨hport, hbitb⟩, hnetok⟩ := hcond
  have hbit : bit < (nl.portD port).pins.length := of_decide_eq_true hbitb
  split at hres
  case h_1 x heq =>
    simp only [Option.some_inj] at hres
    rw [← hres]
    exact h
  case h_2 heq =>
    have hslot : (nl.portD port).pins.getD bit none = none := heq
    split at hres
    case isFalse => exact absurd hres (by simp)
    case isTrue hfree =>
    cases net with
    | none =>
      simp only [Option.some_inj] at hres
      rw [← hres]
      exact create_pin_WF_nonet h hport hbit hslot
    | some n =>
      simp only [Option.some_inj] at hres
      rw [← hres]
      have hn : nl.valid_net_id n = true := by
        simpa [netOk] using hnetok
      have hfree2 : ptype = AtomPinType.DRIVER → (nl.netD n).pins.headD none = none := by
        intro hpt
        rw [hpt] at hfree
        simpa [driverSlotFree] using hfree
      exact create_pin_WF_net h hport hbit hslot hn hfree2

theorem setPinNets_length (ps : List PinData) (ts : List Nat) (v : Option Nat) :
    (setPinNets ps ts v).length = ps.length := by
  simp [setPinNets]

theorem setPinNets_getD_mem {ps : List PinData} {ts : List Nat} {v : Option Nat} {x : Nat}
    (hlt : x < ps.length) (hm : x ∈ ts) :
    (setPinNets ps ts v).getD x default = { ps.getD x default with net := v } := by
  rw [setPinNets, getD_map_range]
  simp [hlt, hm]

theorem setPinNets_getD_nmem {ps : List PinData} {ts : List Nat} {v : Option Nat} {x : Nat}
    (hm : x ∉ ts) :
    (setPinNets ps ts v).getD x default = ps.getD x default := by
  rw [setPinNets, getD_map_range]
  by_cases hlt : x < ps.length
  · simp [hlt, hm]
  · rw [if_neg hlt, getD_of_le _ (Nat.not_lt.mp hlt)]

theorem add_net_WF {nl : AtomNetlist} (h : WF nl) (name : String) (driver : Option Nat)
    (sinks : List Nat) :
    ∀ res, nl.add_net name driver sinks = Except.ok res → WF res.1 := by
  intro res hres
  unfold add_net at hres
  split at hres
  · exact absurd hres (by simp)
  rename_i hfindb
  simp only [] at hres
  split at hres
  case isFalse => exact absurd hres (by simp)
  case isTrue hall =>
  simp only [Except.ok.injEq] at hres
  rw [← hres]
  have hfind : nl.find_net name = none := by
    rcases ho : nl.find_net name with _ | c
    · rfl
    · rw [ho] at hfindb
      simp at hfindb
  have hnames := (nl.find_net_eq_none_iff name).mp hfind
  rw [Bool.and_eq_true] at hall
  obtain ⟨hallb, hnodupb⟩ := hall
  rw [List.all_eq_true] at hallb
  have hxs : ∀ x ∈ driver.toList ++ sinks,
      vId nl.pin_ids_ x = true ∧ (nl.pinD x).net = none := by
    intro x hx
    have := hallb x hx
    rw [Bool.and_eq_true] at this
    exact ⟨this.1, by simpa using this.2⟩
  have hLN : nl.net_ids_.length = nl.nets_.length := h.size_nets
  have hLX : nl.pin_ids_.length = nl.pins_.length := h.size_pins
  set L := nl.net_ids_.length with hLdef
  set xs := driver.toList ++ sinks with hxsdef
  set row : NetData := ⟨name, driver :: sinks.map some⟩ with hrowdef
  set N : AtomNetlist := { nl with
    net_ids_ := nl.net_ids_ ++ [some L],
    nets_ := nl.nets_ ++ [row],
    pins_ := setPinNets nl.pins_ xs (some L) } with hNdef
  have hvb : N.valid_block_id = nl.valid_block_id := rfl
  have hvp : N.valid_port_id = nl.valid_port_id := rfl
  have hvx : N.valid_pin_id = nl.valid_pin_id := rfl
  have hbd : N.blockD = nl.blockD := rfl
  have hpd : N.portD = nl.portD := rfl
  have hvn : ∀ c, N.valid_net_id c = (vId nl.net_ids_ c || decide (c = L)) :=
    fun c => vId_snoc nl.net_ids_ c
  have hnd_old : ∀ c, vId nl.net_ids_ c = true → N.netD c = nl.netD c := by
    intro c hc
    show (nl.nets_ ++ [row]).getD c default = nl.netD c
    exact getD_append_lt _ _ (hLN ▸ vId_lt hc) _
  have hnd_new : N.netD L = row := by
    show (nl.nets_ ++ [row]).getD L default = row
    rw [hLN]
    exact getD_snoc_self _ _ _
  have hxd_mem : ∀ x, x ∈ xs → N.pinD x = { nl.pinD x with net := some L } := by
    intro x hx
    have hlt : x < nl.pins_.length := hLX ▸ vId_lt (hxs x hx).1
    show (setPinNets nl.pins_ xs (some L)).getD x default = _
    exact setPinNets_getD_mem hlt hx
  have hxd_nmem : ∀ x, x ∉ xs → N.pinD x = nl.pinD x := by
    intro x hx
    show (setPinNets nl.pins_ xs (some L)).getD x default = _
    exact setPinNets_getD_nmem hx
  have hxd_port : ∀ x, (N.pinD x).port = (nl.pinD x).port := by
    intro x
    by_cases hm : x ∈ xs
    · rw [hxd_mem x hm]
    · rw [hxd_nmem x hm]
  have hxd_bit : ∀ x, (N.pinD x).port_bit = (nl.pinD x).port_bit := by
    intro x
    by_cases hm : x ∈ xs
    · rw [hxd_mem x hm]
    · rw [hxd_nmem x hm]
  have hmem_row : ∀ x, some x ∈ row.pins → x ∈ xs := by
    intro x hx
    rw [hrowdef] at hx
    rcases List.mem_cons.mp hx with hx | hx
    · rw [hxsdef]
      apply List.mem_append.mpr
      left
      cases driver with
      | none => exact Option.noConfusion hx
      | some d =>
        have : d = x := Option.some_inj.mp hx.symm
        rw [this]
        simp
    · rcases List.mem_map.mp hx with ⟨y, hy, hyx⟩
      have : y = x := Option.some_inj.mp hyx
      rw [hxsdef]
      exact List.mem_append.mpr (Or.inr (this ▸ hy))
  have hrow_mem : ∀ x, x ∈ xs → some x ∈ row.pins := by
    intro x hx
    rw [hrowdef]
    rw [hxsdef] at hx
    rcases List.mem_append.mp hx with hx | hx
    · cases driver with
      | none => simp at hx
      | some d =>
        simp at hx
        rw [hx]
        exact List.mem_cons_self _ _
    · exact List.mem_cons_of_mem _ (List.mem_map.mpr ⟨x, hx, rfl⟩)
  constructor
  · exact h.size_blocks
  · exact h.size_ports
  · show (nl.pin_ids_).length = (setPinNets nl.pins_ xs (some L)).length
    rw [setPinNets_length]
    exact hLX
  · show (nl.net_ids_ ++ [some L]).length = (nl.nets_ ++ [row]).length
    simp [hLdef.symm.trans hLN]
  · intro p hp
    rw [hvp] at hp
    rw [hvb, hpd]
    exact h.port_block_valid p hp
  · intro p hp
    rw [hvp] at hp
    rw [hbd, hpd]
    exact h.port_in_block p hp
  · intro b p hb hp hpv
    rw [hvb] at hb
    rw [hbd] at hp
    rw [hvp] at hpv
    rw [hpd]
    exact h.block_port_owner b p hb hp hpv
  · intro b p hb hp
    rw [hvb] at hb
    rw [hbd] at hp
    show p < nl.port_ids_.length
    exact h.block_port_bound b p hb hp
  · intro x hx
    rw [hvx] at hx
    rw [hvp, hxd_port]
    exact h.pin_port_valid x hx
  · intro x hx
    rw [hvx] at hx
    rw [hpd, hxd_port, hxd_bit]
    exact h.pin_slot x hx
  · intro p bit x hp hs
    rw [hvp] at hp
    rw [hpd] at hs
    rw [hvx, hxd_port, hxd_bit]
    exact h.slot_pin p bit x hp hs
  · intro x m hx hm
    rw [hvx] at hx
    rw [hvn, Bool.or_eq_true]
    by_cases hmem : x ∈ xs
    · rw [hxd_mem x hmem] at hm
      simp only at hm
      right
      rw [decide_eq_true_eq]
      exact (Option.some_inj.mp hm).symm
    · rw [hxd_nmem x hmem] at hm
      exact Or.inl (h.pin_net_valid x m hx hm)
  · intro x m hx hm
    rw [hvx] at hx
    by_cases hmem : x ∈ xs
    · rw [hxd_mem x hmem] at hm
      simp only at hm
      have hmL : m = L := (Option.some_inj.mp hm).symm
      rw [hmL, hnd_new]
      exact hrow_mem x hmem
    · rw [hxd_nmem x hmem] at hm
      rw [hnd_old _ (h.pin_net_valid x m hx hm)]
      exact h.pin_in_net x m hx hm
  · intro m hm
    rw [hvn, Bool.or_eq_true] at hm
    rcases hm with hm | hm
    · rw [hnd_old _ hm]
      exact h.net_nonempty m hm
    · rw [decide_eq_true_eq] at hm
      rw [hm, hnd_new, hrowdef]
      simp
  · intro m s hm hs
    rw [hvn, Bool.or_eq_true] at hm
    rcases hm with hm | hm
    · rw [hnd_old _ hm] at hs
      exact h.net_tail_filled m s hm hs
    · rw [decide_eq_true_eq] at hm
      rw [hm, hnd_new, hrowdef] at hs
      simp only [List.tail_cons] at hs
      rcases List.mem_map.mp hs with ⟨y, hy, hyx⟩
      rw [← hyx]
      simp
  · intro m x hm hx
    rw [hvn, Bool.or_eq_true] at hm
    show x < nl.pin_ids_.length
    rcases hm with hm | hm
    · rw [hnd_old _ hm] at hx
      exact h.net_pin_bound m x hm hx
    · rw [decide_eq_true_eq] at hm
      rw [hm, hnd_new] at hx
      exact vId_lt (hxs x (hmem_row x hx)).1
  · intro m x hm hx hv
    rw [hvn, Bool.or_eq_true] at hm
    rw [hvx] at hv
    rcases hm with hm | hm
    · rw [hnd_old _ hm] at hx
      have hback := h.net_pin_back m x hm hx hv
      have hnmem : x ∉ xs := by
        intro hc
        rw [(hxs x hc).2] at hback
        exact Option.noConfusion hback
      rw [hxd_nmem x hnmem]
      exact hback
    · rw [decide_eq_true_eq] at hm
      rw [hm, hnd_new] at hx
      have hmem := hmem_row x hx
      rw [hxd_mem x hmem]
      simp only
      rw [hm]
  · intro b1 b2 hb1 hb2 hname
    rw [hvb] at hb1 hb2
    rw [hbd] at hname
    exact h.block_names_inj b1 b2 hb1 hb2 hname
  · intro p1 p2 hp1 hp2 hpb hpn
    rw [hvp] at hp1 hp2
    rw [hpd] at hpb hpn
    exact h.port_key_inj p1 p2 hp1 hp2 hpb hpn
  · intro n1 n2 hn1 hn2 hname
    rw [hvn, Bool.or_eq_true] at hn1 hn2
    rcases hn1 with h1 | h1 <;> rcases hn2 with h2 | h2
    · rw [hnd_old _ h1, hnd_old _ h2] at hname
      exact h.net_names_inj n1 n2 h1 h2 hname
    · rw [decide_eq_true_eq] at h2
      rw [hnd_old _ h1, h2, hnd_new, hrowdef] at hname
      exact absurd hname (hnames n1 h1)
    · rw [decide_eq_true_eq] at h1
      rw [h1, hnd_new, hrowdef, hnd_old _ h2] at hname
      exact absurd hname.symm (hnames n2 h2)
    · rw [decide_eq_true_eq] at h1
      rw [decide_eq_true_eq] at h2
      rw [h1, h2]

theorem mem_of_getD {l : List (Option Nat)} {i : Nat} {x : Nat}
    (h : l.getD i none = some x) : some x ∈ l := by
  have hlt : i < l.length := by
    by_contra hc
    rw [getD_of_le _ (Nat.not_lt.mp hc)] at h
    exact Option.noConfusion h
  rw [getD_of_lt _ hlt] at h
  exact h ▸ List.getElem_mem hlt

theorem getD_of_mem {l : List (Option Nat)} {s : Option Nat} (h : s ∈ l) :
    ∃ i, i < l.length ∧ l.getD i none = s := by
  rcases List.getElem_of_mem h with ⟨i, hi, he⟩
  exact ⟨i, hi, by rw [getD_of_lt _ hi]; exact he⟩

theorem removeSlots_nil (xs : List Nat) : removeSlots [] xs = [] := rfl

theorem removeSlots_cons (hd : Option Nat) (t : List (Option Nat)) (xs : List Nat) :
    removeSlots (hd :: t) xs =
      (if slotRemoved xs hd then none else hd) ::
        t.filter (fun s => ! slotRemoved xs s) := rfl

theorem NetData_removePins_pins (nd : NetData) (xs : List Nat) :
    (nd.removePins xs).pins = removeSlots nd.pins xs := rfl

theorem NetData_removePins_name (nd : NetData) (xs : List Nat) :
    (nd.removePins xs).name = nd.name := rfl

theorem NetData_removePins_ne_nil (nd : NetData) (xs : List Nat) (h : nd.pins ≠ []) :
    (nd.removePins xs).pins ≠ [] := by
  rw [NetData_removePins_pins]
  cases hp : nd.pins with
  | nil => exact absurd hp h
  | cons hd t => rw [removeSlots_cons]; simp

theorem NetData_removePins_tail_subset {nd : NetData} {xs : List Nat} {s : Option Nat}
    (h : s ∈ (nd.removePins xs).pins.tail) : s ∈ nd.pins.tail := by
  rw [NetData_removePins_pins] at h
  cases hp : nd.pins with
  | nil => rw [hp, removeSlots_nil] at h; simp at h
  | cons hd t =>
    rw [hp, removeSlots_cons] at h
    simp only [List.tail_cons] at h ⊢
    exact (List.mem_filter.mp h).1

theorem NetData_removePins_mem_elim {nd : NetData} {xs : List Nat} {s : Option Nat}
    (h : s ∈ (nd.removePins xs).pins) :
    s = none ∨ (s ∈ nd.pins ∧ slotRemoved xs s = false) := by
  rw [NetData_removePins_pins] at h
  cases hp : nd.pins with
  | nil => rw [hp, removeSlots_nil] at h; simp at h
  | cons hd t =>
    rw [hp, removeSlots_cons] at h
    rcases List.mem_cons.mp h with he | ht
    · by_cases hr : slotRemoved xs hd = true
      · rw [if_pos hr] at he
        exact Or.inl he
      · rw [if_neg hr] at he
        refine Or.inr ⟨?_, ?_⟩
        · rw [he]
          exact List.mem_cons_self _ _
        · rw [he]
          cases hsr : slotRemoved xs hd
          · rfl
          · exact absurd hsr hr
    · have hmf := List.mem_filter.mp ht
      refine Or.inr ⟨?_, ?_⟩
      · exact List.mem_cons_of_mem _ hmf.1
      · have h2 := hmf.2
        cases hsr : slotRemoved xs s
        · rfl
        · rw [hsr] at h2
          simp at h2

theorem NetData_removePins_mem_of {nd : NetData} {xs : List Nat} {s : Option Nat}
    (hmem : s ∈ nd.pins) (hkeep : slotRemoved xs s = false) :
    s ∈ (nd.removePins xs).pins := by
  rw [NetData_removePins_pins]
  cases hp : nd.pins with
  | nil => rw [hp] at hmem; simp at hmem
  | cons hd t =>
    rw [hp] at hmem
    rw [removeSlots_cons]
    rcases List.mem_cons.mp hmem with he | ht
    · rw [← he, hkeep]
      simp
    · refine List.mem_cons_of_mem _ ?_
      exact List.mem_filter.mpr ⟨ht, by rw [hkeep]; rfl⟩

theorem NetData_removePins_not_mem (nd : NetData) {xs : List Nat} {x : Nat}
    (hx : x ∈ xs) : some x ∉ (nd.removePins xs).pins := by
  intro hmem
  rcases NetData_removePins_mem_elim hmem with he | ⟨_, hkeep⟩
  · exact Option.noConfusion he
  · rw [slotRemoved] at hkeep
    rw [decide_eq_false_iff_not] at hkeep
    exact hkeep hx

theorem remove_net_WF {nl : AtomNetlist} (h : WF nl) (n : Nat) :
    ∀ res, nl.remove_net n = some res → WF res := by
  intro res hres
  unfold remove_net at hres
  split at hres
  case isFalse => exact absurd hres (by simp)
  case isTrue hn =>
  simp only [Option.some_inj] at hres
  rw [← hres]
  set xs := (nl.netD n).pins.filterMap id with hxsdef
  set N : AtomNetlist := { nl with
    dirty_ := true,
    net_ids_ := nl.net_ids_.set n none,
    pins_ := setPinNets nl.pins_ xs none } with hNdef
  have hxs_iff : ∀ x, x ∈ xs ↔ some x ∈ (nl.netD n).pins := by
    intro x
    rw [hxsdef, List.mem_filterMap]
    constructor
    · rintro ⟨a, ha, hax⟩
      cases a with
      | none => exact Option.noConfusion hax
      | some y =>
        have hyx : y = x := Option.some_inj.mp hax
        exact hyx ▸ ha
    · intro hx
      exact ⟨some x, hx, rfl⟩
  have hvb : N.valid_block_id = nl.valid_block_id := rfl
  have hvp : N.valid_port_id = nl.valid_port_id := rfl
  have hvx : N.valid_pin_id = nl.valid_pin_id := rfl
  have hbd : N.blockD = nl.blockD := rfl
  have hpd : N.portD = nl.portD := rfl
  have hnd : N.netD = nl.netD := rfl
  have hvn_self : N.valid_net_id n = false := vId_set_none_self _ _
  have hvn_ne : ∀ m, m ≠ n → N.valid_net_id m = nl.valid_net_id m := by
    intro m hm
    exact vId_set_none_ne _ (fun he => hm he.symm)
  have hxd_mem : ∀ x, x ∈ xs → N.pinD x = { nl.pinD x with net := none } := by
    intro x hx
    have hb := h.net_pin_bound n x hn ((hxs_iff x).mp hx)
    have hlt : x < nl.pins_.length := h.size_pins ▸ hb
    show (setPinNets nl.pins_ xs none).getD x default = _
    exact setPinNets_getD_mem hlt hx
  have hxd_nmem : ∀ x, x ∉ xs → N.pinD x = nl.pinD x := by
    intro x hx
    show (setPinNets nl.pins_ xs none).getD x default = _
    exact setPinNets_getD_nmem hx
  have hxd_port : ∀ x, (N.pinD x).port = (nl.pinD x).port := by
    intro x
    by_cases hm : x ∈ xs
    · rw [hxd_mem x hm]
    · rw [hxd_nmem x hm]
  have hxd_bit : ∀ x, (N.pinD x).port_bit = (nl.pinD x).port_bit := by
    intro x
    by_cases hm : x ∈ xs
    · rw [hxd_mem x hm]
    · rw [hxd_nmem x hm]
  have hnot_xs : ∀ x m, vId nl.pin_ids_ x = true → (nl.pinD x).net = some m → m ≠ n →
      x ∉ xs := by
    intro x m hx hm hne hmem
    have hback := h.net_pin_back n x hn ((hxs_iff x).mp hmem) hx
    rw [hm] at hback
    exact hne (Option.some_inj.mp hback)
  constructor
  · exact h.size_blocks
  · exact h.size_ports
  · show nl.pin_ids_.length = (setPinNets nl.pins_ xs none).length
    rw [setPinNets_length]
    exact h.size_pins
  · show (nl.net_ids_.set n none).length = nl.nets_.length
    rw [List.length_set]
    exact h.size_nets
  · intro p hp
    rw [hvp] at hp
    rw [hvb, hpd]
    exact h.port_block_valid p hp
  · intro p hp
    rw [hvp] at hp
    rw [hbd, hpd]
    exact h.port_in_block p hp
  · intro b p hb hp hpv
    rw [hvb] at hb
    rw [hbd] at hp
    rw [hvp] at hpv
    rw [hpd]
    exact h.block_port_owner b p hb hp hpv
  · intro b p hb hp
    rw [hvb] at hb
    rw [hbd] at hp
    show p < nl.port_ids_.length
    exact h.block_port_bound b p hb hp
  · intro x hx
    rw [hvx] at hx
    rw [hvp, hxd_port]
    exact h.pin_port_valid x hx
  · intro x hx
    rw [hvx] at hx
    rw [hpd, hxd_port, hxd_bit]
    exact h.pin_slot x hx
  · intro p bit x hp hs
    rw [hvp] at hp
    rw [hpd] at hs
    rw [hvx, hxd_port, hxd_bit]
    exact h.slot_pin p bit x hp hs
  · intro x m hx hm
    rw [hvx] at hx
    by_cases hmem : x ∈ xs
    · rw [hxd_mem x hmem] at hm
      exact Option.noConfusion hm
    · rw [hxd_nmem x hmem] at hm
      have hold := h.pin_net_valid x m hx hm
      have hne : m ≠ n := by
        intro he
        exact hmem ((hxs_iff x).mpr (he ▸ h.pin_in_net x m hx hm))
      rw [hvn_ne m hne]
      exact hold
  · intro x m hx hm
    rw [hvx] at hx
    by_cases hmem : x ∈ xs
    · rw [hxd_mem x hmem] at hm
      exact Option.noConfusion hm
    · rw [hxd_nmem x hmem] at hm
      rw [hnd]
      exact h.pin_in_net x m hx hm
  · intro m hm
    rw [hnd]
    by_cases hne : m = n
    · rw [hne] at hm
      rw [hvn_self] at hm
      exact Bool.noConfusion hm
    · rw [hvn_ne m hne] at hm
      exact h.net_nonempty m hm
  · intro m s hm hs
    rw [hnd] at hs
    by_cases hne : m = n
    · rw [hne, hvn_self] at hm
      exact Bool.noConfusion hm
    · rw [hvn_ne m hne] at hm
      exact h.net_tail_filled m s hm hs
  · intro m x hm hx
    rw [hnd] at hx
    show x < nl.pin_ids_.length
    by_cases hne : m = n
    · rw [hne, hvn_self] at hm
      exact Bool.noConfusion hm
    · rw [hvn_ne m hne] at hm
      exact h.net_pin_bound m x hm hx
  · intro m x hm hx hv
    rw [hnd] at hx
    rw [hvx] at hv
    by_cases hne : m = n
    · rw [hne, hvn_self] at hm
      exact Bool.noConfusion hm
    · rw [hvn_ne m hne] at hm
      have hback := h.net_pin_back m x hm hx hv
      have hnmem : x ∉ xs := hnot_xs x m hv hback hne
      rw [hxd_nmem x hnmem]
      exact hback
  · intro b1 b2 hb1 hb2 hname
    rw [hvb] at hb1 hb2
    rw [hbd] at hname
    exact h.block_names_inj b1 b2 hb1 hb2 hname
  · intro p1 p2 hp1 hp2 hpb hpn
    rw [hvp] at hp1 hp2
    rw [hpd] at hpb hpn
    exact h.port_key_inj p1 p2 hp1 hp2 hpb hpn
  · intro n1 n2 hn1 hn2 hname
    rw [hnd] at hname
    by_cases he1 : n1 = n
    · rw [he1, hvn_self] at hn1
      exact Bool.noConfusion hn1
    · by_cases he2 : n2 = n
      · rw [he2, hvn_self] at hn2
        exact Bool.noConfusion hn2
      · rw [hvn_ne n1 he1] at hn1
        rw [hvn_ne n2 he2] at hn2
        exact h.net_names_inj n1 n2 hn1 hn2 hname

theorem remove_net_pin_WF {nl : AtomNetlist} (h : WF nl) (n x0 : Nat) :
    ∀ res, nl.remove_net_pin n x0 = some res → WF res := by
  intro res hres
  unfold remove_net_pin at hres
  split at hres
  case isFalse => exact absurd hres (by simp)
  case isTrue hcond =>
  simp only [Option.some_inj] at hres
  rw [← hres]
  rw [Bool.and_eq_true, Bool.and_eq_true] at hcond
  obtain ⟨⟨hn, hx0⟩, hnet0b⟩ := hcond
  have hnet0 : (nl.pinD x0).net = some n := by simpa using hnet0b
  have hn_lt : n < nl.nets_.length := h.size_nets ▸ vId_lt hn
  have hx0_lt : x0 < nl.pins_.length := h.size_pins ▸ vId_lt hx0
  set nd2 : NetData := (nl.netD n).removePins [x0] with hnd2def
  set row : PinData := { nl.pinD x0 with net := none } with hrowdef
  set N : AtomNetlist := { nl with
    nets_ := nl.nets_.set n nd2,
    pins_ := nl.pins_.set x0 row } with hNdef
  have hvb : N.valid_block_id = nl.valid_block_id := rfl
  have hvp : N.valid_port_id = nl.valid_port_id := rfl
  have hvx : N.valid_pin_id = nl.valid_pin_id := rfl
  have hvn : N.valid_net_id = nl.valid_net_id := rfl
  have hbd : N.blockD = nl.blockD := rfl
  have hpd : N.portD = nl.portD := rfl
  have hnd_ne : ∀ m, m ≠ n → N.netD m = nl.netD m := by
    intro m hm
    show (nl.nets_.set n nd2).getD m default = nl.netD m
    exact getD_set_ne _ (fun he => hm he.symm) _ _
  have hnd_n : N.netD n = nd2 := by
    show (nl.nets_.set n nd2).getD n default = nd2
    exact getD_set_self _ hn_lt _ _
  have hnd_name : ∀ m, (N.netD m).name = (nl.netD m).name := by
    intro m
    by_cases hm : m = n
    · rw [hm, hnd_n, hnd2def]
      exact NetData_removePins_name _ _
    · rw [hnd_ne m hm]
  have hxd_ne : ∀ y, y ≠ x0 → N.pinD y = nl.pinD y := by
    intro y hy
    show (nl.pins_.set x0 row).getD y default = nl.pinD y
    exact getD_set_ne _ (fun he => hy he.symm) _ _
  have hxd_x0 : N.pinD x0 = row := by
    show (nl.pins_.set x0 row).getD x0 default = row
    exact getD_set_self _ hx0_lt _ _
  have hxd_port : ∀ y, (N.pinD y).port = (nl.pinD y).port := by
    intro y
    by_cases hy : y = x0
    · rw [hy, hxd_x0, hrowdef]
    · rw [hxd_ne y hy]
  have hxd_bit : ∀ y, (N.pinD y).port_bit = (nl.pinD y).port_bit := by
    intro y
    by_cases hy : y = x0
    · rw [hy, hxd_x0, hrowdef]
    · rw [hxd_ne y hy]
  constructor
  · exact h.size_blocks
  · exact h.size_ports
  · show nl.pin_ids_.length = (nl.pins_.set x0 row).length
    rw [List.length_set]
    exact h.size_pins
  · show nl.net_ids_.length = (nl.nets_.set n nd2).length
    rw [List.length_set]
    exact h.size_nets
  · intro p hp
    rw [hvp] at hp
    rw [hvb, hpd]
    exact h.port_block_valid p hp
  · intro p hp
    rw [hvp] at hp
    rw [hbd, hpd]
    exact h.port_in_block p hp
  · intro b p hb hp hpv
    rw [hvb] at hb
    rw [hbd] at hp
    rw [hvp] at hpv
    rw [hpd]
    exact h.block_port_owner b p hb hp hpv
  · intro b p hb hp
    rw [hvb] at hb
    rw [hbd] at hp
    show p < nl.port_ids_.length
    exact h.block_port_bound b p hb hp
  · intro x hx
    rw [hvx] at hx
    rw [hvp, hxd_port]
    exact h.pin_port_valid x hx
  · intro x hx
    rw [hvx] at hx
    rw [hpd, hxd_port, hxd_bit]
    exact h.pin_slot x hx
  · intro p bit x hp hs
    rw [hvp] at hp
    rw [hpd] at hs
    rw [hvx, hxd_port, hxd_bit]
    exact h.slot_pin p bit x hp hs
  · intro x m hx hm
    rw [hvx] at hx
    rw [hvn]
    by_cases hy : x = x0
    · rw [hy, hxd_x0, hrowdef] at hm
      exact Option.noConfusion hm
    · rw [hxd_ne x hy] at hm
      exact h.pin_net_valid x m hx hm
  · intro x m hx hm
    rw [hvx] at hx
    by_cases hy : x = x0
    · rw [hy, hxd_x0, hrowdef] at hm
      exact Option.noConfusion hm
    · rw [hxd_ne x hy] at hm
      have hmem := h.pin_in_net x m hx hm
      by_cases hmn : m = n
      · rw [hmn, hnd_n, hnd2def]
        refine NetData_removePins_mem_of (hmn ▸ hmem) ?_
        rw [slotRemoved, decide_eq_false_iff_not]
        intro hc
        exact hy (List.mem_singleton.mp hc)
      · rw [hnd_ne m hmn]
        exact hmem
  · intro m hm
    rw [hvn] at hm
    by_cases hmn : m = n
    · rw [hmn, hnd_n, hnd2def]
      exact NetData_removePins_ne_nil _ _ (h.net_nonempty n hn)
    · rw [hnd_ne m hmn]
      exact h.net_nonempty m hm
  · intro m s hm hs
    rw [hvn] at hm
    by_cases hmn : m = n
    · rw [hmn, hnd_n, hnd2def] at hs
      exact h.net_tail_filled n s hn (NetData_removePins_tail_subset hs)
    · rw [hnd_ne m hmn] at hs
      exact h.net_tail_filled m s hm hs
  · intro m x hm hx
    rw [hvn] at hm
    show x < nl.pin_ids_.length
    by_cases hmn : m = n
    · rw [hmn, hnd_n, hnd2def] at hx
      rcases NetData_removePins_mem_elim hx with he | ⟨hmem, _⟩
      · exact Option.noConfusion he
      · exact h.net_pin_bound n x hn hmem
    · rw [hnd_ne m hmn] at hx
      exact h.net_pin_bound m x hm hx
  · intro m x hm hx hv
    rw [hvn] at hm
    rw [hvx] at hv
    by_cases hmn : m = n
    · rw [hmn, hnd_n, hnd2def] at hx
      rcases NetData_removePins_mem_elim hx with he | ⟨hmem, hkeep⟩
      · exact Option.noConfusion he
      · have hyx : x ≠ x0 := by
          intro he
          rw [slotRemoved, decide_eq_false_iff_not] at hkeep
          exact hkeep (he ▸ List.mem_singleton_self x0)
        rw [hxd_ne x hyx, hmn]
        exact h.net_pin_back n x hn hmem hv
    · rw [hnd_ne m hmn] at hx
      have hyx : x ≠ x0 := by
        intro he
        have hback := h.net_pin_back m x hm hx hv
        rw [he, hnet0] at hback
        exact hmn ((Option.some_inj.mp hback).symm ▸ rfl)
      rw [hxd_ne x hyx]
      exact h.net_pin_back m x hm hx hv
  · intro b1 b2 hb1 hb2 hname
    rw [hvb] at hb1 hb2
    rw [hbd] at hname
    exact h.block_names_inj b1 b2 hb1 hb2 hname
  · intro p1 p2 hp1 hp2 hpb hpn
    rw [hvp] at hp1 hp2
    rw [hpd] at hpb hpn
    exact h.port_key_inj p1 p2 hp1 hp2 hpb hpn
  · intro n1 n2 hn1 hn2 hname
    rw [hvn] at hn1 hn2
    rw [hnd_name, hnd_name] at hname
    exact h.net_names_inj n1 n2 hn1 hn2 hname

theorem vId_mask_mem {ids : List (Option Nat)} {ts : List Nat} {j : Nat} (hj : j ∈ ts) :
    vId ((List.range ids.length).map
      (fun i => if i ∈ ts then none else ids.getD i none)) j = false := by
  rw [vId_map_range]
  by_cases hlt : j < ids.length <;> simp [hlt, hj]

theorem vId_mask_nmem {ids : List (Option Nat)} {ts : List Nat} {j : Nat} (hj : j ∉ ts) :
    vId ((List.range ids.length).map
      (fun i => if i ∈ ts then none else ids.getD i none)) j = vId ids j := by
  rw [vId_map_range]
  by_cases hlt : j < ids.length
  · simp [hlt, hj, vId]
  · have hv : vId ids j = false := by
      cases hv : vId ids j
      · rfl
      · exact absurd (vId_lt hv) hlt
    simp [hlt, hv]

theorem remove_block_WF {nl : AtomNetlist} (h : WF nl) (blk : Nat) :
    ∀ res, nl.remove_block blk = some res → WF res := by
  intro res hres
  unfold remove_block at hres
  split at hres
  case isFalse => exact absurd hres (by simp)
  case isTrue hblk =>
  simp only [Option.some_inj] at hres
  rw [← hres]
  set ps := nl.blockLivePorts blk with hpsdef
  set xs := nl.blockPins blk with hxsdef
  set N : AtomNetlist := { nl with
    dirty_ := true,
    block_ids_ := nl.block_ids_.set blk none,
    port_ids_ := (List.range nl.port_ids_.length).map
      (fun i => if i ∈ ps then none else nl.port_ids_.getD i none),
    pin_ids_ := (List.range nl.pin_ids_.length).map
      (fun i => if i ∈ xs then none else nl.pin_ids_.getD i none),
    pins_ := setPinNets nl.pins_ xs none,
    nets_ := nl.nets_.map (fun nd => nd.removePins xs) } with hNdef
  have hps_mem : ∀ p, p ∈ ps ↔
      p ∈ (nl.blockD blk).allPorts ∧ nl.valid_port_id p = true := by
    intro p
    rw [hpsdef, blockLivePorts, List.mem_filter]
  have hxs_mem : ∀ x, x ∈ xs ↔ ∃ p ∈ ps, x ∈ nl.portPinsOf p := by
    intro x
    rw [hxsdef, blockPins, List.mem_flatten]
    constructor
    · rintro ⟨l, hl, hx⟩
      rcases List.mem_map.mp hl with ⟨p, hp, hpl⟩
      exact ⟨p, hp, hpl ▸ hx⟩
    · rintro ⟨p, hp, hx⟩
      exact ⟨nl.portPinsOf p, List.mem_map.mpr ⟨p, hp, rfl⟩, hx⟩
  have hxs_spec : ∀ x, x ∈ xs →
      vId nl.pin_ids_ x = true ∧ (nl.pinD x).port ∈ ps := by
    intro x hx
    rcases (hxs_mem x).mp hx with ⟨p, hp, hxp⟩
    have hpv : nl.valid_port_id p = true := ((hps_mem p).mp hp).2
    rw [portPinsOf, List.mem_filterMap] at hxp
    rcases hxp with ⟨s, hs, hsx⟩
    cases s with
    | none => exact Option.noConfusion hsx
    | some y =>
      have hyx : y = x := Option.some_inj.mp hsx
      subst hyx
      rcases getD_of_mem hs with ⟨bit, hbit, hgd⟩
      rcases h.slot_pin p bit y hpv hgd with ⟨hv1, hv2, hv3⟩
      exact ⟨hv1, hv2 ▸ hp⟩
  have hxs_of_port : ∀ x, vId nl.pin_ids_ x = true → (nl.pinD x).port ∈ ps → x ∈ xs := by
    intro x hx hp
    have hslot := h.pin_slot x hx
    refine (hxs_mem x).mpr ⟨(nl.pinD x).port, hp, ?_⟩
    rw [portPinsOf, List.mem_filterMap]
    exact ⟨some x, mem_of_getD hslot, rfl⟩
  have hvb_blk : N.valid_block_id blk = false := vId_set_none_self _ _
  have hvb_ne : ∀ b, b ≠ blk → N.valid_block_id b = nl.valid_block_id b := by
    intro b hb
    exact vId_set_none_ne _ (fun he => hb he.symm)
  have hvp_mem : ∀ p, p ∈ ps → N.valid_port_id p = false := fun p hp => vId_mask_mem hp
  have hvp_nmem : ∀ p, p ∉ ps → N.valid_port_id p = vId nl.port_ids_ p :=
    fun p hp => vId_mask_nmem hp
  have hvx_mem : ∀ x, x ∈ xs → N.valid_pin_id x = false := fun x hx => vId_mask_mem hx
  have hvx_nmem : ∀ x, x ∉ xs → N.valid_pin_id x = vId nl.pin_ids_ x :=
    fun x hx => vId_mask_nmem hx
  have hvn : N.valid_net_id = nl.valid_net_id := rfl
  have hpd : N.portD = nl.portD := rfl
  have hbd : N.blockD = nl.blockD := rfl
  have hnd_all : ∀ m, N.netD m = (nl.netD m).removePins xs := by
    intro m
    show (nl.nets_.map (fun nd => nd.removePins xs)).getD m default = _
    by_cases hm : m < nl.nets_.length
    · rw [getD_of_lt _ (by simpa using hm), List.getElem_map]
      rw [netD, getD_of_lt _ hm]
    · rw [getD_of_le _ (by simpa using Nat.not_lt.mp hm)]
      rw [netD, getD_of_le _ (Nat.not_lt.mp hm)]
      rfl
  have hxd_nmem : ∀ x, x ∉ xs → N.pinD x = nl.pinD x := by
    intro x hx
    show (setPinNets nl.pins_ xs none).getD x default = _
    exact setPinNets_getD_nmem hx
  have hxd_mem : ∀ x, x ∈ xs → N.pinD x = { nl.pinD x with net := none } := by
    intro x hx
    have hlt : x < nl.pins_.length := h.size_pins ▸ vId_lt (hxs_spec x hx).1
    show (setPinNets nl.pins_ xs none).getD x default = _
    exact setPinNets_getD_mem hlt hx
  have hxd_port : ∀ x, (N.pinD x).port = (nl.pinD x).port := by
    intro x
    by_cases hm : x ∈ xs
    · rw [hxd_mem x hm]
    · rw [hxd_nmem x hm]
  have hxd_bit : ∀ x, (N.pinD x).port_bit = (nl.pinD x).port_bit := by
    intro x
    by_cases hm : x ∈ xs
    · rw [hxd_mem x hm]
    · rw [hxd_nmem x hm]
  constructor
  · show (nl.block_ids_.set blk none).length = nl.blocks_.length
    rw [List.length_set]
    exact h.size_blocks
  · show ((List.range nl.port_ids_.length).map _).length = nl.ports_.length
    rw [List.length_map, List.length_range]
    exact h.size_ports
  · show ((List.range nl.pin_ids_.length).map _).length = (setPinNets nl.pins_ xs none).length
    rw [List.length_map, List.length_range, setPinNets_length]
    exact h.size_pins
  · show nl.net_ids_.length = (nl.nets_.map _).length
    rw [List.length_map]
    exact h.size_nets
  · intro p hp
    by_cases hpm : p ∈ ps
    · rw [hvp_mem p hpm] at hp
      exact Bool.noConfusion hp
    · rw [hvp_nmem p hpm] at hp
      rw [hpd]
      have hold := h.port_block_valid p hp
      have hbne : (nl.portD p).block ≠ blk := by
        intro he
        exact hpm ((hps_mem p).mpr ⟨he ▸ h.port_in_block p hp, hp⟩)
      rw [hvb_ne _ hbne]
      exact hold
  · intro p hp
    by_cases hpm : p ∈ ps
    · rw [hvp_mem p hpm] at hp
      exact Bool.noConfusion hp
    · rw [hvp_nmem p hpm] at hp
      rw [hpd, hbd]
      exact h.port_in_block p hp
  · intro b p hb hp hpv
    by_cases hbb : b = blk
    · rw [hbb, hvb_blk] at hb
      exact Bool.noConfusion hb
    · rw [hvb_ne _ hbb] at hb
      rw [hbd] at hp
      by_cases hpm : p ∈ ps
      · rw [hvp_mem p hpm] at hpv
        exact Bool.noConfusion hpv
      · rw [hvp_nmem p hpm] at hpv
        rw [hpd]
        exact h.block_port_owner b p hb hp hpv
  · intro b p hb hp
    by_cases hbb : b = blk
    · rw [hbb, hvb_blk] at hb
      exact Bool.noConfusion hb
    · rw [hvb_ne _ hbb] at hb
      rw [hbd] at hp
      show p < ((List.range nl.port_ids_.length).map _).length
      rw [List.length_map, List.length_range]
      exact h.block_port_bound b p hb hp
  · intro x hx
    by_cases hxm : x ∈ xs
    · rw [hvx_mem x hxm] at hx
      exact Bool.noConfusion hx
    · rw [hvx_nmem x hxm] at hx
      rw [hxd_port]
      have hq : (nl.pinD x).port ∉ ps := by
        intro hc
        exact hxm (hxs_of_port x hx hc)
      rw [hvp_nmem _ hq]
      exact h.pin_port_valid x hx
  · intro x hx
    by_cases hxm : x ∈ xs
    · rw [hvx_mem x hxm] at hx
      exact Bool.noConfusion hx
    · rw [hvx_nmem x hxm] at hx
      rw [hpd, hxd_port, hxd_bit]
      exact h.pin_slot x hx
  · intro p bit x hp hs
    by_cases hpm : p ∈ ps
    · rw [hvp_mem p hpm] at hp
      exact Bool.noConfusion hp
    · rw [hvp_nmem p hpm] at hp
      rw [hpd] at hs
      rcases h.slot_pin p bit x hp hs with ⟨hv1, hv2, hv3⟩
      have hxm : x ∉ xs := by
        intro hc
        exact hpm (hv2 ▸ (hxs_spec x hc).2)
      refine ⟨?_, ?_, ?_⟩
      · rw [hvx_nmem x hxm]
        exact hv1
      · rw [hxd_port]
        exact hv2
      · rw [hxd_bit]
        exact hv3
  · intro x m hx hm
    by_cases hxm : x ∈ xs
    · rw [hvx_mem x hxm] at hx
      exact Bool.noConfusion hx
    · rw [hvx_nmem x hxm] at hx
      rw [hxd_nmem x hxm] at hm
      rw [hvn]
      exact h.pin_net_valid x m hx hm
  · intro x m hx hm
    by_cases hxm : x ∈ xs
    · rw [hvx_mem x hxm] at hx
      exact Bool.noConfusion hx
    · rw [hvx_nmem x hxm] at hx
      rw [hxd_nmem x hxm] at hm
      rw [hnd_all]
      refine NetData_removePins_mem_of (h.pin_in_net x m hx hm) ?_
      rw [slotRemoved, decide_eq_false_iff_not]
      exact hxm
  · intro m hm
    rw [hvn] at hm
    rw [hnd_all]
    exact NetData_removePins_ne_nil _ _ (h.net_nonempty m hm)
  · intro m s hm hs
    rw [hvn] at hm
    rw [hnd_all] at hs
    exact h.net_tail_filled m s hm (NetData_removePins_tail_subset hs)
  · intro m x hm hx
    rw [hvn] at hm
    rw [hnd_all] at hx
    show x < ((List.range nl.pin_ids_.length).map _).length
    rw [List.length_map, List.length_range]
    rcases NetData_removePins_mem_elim hx with he | ⟨hmem, _⟩
    · exact Option.noConfusion he
    · exact h.net_pin_bound m x hm hmem
  · intro m x hm hx hv
    rw [hvn] at hm
    rw [hnd_all] at hx
    rcases NetData_removePins_mem_elim hx with he | ⟨hmem, hkeep⟩
    · exact Option.noConfusion he
    · have hxm : x ∉ xs := by
        rw [slotRemoved, decide_eq_false_iff_not] at hkeep
        exact hkeep
      rw [hvx_nmem x hxm] at hv
      rw [hxd_nmem x hxm]
      exact h.net_pin_back m x hm hmem hv
  · intro b1 b2 hb1 hb2 hname
    by_cases he1 : b1 = blk
    · rw [he1, hvb_blk] at hb1
      exact Bool.noConfusion hb1
    · by_cases he2 : b2 = blk
      · rw [he2, hvb_blk] at hb2
        exact Bool.noConfusion hb2
      · rw [hvb_ne _ he1] at hb1
        rw [hvb_ne _ he2] at hb2
        rw [hbd] at hname
        exact h.block_names_inj b1 b2 hb1 hb2 hname
  · intro p1 p2 hp1 hp2 hpb hpn
    by_cases he1 : p1 ∈ ps
    · rw [hvp_mem _ he1] at hp1
      exact Bool.noConfusion hp1
    · by_cases he2 : p2 ∈ ps
      · rw [hvp_mem _ he2] at hp2
        exact Bool.noConfusion hp2
      · rw [hvp_nmem _ he1] at hp1
        rw [hvp_nmem _ he2] at hp2
        rw [hpd] at hpb hpn
        exact h.port_key_inj p1 p2 hp1 hp2 hpb hpn
  · intro n1 n2 hn1 hn2 hname
    rw [hvn] at hn1 hn2
    rw [hnd_all, hnd_all, NetData_removePins_name, NetData_removePins_name] at hname
    exact h.net_names_inj n1 n2 hn1 hn2 hname

theorem vId_maskB_true {ids : List (Option Nat)} {cond : Nat → Bool} {j : Nat}
    (hj : cond j = true) :
    vId ((List.range ids.length).map
      (fun i => if cond i then none else ids.getD i none)) j = false := by
  rw [vId_map_range]
  by_cases hlt : j < ids.length <;> simp [hlt, hj]

theorem vId_maskB_false {ids : List (Option Nat)} {cond : Nat → Bool} {j : Nat}
    (hj : cond j = false) :
    vId ((List.range ids.length).map
      (fun i => if cond i then none else ids.getD i none)) j = vId ids j := by
  rw [vId_map_range]
  by_cases hlt : j < ids.length
  · simp [hlt, hj, vId]
  · have hv : vId ids j = false := by
      cases hv : vId ids j
      · rfl
      · exact absurd (vId_lt hv) hlt
    simp [hlt, hv]

theorem remove_unused_WF {nl : AtomNetlist} (h : WF nl) : WF nl.remove_unused := by
  set N : AtomNetlist := nl.remove_unused with hNdef
  have hvx : N.valid_pin_id = nl.valid_pin_id := rfl
  have hvn : N.valid_net_id = nl.valid_net_id := rfl
  have hbd : N.blockD = nl.blockD := rfl
  have hpd : N.portD = nl.portD := rfl
  have hxd : N.pinD = nl.pinD := rfl
  have hnd : N.netD = nl.netD := rfl
  have hvp_t : ∀ p, nl.portUnused p = true → N.valid_port_id p = false := by
    intro p hp
    show vId (sweepPortIds nl) p = false
    rw [sweepPortIds]
    exact vId_maskB_true hp
  have hvp_f : ∀ p, nl.portUnused p = false →
      N.valid_port_id p = vId nl.port_ids_ p := by
    intro p hp
    show vId (sweepPortIds nl) p = vId nl.port_ids_ p
    rw [sweepPortIds]
    exact vId_maskB_false hp
  have hvp_old : ∀ p, N.valid_port_id p = true → vId nl.port_ids_ p = true := by
    intro p hp
    cases hu : nl.portUnused p
    · rw [hvp_f p hu] at hp
      exact hp
    · rw [hvp_t p hu] at hp
      exact Bool.noConfusion hp
  have hvb_t : ∀ b, nl.blockUnusedB b = true → N.valid_block_id b = false := by
    intro b hb
    show vId ((List.range nl.block_ids_.length).map _) b = false
    exact vId_maskB_true hb
  have hvb_f : ∀ b, nl.blockUnusedB b = false →
      N.valid_block_id b = vId nl.block_ids_ b := by
    intro b hb
    show vId ((List.range nl.block_ids_.length).map _) b = vId nl.block_ids_ b
    exact vId_maskB_false hb
  have hvb_old : ∀ b, N.valid_block_id b = true → vId nl.block_ids_ b = true := by
    intro b hb
    cases hu : nl.blockUnusedB b
    · rw [hvb_f b hu] at hb
      exact hb
    · rw [hvb_t b hu] at hb
      exact Bool.noConfusion hb
  constructor
  · show ((List.range nl.block_ids_.length).map _).length = nl.blocks_.length
    rw [List.length_map, List.length_range]
    exact h.size_blocks
  · show (sweepPortIds nl).length = nl.ports_.length
    rw [sweepPortIds, List.length_map, List.length_range]
    exact h.size_ports
  · exact h.size_pins
  · exact h.size_nets
  · intro p hp
    have hpo := hvp_old p hp
    rw [hpd]
    have hold := h.port_block_valid p hpo
    have hbu : nl.blockUnusedB (nl.portD p).block = false := by
      cases hb : nl.blockUnusedB (nl.portD p).block
      · rfl
      · exfalso
        rw [blockUnusedB, Bool.and_eq_true, Bool.and_eq_true] at hb
        obtain ⟨⟨_, _⟩, hall⟩ := hb
        rw [List.all_eq_true] at hall
        have := hall p (h.port_in_block p hpo)
        rw [show vId (sweepPortIds nl) p = N.valid_port_id p from rfl, hp] at this
        exact Bool.noConfusion this
    rw [hvb_f _ hbu]
    exact hold
  · intro p hp
    have hpo := hvp_old p hp
    rw [hpd, hbd]
    exact h.port_in_block p hpo
  · intro b p hb hp hpv
    have hbo := hvb_old b hb
    have hpo := hvp_old p hpv
    rw [hbd] at hp
    rw [hpd]
    exact h.block_port_owner b p hbo hp hpo
  · intro b p hb hp
    have hbo := hvb_old b hb
    rw [hbd] at hp
    show p < (sweepPortIds nl).length
    rw [sweepPortIds, List.length_map, List.length_range]
    exact h.block_port_bound b p hbo hp
  · intro x hx
    rw [hvx] at hx
    rw [hxd]
    have hpo := h.pin_port_valid x hx
    have hslot := h.pin_slot x hx
    have hu : nl.portUnused (nl.pinD x).port = false := by
      cases hu : nl.portUnused (nl.pinD x).port
      · rfl
      · exfalso
        rw [portUnused, Bool.and_eq_true, Bool.and_eq_true] at hu
        obtain ⟨⟨_, _⟩, hall⟩ := hu
        rw [List.all_eq_true] at hall
        have := hall (some x) (mem_of_getD hslot)
        simp at this
    rw [hvp_f _ hu]
    exact hpo
  · intro x hx
    rw [hvx] at hx
    rw [hpd, hxd]
    exact h.pin_slot x hx
  · intro p bit x hp hs
    have hpo := hvp_old p hp
    rw [hpd] at hs
    rw [hvx, hxd]
    exact h.slot_pin p bit x hpo hs
  · intro x n hx hn
    rw [hvx] at hx
    rw [hxd] at hn
    rw [hvn]
    exact h.pin_net_valid x n hx hn
  · intro x n hx hn
    rw [hvx] at hx
    rw [hxd] at hn
    rw [hnd]
    exact h.pin_in_net x n hx hn
  · intro n hn
    rw [hvn] at hn
    rw [hnd]
    exact h.net_nonempty n hn
  · intro n s hn hs
    rw [hvn] at hn
    rw [hnd] at hs
    exact h.net_tail_filled n s hn hs
  · intro n x hn hx
    rw [hvn] at hn
    rw [hnd] at hx
    show x < nl.pin_ids_.length
    exact h.net_pin_bound n x hn hx
  · intro n x hn hx hv
    rw [hvn] at hn
    rw [hnd] at hx
    rw [hvx] at hv
    rw [hxd]
    exact h.net_pin_back n x hn hx hv
  · intro b1 b2 hb1 hb2 hname
    rw [hbd] at hname
    exact h.block_names_inj b1 b2 (hvb_old b1 hb1) (hvb_old b2 hb2) hname
  · intro p1 p2 hp1 hp2 hpb hpn
    rw [hpd] at hpb hpn
    exact h.port_key_inj p1 p2 (hvp_old p1 hp1) (hvp_old p2 hp2) hpb hpn
  · intro n1 n2 hn1 hn2 hname
    rw [hvn] at hn1 hn2
    rw [hnd] at hname
    exact h.net_names_inj n1 n2 hn1 hn2 hname

theorem vId_range_some (K j : Nat) :
    vId ((List.range K).map some) j = decide (j < K) := by
  rw [vId, getD_map_range]
  by_cases h : j < K <;> simp [h]

theorem remapH_valid {ids : List (Option Nat)} {i : Nat} (h : vId ids i = true) :
    remapH ids i = some (rankOf (vId ids) i) := by
  rw [remapH, if_pos h]

theorem remapH_invalid {ids : List (Option Nat)} {i : Nat} (h : vId ids i = false) :
    remapH ids i = none := by
  rw [remapH, if_neg]
  rw [h]
  exact Bool.false_ne_true

theorem remapH_elim {ids : List (Option Nat)} {i j : Nat} (h : remapH ids i = some j) :
    vId ids i = true ∧ j = rankOf (vId ids) i := by
  by_cases hv : vId ids i = true
  · rw [remapH_valid hv] at h
    exact ⟨hv, (Option.some_inj.mp h).symm⟩
  · rw [remapH_invalid (Bool.of_not_eq_true hv)] at h
    exact Option.noConfusion h

theorem getD_map_bind (l : List (Option Nat)) (m : Nat → Option Nat) (i : Nat) :
    (l.map (fun sl => sl.bind m)).getD i none = (l.getD i none).bind m := by
  by_cases h : i < l.length
  · rw [getD_of_lt _ (by simpa using h), List.getElem_map, getD_of_lt _ h]
  · rw [getD_of_le _ (by simpa using Nat.not_lt.mp h), getD_of_le _ (Nat.not_lt.mp h)]
    rfl

theorem compact_getD {α : Type} [Inhabited α] (ids : List (Option Nat)) (f : Nat → α)
    {i : Nat} (hv : vId ids i = true) :
    ((survH ids).map f).getD (rankOf (vId ids) i) default = f i := by
  have hlt : i < ids.length := vId_lt hv
  have hrk : rankOf (vId ids) i < (survH ids).length :=
    rank_lt_survivors_length hlt hv
  rw [getD_of_lt _ (by simpa using hrk), List.getElem_map]
  congr 1
  have hg : (survH ids).getD (rankOf (vId ids) i) 0 = i :=
    getD_survivors_rank hlt hv (q := vId ids)
  rw [getD_of_lt _ hrk] at hg
  exact hg

theorem compact_getD_at {α : Type} [Inhabited α] (ids : List (Option Nat)) (f : Nat → α)
    {j : Nat} (hj : j < (survH ids).length) :
    ((survH ids).map f).getD j default = f ((survH ids).getD j 0) := by
  rw [getD_of_lt _ (by simpa using hj), List.getElem_map]
  congr 1
  rw [getD_of_lt _ hj]

theorem survH_getD_spec {ids : List (Option Nat)} {j : Nat}
    (hj : j < (survH ids).length) :
    vId ids ((survH ids).getD j 0) = true ∧
      rankOf (vId ids) ((survH ids).getD j 0) = j := by
  rcases survivors_getD_spec (n := ids.length) (q := vId ids) hj with ⟨_, hq, hr⟩
  exact ⟨hq, hr⟩

theorem compact_vb (s : AtomNetlist) (j : Nat) :
    s.compact.valid_block_id j = decide (j < (survH s.block_ids_).length) :=
  vId_range_some _ _

theorem compact_vp (s : AtomNetlist) (j : Nat) :
    s.compact.valid_port_id j = decide (j < (survH s.port_ids_).length) :=
  vId_range_some _ _

theorem compact_vx (s : AtomNetlist) (j : Nat) :
    s.compact.valid_pin_id j = decide (j < (survH s.pin_ids_).length) :=
  vId_range_some _ _

theorem compact_vn (s : AtomNetlist) (j : Nat) :
    s.compact.valid_net_id j = decide (j < (survH s.net_ids_).length) :=
  vId_range_some _ _

theorem compact_blockD {s : AtomNetlist} {b : Nat} (hv : vId s.block_ids_ b = true) :
    s.compact.blockD (rankOf (vId s.block_ids_) b) = compactBlockRow s b :=
  compact_getD _ _ hv

theorem compact_portD {s : AtomNetlist} {p : Nat} (hv : vId s.port_ids_ p = true) :
    s.compact.portD (rankOf (vId s.port_ids_) p) = compactPortRow s p :=
  compact_getD _ _ hv

theorem compact_pinD {s : AtomNetlist} {x : Nat} (hv : vId s.pin_ids_ x = true) :
    s.compact.pinD (rankOf (vId s.pin_ids_) x) = compactPinRow s x :=
  compact_getD _ _ hv

theorem compact_netD {s : AtomNetlist} {n : Nat} (hv : vId s.net_ids_ n = true) :
    s.compact.netD (rankOf (vId s.net_ids_) n) = compactNetRow s n :=
  compact_getD _ _ hv

theorem compact_blockD_at {s : AtomNetlist} {j : Nat}
    (hj : j < (survH s.block_ids_).length) :
    s.compact.blockD j = compactBlockRow s ((survH s.block_ids_).getD j 0) :=
  compact_getD_at _ _ hj

theorem compact_portD_at {s : AtomNetlist} {j : Nat}
    (hj : j < (survH s.port_ids_).length) :
    s.compact.portD j = compactPortRow s ((survH s.port_ids_).getD j 0) :=
  compact_getD_at _ _ hj

theorem compact_pinD_at {s : AtomNetlist} {j : Nat}
    (hj : j < (survH s.pin_ids_).length) :
    s.compact.pinD j = compactPinRow s ((survH s.pin_ids_).getD j 0) :=
  compact_getD_at _ _ hj

theorem compact_netD_at {s : AtomNetlist} {j : Nat}
    (hj : j < (survH s.net_ids_).length) :
    s.compact.netD j = compactNetRow s ((survH s.net_ids_).getD j 0) :=
  compact_getD_at _ _ hj

theorem compactBlockRow_allPorts (s : AtomNetlist) (b : Nat) :
    (compactBlockRow s b).allPorts =
      ((s.blockD b).allPorts).filterMap (remapH s.port_ids_) := by
  simp [compactBlockRow, BlockData.allPorts, List.filterMap_append]

theorem compactBlockRow_name (s : AtomNetlist) (b : Nat) :
    (compactBlockRow s b).name = (s.blockD b).name := rfl

theorem compactPortRow_name (s : AtomNetlist) (p : Nat) :
    (compactPortRow s p).name = (s.portD p).name := rfl

theorem compactNetRow_name (s : AtomNetlist) (n : Nat) :
    (compactNetRow s n).name = (s.netD n).name := rfl

theorem compactNetRow_mem {s : AtomNetlist} {n x : Nat}
    (hmem : some x ∈ (s.netD n).pins) (hx : vId s.pin_ids_ x = true) :
    some (rankOf (vId s.pin_ids_) x) ∈ (compactNetRow s n).pins := by
  rw [compactNetRow]
  simp only
  cases hp : (s.netD n).pins with
  | nil => rw [hp] at hmem; simp at hmem
  | cons hd t =>
    rw [hp] at hmem
    simp only [List.headD_cons, List.tail_cons]
    rcases List.mem_cons.mp hmem with he | ht
    · rw [← he]
      rw [show (some x).bind (remapH s.pin_ids_) = remapH s.pin_ids_ x from rfl,
        remapH_valid hx]
      exact List.mem_cons_self _ _
    · refine List.mem_cons_of_mem _ ?_
      refine List.mem_filterMap.mpr ⟨some x, ht, ?_⟩
      rw [show (some x).bind (remapH s.pin_ids_) = remapH s.pin_ids_ x from rfl,
        remapH_valid hx]
      rfl

theorem compactNetRow_mem_elim {s : AtomNetlist} {n : Nat} {y : Nat}
    (h : some y ∈ (compactNetRow s n).pins) :
    ∃ x, some x ∈ (s.netD n).pins ∧ remapH s.pin_ids_ x = some y := by
  rw [compactNetRow] at h
  simp only at h
  cases hp : (s.netD n).pins with
  | nil =>
    rw [hp] at h
    simp at h
  | cons hd0 t =>
    rw [hp] at h
    simp only [List.headD_cons, List.tail_cons] at h
    rcases List.mem_cons.mp h with he | ht
    · cases hd0 with
      | none => simp at he
      | some x =>
        refine ⟨x, List.mem_cons_self _ _, ?_⟩
        exact he.symm
    · rcases List.mem_filterMap.mp ht with ⟨sl, hsl, hf⟩
      cases sl with
      | none => simp at hf
      | some x =>
        refine ⟨x, List.mem_cons_of_mem _ hsl, ?_⟩
        simpa using hf

theorem survH_spec {ids : List (Option Nat)} {j : Nat} (hj : j < (survH ids).length) :
    ∃ i, vId ids i = true ∧ rankOf (vId ids) i = j ∧ (survH ids).getD j 0 = i := by
  rcases survH_getD_spec hj with ⟨h1, h2⟩
  exact ⟨_, h1, h2, rfl⟩

theorem compact_WF {s : AtomNetlist} (h : WF s) : WF s.compact := by
  constructor
  · show ((List.range (survH s.block_ids_).length).map some).length =
      ((survH s.block_ids_).map (compactBlockRow s)).length
    simp
  · show ((List.range (survH s.port_ids_).length).map some).length =
      ((survH s.port_ids_).map (compactPortRow s)).length
    simp
  · show ((List.range (survH s.pin_ids_).length).map some).length =
      ((survH s.pin_ids_).map (compactPinRow s)).length
    simp
  · show ((List.range (survH s.net_ids_).length).map some).length =
      ((survH s.net_ids_).map (compactNetRow s)).length
    simp
  · intro p hp
    rw [compact_vp, decide_eq_true_eq] at hp
    obtain ⟨p0, hv0, hrk0, hout⟩ := survH_spec hp
    rw [compact_portD_at hp, hout]
    have hb0 : vId s.block_ids_ (s.portD p0).block = true := h.port_block_valid p0 hv0
    rw [compact_vb, decide_eq_true_eq]
    rw [show (compactPortRow s p0).block =
      (remapH s.block_ids_ (s.portD p0).block).getD 0 from rfl, remapH_valid hb0]
    exact rank_lt_survivors_length (vId_lt hb0) hb0
  · intro p hp
    rw [compact_vp, decide_eq_true_eq] at hp
    obtain ⟨p0, hv0, hrk0, hout⟩ := survH_spec hp
    rw [compact_portD_at hp, hout]
    have hb0 : vId s.block_ids_ (s.portD p0).block = true := h.port_block_valid p0 hv0
    rw [show (compactPortRow s p0).block =
      (remapH s.block_ids_ (s.portD p0).block).getD 0 from rfl, remapH_valid hb0,
      Option.getD_some]
    rw [compact_blockD hb0, compactBlockRow_allPorts]
    refine List.mem_filterMap.mpr ⟨p0, h.port_in_block p0 hv0, ?_⟩
    rw [remapH_valid hv0, hrk0]
  · intro b p hb hp hpv
    rw [compact_vb, decide_eq_true_eq] at hb
    obtain ⟨b0, hvb0, hrkb0, hbout⟩ := survH_spec hb
    rw [compact_blockD_at hb, hbout, compactBlockRow_allPorts] at hp
    rcases List.mem_filterMap.mp hp with ⟨q, hq_mem, hqm⟩
    rcases remapH_elim hqm with ⟨hqv, hqr⟩
    rw [hqr, compact_portD hqv]
    rw [show (compactPortRow s q).block =
      (remapH s.block_ids_ (s.portD q).block).getD 0 from rfl]
    rw [h.block_port_owner b0 q hvb0 hq_mem hqv]
    rw [remapH_valid hvb0, Option.getD_some]
    exact hrkb0
  · intro b p hb hp
    rw [compact_vb, decide_eq_true_eq] at hb
    obtain ⟨b0, hvb0, hrkb0, hbout⟩ := survH_spec hb
    rw [compact_blockD_at hb, hbout, compactBlockRow_allPorts] at hp
    rcases List.mem_filterMap.mp hp with ⟨q, hq_mem, hqm⟩
    rcases remapH_elim hqm with ⟨hqv, hqr⟩
    show p < ((List.range (survH s.port_ids_).length).map some).length
    rw [List.length_map, List.length_range, hqr]
    exact rank_lt_survivors_length (vId_lt hqv) hqv
  · intro x hx
    rw [compact_vx, decide_eq_true_eq] at hx
    obtain ⟨x0, hv0, hrk0, hout⟩ := survH_spec hx
    rw [compact_pinD_at hx, hout]
    have hp0 : vId s.port_ids_ (s.pinD x0).port = true := h.pin_port_valid x0 hv0
    rw [compact_vp, decide_eq_true_eq]
    rw [show (compactPinRow s x0).port =
      (remapH s.port_ids_ (s.pinD x0).port).getD 0 from rfl, remapH_valid hp0]
    exact rank_lt_survivors_length (vId_lt hp0) hp0
  · intro x hx
    rw [compact_vx, decide_eq_true_eq] at hx
    obtain ⟨x0, hv0, hrk0, hout⟩ := survH_spec hx
    rw [compact_pinD_at hx, hout]
    have hp0 : vId s.port_ids_ (s.pinD x0).port = true := h.pin_port_valid x0 hv0
    rw [show (compactPinRow s x0).port =
      (remapH s.port_ids_ (s.pinD x0).port).getD 0 from rfl, remapH_valid hp0,
      Option.getD_some]
    rw [show (compactPinRow s x0).port_bit = (s.pinD x0).port_bit from rfl]
    rw [compact_portD hp0]
    rw [show (compactPortRow s (s.pinD x0).port).pins =
      (s.portD (s.pinD x0).port).pins.map
        (fun sl => sl.bind (remapH s.pin_ids_)) from rfl]
    rw [getD_map_bind, h.pin_slot x0 hv0]
    rw [show (some x0).bind (remapH s.pin_ids_) = remapH s.pin_ids_ x0 from rfl,
      remapH_valid hv0, hrk0]
  · intro p bit y hp hs
    rw [compact_vp, decide_eq_true_eq] at hp
    obtain ⟨p0, hv0, hrk0, hout⟩ := survH_spec hp
    rw [compact_portD_at hp, hout] at hs
    rw [show (compactPortRow s p0).pins =
      (s.portD p0).pins.map (fun sl => sl.bind (remapH s.pin_ids_)) from rfl,
      getD_map_bind] at hs
    rcases hsl : (s.portD p0).pins.getD bit none with _ | x0
    · rw [hsl] at hs
      exact absurd hs (by simp)
    · rw [hsl] at hs
      rw [show (some x0).bind (remapH s.pin_ids_) = remapH s.pin_ids_ x0 from rfl] at hs
      rcases remapH_elim hs with ⟨hxv, hxr⟩
      rcases h.slot_pin p0 bit x0 hv0 hsl with ⟨hv1, hv2, hv3⟩
      refine ⟨?_, ?_, ?_⟩
      · rw [compact_vx, decide_eq_true_eq, hxr]
        exact rank_lt_survivors_length (vId_lt hxv) hxv
      · rw [hxr, compact_pinD hxv]
        rw [show (compactPinRow s x0).port =
          (remapH s.port_ids_ (s.pinD x0).port).getD 0 from rfl, hv2, remapH_valid hv0]
        rw [Option.getD_some]
        exact hrk0
      · rw [hxr, compact_pinD hxv]
        rw [show (compactPinRow s x0).port_bit = (s.pinD x0).port_bit from rfl]
        exact hv3
  · intro x m hx hm
    rw [compact_vx, decide_eq_true_eq] at hx
    obtain ⟨x0, hv0, hrk0, hout⟩ := survH_spec hx
    rw [compact_pinD_at hx, hout] at hm
    rw [show (compactPinRow s x0).net =
      (s.pinD x0).net.bind (remapH s.net_ids_) from rfl] at hm
    rcases hnet : (s.pinD x0).net with _ | m0
    · rw [hnet] at hm
      exact absurd hm (by simp)
    · rw [hnet] at hm
      rw [show (some m0).bind (remapH s.net_ids_) = remapH s.net_ids_ m0 from rfl] at hm
      rcases remapH_elim hm with ⟨hmv, hmr⟩
      rw [compact_vn, decide_eq_true_eq, hmr]
      exact rank_lt_survivors_length (vId_lt hmv) hmv
  · intro x m hx hm
    rw [compact_vx, decide_eq_true_eq] at hx
    obtain ⟨x0, hv0, hrk0, hout⟩ := survH_spec hx
    rw [compact_pinD_at hx, hout] at hm
    rw [show (compactPinRow s x0).net =
      (s.pinD x0).net.bind (remapH s.net_ids_) from rfl] at hm
    rcases hnet : (s.pinD x0).net with _ | m0
    · rw [hnet] at hm
      exact absurd hm (by simp)
    · rw [hnet] at hm
      rw [show (some m0).bind (remapH s.net_ids_) = remapH s.net_ids_ m0 from rfl] at hm
      rcases remapH_elim hm with ⟨hmv, hmr⟩
      rw [hmr, compact_netD hmv]
      have hmem := h.pin_in_net x0 m0 hv0 hnet
      have hres := compactNetRow_mem hmem hv0
      rw [hrk0] at hres
      exact hres
  · intro m hm
    rw [compact_vn, decide_eq_true_eq] at hm
    obtain ⟨m0, hv0, hrk0, hout⟩ := survH_spec hm
    rw [compact_netD_at hm, hout, compactNetRow]
    simp
  · intro m sl hm hsl
    rw [compact_vn, decide_eq_true_eq] at hm
    obtain ⟨m0, hv0, hrk0, hout⟩ := survH_spec hm
    rw [compact_netD_at hm, hout, compactNetRow] at hsl
    simp only [List.tail_cons] at hsl
    rcases List.mem_filterMap.mp hsl with ⟨sl0, _, hf⟩
    rcases hb : sl0.bind (remapH s.pin_ids_) with _ | v
    · rw [hb] at hf
      exact absurd hf (by simp)
    · rw [hb] at hf
      have hsome : some v = sl := by simpa using hf
      rw [← hsome]
      simp
  · intro m y hm hy
    rw [compact_vn, decide_eq_true_eq] at hm
    obtain ⟨m0, hv0, hrk0, hout⟩ := survH_spec hm
    rw [compact_netD_at hm, hout] at hy
    rcases compactNetRow_mem_elim hy with ⟨x, hxmem, hxr⟩
    rcases remapH_elim hxr with ⟨hxv, hxrank⟩
    show y < ((List.range (survH s.pin_ids_).length).map some).length
    rw [List.length_map, List.length_range, hxrank]
    exact rank_lt_survivors_length (vId_lt hxv) hxv
  · intro m y hm hy hv
    rw [compact_vn, decide_eq_true_eq] at hm
    obtain ⟨m0, hv0, hrk0, hout⟩ := survH_spec hm
    rw [compact_netD_at hm, hout] at hy
    rcases compactNetRow_mem_elim hy with ⟨x, hxmem, hxr⟩
    rcases remapH_elim hxr with ⟨hxv, hxrank⟩
    have hback := h.net_pin_back m0 x hv0 hxmem hxv
    rw [hxrank, compact_pinD hxv]
    rw [show (compactPinRow s x).net = (s.pinD x).net.bind (remapH s.net_ids_) from rfl]
    rw [hback]
    rw [show (some m0).bind (remapH s.net_ids_) = remapH s.net_ids_ m0 from rfl,
      remapH_valid hv0, hrk0]
  · intro b1 b2 hb1 hb2 hname
    rw [compact_vb, decide_eq_true_eq] at hb1 hb2
    obtain ⟨c1, hv1, hr1, ho1⟩ := survH_spec hb1
    obtain ⟨c2, hv2, hr2, ho2⟩ := survH_spec hb2
    rw [compact_blockD_at hb1, ho1, compact_blockD_at hb2, ho2,
      compactBlockRow_name, compactBlockRow_name] at hname
    have heq := h.block_names_inj c1 c2 hv1 hv2 hname
    rw [← hr1, ← hr2, heq]
  · intro p1 p2 hp1 hp2 hpb hpn
    rw [compact_vp, decide_eq_true_eq] at hp1 hp2
    obtain ⟨c1, hv1, hr1, ho1⟩ := survH_spec hp1
    obtain ⟨c2, hv2, hr2, ho2⟩ := survH_spec hp2
    rw [compact_portD_at hp1, ho1, compact_portD_at hp2, ho2] at hpb hpn
    rw [compactPortRow_name, compactPortRow_name] at hpn
    rw [show (compactPortRow s c1).block =
      (remapH s.block_ids_ (s.portD c1).block).getD 0 from rfl,
      show (compactPortRow s c2).block =
      (remapH s.block_ids_ (s.portD c2).block).getD 0 from rfl] at hpb
    have hbv1 := h.port_block_valid c1 hv1
    have hbv2 := h.port_block_valid c2 hv2
    rw [remapH_valid hbv1, remapH_valid hbv2, Option.getD_some, Option.getD_some] at hpb
    have hbeq : (s.portD c1).block = (s.portD c2).block :=
      rank_inj (vId_lt hbv1) hbv1 (vId_lt hbv2) hbv2 hpb
    have heq := h.port_key_inj c1 c2 hv1 hv2 hbeq hpn
    rw [← hr1, ← hr2, heq]
  · intro n1 n2 hn1 hn2 hname
    rw [compact_vn, decide_eq_true_eq] at hn1 hn2
    obtain ⟨c1, hv1, hr1, ho1⟩ := survH_spec hn1
    obtain ⟨c2, hv2, hr2, ho2⟩ := survH_spec hn2
    rw [compact_netD_at hn1, ho1, compact_netD_at hn2, ho2,
      compactNetRow_name, compactNetRow_name] at hname
    have heq := h.net_names_inj c1 c2 hv1 hv2 hname
    rw [← hr1, ← hr2, heq]

theorem band_intro {a b : Bool} (ha : a = true) (hb : b = true) : (a && b) = true := by
  rw [ha, hb]
  rfl

theorem verify_sizesb_of_WF {nl : AtomNetlist} (h : WF nl) : nl.verify_sizesb = true := by
  rw [verify_sizesb]
  simp [h.size_blocks, h.size_ports, h.size_pins, h.size_nets]

theorem verify_refsb_of_WF {nl : AtomNetlist} (h : WF nl)
    (hab : ∀ b, b < nl.block_ids_.length → nl.valid_block_id b = true)
    (hap : ∀ p, p < nl.port_ids_.length → nl.valid_port_id p = true)
    (hax : ∀ x, x < nl.pin_ids_.length → nl.valid_pin_id x = true)
    (han : ∀ n, n < nl.net_ids_.length → nl.valid_net_id n = true) :
    nl.verify_refsb = true := by
  rw [verify_refsb]
  refine band_intro (band_intro (band_intro ?_ ?_) ?_) ?_
  · rw [List.all_eq_true]
    intro b hb
    rw [List.mem_range] at hb
    have hbv := hab b hb
    rw [hbv]
    simp only [Bool.not_true, Bool.false_or]
    rw [List.all_eq_true]
    intro p hpmem
    refine band_intro ?_ ?_
    · exact hap p (h.block_port_bound b p hbv hpmem)
    · exact beq_iff_eq.mpr (h.block_port_owner b p hbv hpmem
        (hap p (h.block_port_bound b p hbv hpmem)))
  · rw [List.all_eq_true]
    intro p hp
    rw [List.mem_range] at hp
    have hpv := hap p hp
    rw [hpv]
    simp only [Bool.not_true, Bool.false_or]
    refine band_intro (band_intro ?_ ?_) ?_
    · exact h.port_block_valid p hpv
    · exact decide_eq_true (h.port_in_block p hpv)
    · rw [List.all_eq_true]
      intro bit hbit
      rcases hsl : (nl.portD p).pins.getD bit none with _ | x
      · rfl
      · rcases h.slot_pin p bit x hpv hsl with ⟨hv1, hv2, hv3⟩
        refine band_intro (band_intro hv1 ?_) ?_
        · exact beq_iff_eq.mpr hv2
        · exact beq_iff_eq.mpr hv3
  · rw [List.all_eq_true]
    intro x hx
    rw [List.mem_range] at hx
    have hxv := hax x hx
    rw [hxv]
    simp only [Bool.not_true, Bool.false_or]
    refine band_intro (band_intro ?_ ?_) ?_
    · exact h.pin_port_valid x hxv
    · exact beq_iff_eq.mpr (h.pin_slot x hxv)
    · rcases hnet : (nl.pinD x).net with _ | n
      · rfl
      · refine band_intro ?_ ?_
        · exact h.pin_net_valid x n hxv hnet
        · exact decide_eq_true (h.pin_in_net x n hxv hnet)
  · rw [List.all_eq_true]
    intro n hn
    rw [List.mem_range] at hn
    have hnv := han n hn
    rw [hnv]
    simp only [Bool.not_true, Bool.false_or]
    refine band_intro (band_intro ?_ ?_) ?_
    · have hne := h.net_nonempty n hnv
      cases hpins : (nl.netD n).pins with
      | nil => exact absurd hpins hne
      | cons hd t => rfl
    · rw [List.all_eq_true]
      intro s hs
      have hne := h.net_tail_filled n s hnv hs
      cases s with
      | none => exact absurd rfl hne
      | some x => rfl
    · rw [List.all_eq_true]
      intro s hs
      cases s with
      | none => rfl
      | some x =>
        refine band_intro ?_ ?_
        · exact hax x (h.net_pin_bound n x hnv hs)
        · exact beq_iff_eq.mpr (h.net_pin_back n x hnv hs
            (hax x (h.net_pin_bound n x hnv hs)))

theorem verify_lookupsb_of_WF {nl : AtomNetlist} (h : WF nl) :
    nl.verify_lookupsb = true := by
  rw [verify_lookupsb]
  refine band_intro (band_intro (band_intro ?_ ?_) ?_) ?_
  · rw [List.all_eq_true]
    intro b hb
    cases hv : nl.valid_block_id b with
    | false => rfl
    | true =>
      simp only [Bool.not_true, Bool.false_or]
      exact beq_iff_eq.mpr (find_block_of_valid h.block_names_inj hv)
  · rw [List.all_eq_true]
    intro p hp
    cases hv : nl.valid_port_id p with
    | false => rfl
    | true =>
      simp only [Bool.not_true, Bool.false_or]
      exact beq_iff_eq.mpr (find_port_of_valid h.port_key_inj hv)
  · rw [List.all_eq_true]
    intro x hx
    cases hv : nl.valid_pin_id x with
    | false => rfl
    | true =>
      simp only [Bool.not_true, Bool.false_or]
      exact beq_iff_eq.mpr (h.pin_slot x hv)
  · rw [List.all_eq_true]
    intro n hn
    cases hv : nl.valid_net_id n with
    | false => rfl
    | true =>
      simp only [Bool.not_true, Bool.false_or]
      exact beq_iff_eq.mpr (find_net_of_valid h.net_names_inj hv)

theorem verify_ok_of {nl : AtomNetlist} (hs : nl.verify_sizesb = true)
    (hr : nl.verify_refsb = true) (hl : nl.verify_lookupsb = true) :
    nl.verify = Except.ok true := by
  rw [verify, hs, hr, hl]
  rfl

theorem compact_allvalid_b (s : AtomNetlist) :
    ∀ b, b < s.compact.block_ids_.length → s.compact.valid_block_id b = true := by
  intro b hb
  rw [compact_vb, decide_eq_true_eq]
  have hlen : s.compact.block_ids_.length = (survH s.block_ids_).length := by
    show ((List.range (survH s.block_ids_).length).map some).length = _
    simp
  rw [hlen] at hb
  exact hb

theorem compact_allvalid_p (s : AtomNetlist) :
    ∀ p, p < s.compact.port_ids_.length → s.compact.valid_port_id p = true := by
  intro p hp
  rw [compact_vp, decide_eq_true_eq]
  have hlen : s.compact.port_ids_.length = (survH s.port_ids_).length := by
    show ((List.range (survH s.port_ids_).length).map some).length = _
    simp
  rw [hlen] at hp
  exact hp

theorem compact_allvalid_x (s : AtomNetlist) :
    ∀ x, x < s.compact.pin_ids_.length → s.compact.valid_pin_id x = true := by
  intro x hx
  rw [compact_vx, decide_eq_true_eq]
  have hlen : s.compact.pin_ids_.length = (survH s.pin_ids_).length := by
    show ((List.range (survH s.pin_ids_).length).map some).length = _
    simp
  rw [hlen] at hx
  exact hx

theorem compact_allvalid_n (s : AtomNetlist) :
    ∀ n, n < s.compact.net_ids_.length → s.compact.valid_net_id n = true := by
  intro n hn
  rw [compact_vn, decide_eq_true_eq]
  have hlen : s.compact.net_ids_.length = (survH s.net_ids_).length := by
    show ((List.range (survH s.net_ids_).length).map some).length = _
    simp
  rw [hlen] at hn
  exact hn

theorem compact_verify {s : AtomNetlist} (h : WF s) :
    s.compact.verify = Except.ok true := by
  have hC := compact_WF h
  exact verify_ok_of (verify_sizesb_of_WF hC)
    (verify_refsb_of_WF hC (compact_allvalid_b s) (compact_allvalid_p s)
      (compact_allvalid_x s) (compact_allvalid_n s))
    (verify_lookupsb_of_WF hC)

theorem compress_WF {nl : AtomNetlist} (h : WF nl) : WF nl.compress :=
  compact_WF (remove_unused_WF h)

theorem compress_verify {nl : AtomNetlist} (h : WF nl) :
    nl.compress.verify = Except.ok true :=
  compact_verify (remove_unused_WF h)

/-- Netlist states reachable from a fresh netlist through valid calls of
the public mutators (a call is valid when it does not report a contract
violation). -/
inductive Reachable : AtomNetlist → Prop
  | initial (name : String) : Reachable (AtomNetlist.initial name)
  | create_block {nl : AtomNetlist} (h : Reachable nl) (name : String) (model : TModel)
      (tt : TruthTable) : Reachable (nl.create_block name model tt).1
  | create_port {nl : AtomNetlist} (h : Reachable nl) {blk : Nat} {name : String}
      {res : AtomNetlist × Nat} (hc : nl.create_port blk name = some res) :
      Reachable res.1
  | create_pin {nl : AtomNetlist} (h : Reachable nl) {port bit : Nat} {net : Option Nat}
      {ptype : AtomPinType} {res : AtomNetlist × Nat}
      (hc : nl.create_pin port bit net ptype = some res) : Reachable res.1
  | create_net {nl : AtomNetlist} (h : Reachable nl) (name : String) :
      Reachable (nl.create_net name).1
  | add_net {nl : AtomNetlist} (h : Reachable nl) {name : String} {driver : Option Nat}
      {sinks : List Nat} {res : AtomNetlist × Nat}
      (hc : nl.add_net name driver sinks = Except.ok res) : Reachable res.1
  | remove_block {nl : AtomNetlist} (h : Reachable nl) {blk : Nat} {res : AtomNetlist}
      (hc : nl.remove_block blk = some res) : Reachable res
  | remove_net {nl : AtomNetlist} (h : Reachable nl) {n : Nat} {res : AtomNetlist}
      (hc : nl.remove_net n = some res) : Reachable res
  | remove_net_pin {nl : AtomNetlist} (h : Reachable nl) {n x : Nat} {res : AtomNetlist}
      (hc : nl.remove_net_pin n x = some res) : Reachable res
  | compress {nl : AtomNetlist} (h : Reachable nl) : Reachable nl.compress

/-- Every reachable netlist state satisfies the well-formedness invariant. -/
theorem Reachable.toWF {nl : AtomNetlist} (h : Reachable nl) : WF nl := by
  induction h with
  | initial name => exact WF_initial name
  | create_block h name model tt ih => exact create_block_WF ih name model tt
  | create_port h hc ih => exact create_port_WF ih _ _ _ hc
  | create_pin h hc ih => exact create_pin_WF ih _ _ _ _ _ hc
  | create_net h name ih => exact create_net_WF ih name
  | add_net h hc ih => exact add_net_WF ih _ _ _ _ hc
  | remove_block h hc ih => exact remove_block_WF ih _ _ hc
  | remove_net h hc ih => exact remove_net_WF ih _ _ hc
  | remove_net_pin h hc ih => exact remove_net_pin_WF ih _ _ _ hc
  | compress h ih => exact compress_WF ih

theorem filterMap_id_map_some {l : List (Option Nat)} (h : ∀ s ∈ l, s ≠ none) :
    (l.filterMap id).map some = l := by
  induction l with
  | nil => rfl
  | cons hd t ih =>
    cases hd with
    | none => exact absurd rfl (h none (List.mem_cons_self _ _))
    | some x =>
      have ht := ih (fun s hs => h s (List.mem_cons_of_mem _ hs))
      simp only [List.filterMap_cons, id]
      rw [List.map_cons, ht]

theorem map_some_filterMap_id (l : List Nat) : (l.map some).filterMap id = l := by
  induction l with
  | nil => rfl
  | cons hd t ih => simp only [List.map_cons, List.filterMap_cons, id, ih]

theorem remove_unused_valid_block {nl : AtomNetlist} {b : Nat}
    (h : nl.remove_unused.valid_block_id b = true) : nl.valid_block_id b = true := by
  have h2 : vId ((List.range nl.block_ids_.length).map
      (fun c => if nl.blockUnusedB c then none else nl.block_ids_.getD c none)) b
      = true := h
  cases hu : nl.blockUnusedB b with
  | false =>
    rw [vId_maskB_false hu] at h2
    exact h2
  | true =>
    rw [vId_maskB_true hu] at h2
    exact Bool.noConfusion h2

theorem remove_unused_valid_net (nl : AtomNetlist) (n : Nat) :
    nl.remove_unused.valid_net_id n = nl.valid_net_id n := rfl

theorem valid_pin_bounded_all (nl : AtomNetlist) (P : Nat → Prop)
    (hall : ∀ x ∈ List.range nl.pin_ids_.length, nl.valid_pin_id x = true → P x) :
    ∀ x, nl.valid_pin_id x = true → P x := by
  intro x hx
  exact hall x (List.mem_range.mpr (vId_lt hx)) hx

theorem create_block_fresh {nl : AtomNetlist} {name : String} (model : TModel)
    (tt : TruthTable) (hf : nl.find_block name = none) :
    nl.create_block name model tt =
      ({ nl with block_ids_ := nl.block_ids_ ++ [some nl.block_ids_.length],
                 blocks_ := nl.blocks_ ++ [⟨name, model, tt, [], [], []⟩] },
       nl.block_ids_.length) := by
  rw [create_block, hf]

theorem create_block_find_after {nl : AtomNetlist} (h : WF nl) {name : String}
    (model : TModel) (tt : TruthTable) (hf : nl.find_block name = none) :
    (nl.create_block name model tt).1.find_block name = some nl.block_ids_.length := by
  rw [create_block_fresh model tt hf]
  set row : BlockData := ⟨name, model, tt, [], [], []⟩ with hrowdef
  set N : AtomNetlist := { nl with
    block_ids_ := nl.block_ids_ ++ [some nl.block_ids_.length],
    blocks_ := nl.blocks_ ++ [row] } with hNdef
  show N.find_block name = some nl.block_ids_.length
  have hnames := (nl.find_block_eq_none_iff name).mp hf
  have hLB : nl.block_ids_.length = nl.blocks_.length := h.size_blocks
  have hlen : N.block_ids_.length = nl.block_ids_.length + 1 := by
    show (nl.block_ids_ ++ [some nl.block_ids_.length]).length = _
    simp
  rw [find_block, hlen, List.range_succ, List.find?_append]
  have h1 : (List.range nl.block_ids_.length).find?
      (fun b => N.valid_block_id b && ((N.blockD b).name == name)) = none := by
    rw [List.find?_eq_none]
    intro b hb
    rw [List.mem_range] at hb
    intro hc
    rw [Bool.and_eq_true] at hc
    obtain ⟨hv, hn⟩ := hc
    have hv2 : vId (nl.block_ids_ ++ [some nl.block_ids_.length]) b = true := hv
    rw [vId_snoc] at hv2
    rcases Bool.or_eq_true _ _ |>.mp hv2 with hold | hnew
    · have hbd : N.blockD b = nl.blockD b := by
        show (nl.blocks_ ++ [row]).getD b default = nl.blockD b
        exact getD_append_lt _ _ (hLB ▸ vId_lt hold) _
      rw [hbd] at hn
      exact hnames b hold (by simpa using hn)
    · rw [decide_eq_true_eq] at hnew
      omega
  rw [h1]
  have h2 : N.valid_block_id nl.block_ids_.length = true := by
    show vId (nl.block_ids_ ++ [some nl.block_ids_.length]) nl.block_ids_.length = true
    rw [vId_snoc]
    simp
  have h3 : (N.blockD nl.block_ids_.length).name = name := by
    have : N.blockD nl.block_ids_.length = row := by
      show (nl.blocks_ ++ [row]).getD nl.block_ids_.length default = row
      rw [hLB]
      exact getD_snoc_self _ _ _
    rw [this, hrowdef]
  simp [List.find?, h2, h3]

/-- Concrete architecture model used by the evaluation states below. -/
def wM : TModel := ⟨[⟨"out", 1, AtomPortType.OUTPUT⟩, ⟨"in", 2, AtomPortType.INPUT⟩]⟩

/-- Evaluation state: fresh netlist. -/
def w0 : AtomNetlist := AtomNetlist.initial "top"

/-- Evaluation state: one block created in w0. -/
def w1 : AtomNetlist := (w0.create_block "b0" wM []).1

/-- Evaluation state: one net created in w1. -/
def w2 : AtomNetlist := (w1.create_net "n0").1

/-- Evaluation state: one port created on the block of w2. -/
def w3 : AtomNetlist := ((w2.create_port 0 "out").getD (w2, 0)).1

/-- Evaluation state: a driver pin created on the port of w3, on the net. -/
def w4 : AtomNetlist :=
  ((w3.create_pin 0 0 (some 0) AtomPinType.DRIVER).getD (w3, 0)).1

/-- Evaluation state: the block removed from w4. -/
def w5 : AtomNetlist := (w4.remove_block 0).getD w4

/-- Evaluation state: the net removed from w4. -/
def w6 : AtomNetlist := (w4.remove_net 0).getD w4

/-- Evaluation state: a second, two-bit port created on the block of w4. -/
def w7 : AtomNetlist := ((w4.create_port 0 "in").getD (w4, 0)).1

theorem w2_reachable : Reachable w2 :=
  Reachable.create_net
    (Reachable.create_block (Reachable.initial "top") "b0" wM []) "n0"

theorem w3_reachable : Reachable w3 :=
  @Reachable.create_port w2 w2_reachable 0 "out"
    ((w2.create_port 0 "out").getD (w2, 0)) (by decide)

theorem w4_reachable : Reachable w4 :=
  @Reachable.create_pin w3 w3_reachable 0 0 (some 0) AtomPinType.DRIVER
    ((w3.create_pin 0 0 (some 0) AtomPinType.DRIVER).getD (w3, 0)) (by decide)

theorem w7_reachable : Reachable w7 :=
  @Reachable.create_port w4 w4_reachable 0 "in"
    ((w4.create_port 0 "in").getD (w4, 0)) (by decide)

/-- C9: for every netlist state and every pin handle, the convenience
accessor pin_block returns the same block handle as the two-step
traversal through pin_port and port_block. -/
theorem C9_pin_block_composition (nl : AtomNetlist) (x : Nat) :
    nl.pin_block x = nl.port_block (nl.pin_port x) := rfl

/-- C10: a freshly constructed AtomNetlist, for any name, contains no
entities: blocks and nets are empty ranges, the dirty flag is clear, and
the validator succeeds. -/
theorem C10_fresh_netlist_empty (name : String) :
    (AtomNetlist.initial name).blocks = [] ∧
    (AtomNetlist.initial name).nets = [] ∧
    (AtomNetlist.initial name).dirty = false ∧
    (AtomNetlist.initial name).verify = Except.ok true :=
  ⟨rfl, rfl, rfl, rfl⟩

/-- C7: the validator returns true exactly when its three checks (sizes,
cross-references, lookups) all pass; on any inconsistency it reports a
fatal structured error, and it never returns false or absorbs an
inconsistency silently. -/
theorem C7_verify_error_discipline (nl : AtomNetlist) :
    ((nl.verify_sizesb && nl.verify_refsb && nl.verify_lookupsb) = true →
      nl.verify = Except.ok true) ∧
    ((nl.verify_sizesb && nl.verify_refsb && nl.verify_lookupsb) = false →
      ∃ msg, nl.verify = Except.error msg) ∧
    (∀ b, nl.verify = Except.ok b → b = true) := by
  refine ⟨?_, ?_, ?_⟩
  · intro hall
    rw [Bool.and_eq_true, Bool.and_eq_true] at hall
    exact verify_ok_of hall.1.1 hall.1.2 hall.2
  · intro hfail
    cases hs : nl.verify_sizesb with
    | false =>
      refine ⟨"netlist sizes are inconsistent", ?_⟩
      rw [verify, hs]
      rfl
    | true =>
      cases hr : nl.verify_refsb with
      | false =>
        refine ⟨"netlist cross-references are inconsistent", ?_⟩
        rw [verify, hs, hr]
        rfl
      | true =>
        cases hl : nl.verify_lookupsb with
        | false =>
          refine ⟨"netlist lookups are inconsistent", ?_⟩
          rw [verify, hs, hr, hl]
          rfl
        | true =>
          rw [hs, hr, hl] at hfail
          exact absurd hfail (by simp)
  · intro b hb
    rw [verify] at hb
    cases hs : nl.verify_sizesb with
    | false =>
      rw [hs] at hb
      exact absurd hb (by simp)
    | true =>
      rw [hs] at hb
      cases hr : nl.verify_refsb with
      | false =>
        rw [hr] at hb
        exact absurd hb (by simp)
      | true =>
        rw [hr] at hb
        cases hl : nl.verify_lookupsb with
        | false =>
          rw [hl] at hb
          exact absurd hb (by simp)
        | true =>
          rw [hl] at hb
          simp at hb
          exact hb

/-- C4: when a net of the given name already exists, add_net fails with
the duplicate-name contract violation; in this functional embedding the
error result carries no new state, so no store is created or modified. -/
theorem C4_add_net_duplicate_rejected (nl : AtomNetlist) (name : String)
    (driver : Option Nat) (sinks : List Nat) (id : Nat)
    (hdup : nl.find_net name = some id) :
    nl.add_net name driver sinks = Except.error "duplicate net name" ∧
    (∀ res, nl.add_net name driver sinks ≠ Except.ok res) := by
  have h1 : nl.add_net name driver sinks = Except.error "duplicate net name" := by
    rw [add_net, hdup]
    rfl
  refine ⟨h1, ?_⟩
  intro res hc
  rw [h1] at hc
  exact Except.noConfusion hc

/-- C6: remove_net invalidates the net and clears the net reference of
every pin formerly on it, while those pins stay valid and keep their
port, bit index and role; pins not on the net are untouched entirely. -/
theorem C6_remove_net_frame {nl : AtomNetlist} (h : WF nl) {n : Nat}
    {nl2 : AtomNetlist} (hrm : nl.remove_net n = some nl2) :
    nl2.valid_net_id n = false ∧
    (∀ x, nl2.valid_pin_id x = nl.valid_pin_id x) ∧
    (∀ x, some x ∈ (nl.netD n).pins → nl2.pin_net x = none) ∧
    (∀ x, some x ∈ (nl.netD n).pins →
      nl2.pin_port x = nl.pin_port x ∧ nl2.pin_port_bit x = nl.pin_port_bit x ∧
      nl2.pin_type x = nl.pin_type x) ∧
    (∀ x, ¬(some x ∈ (nl.netD n).pins) → nl2.pinD x = nl.pinD x) := by
  unfold remove_net at hrm
  split at hrm
  case isFalse => exact absurd hrm (by simp)
  case isTrue hn =>
  simp only [Option.some_inj] at hrm
  rw [← hrm]
  have hxs_iff : ∀ x, x ∈ (nl.netD n).pins.filterMap id ↔ some x ∈ (nl.netD n).pins := by
    intro x
    rw [List.mem_filterMap]
    constructor
    · rintro ⟨a, ha, hax⟩
      cases a with
      | none => exact Option.noConfusion hax
      | some y =>
        have hyx : y = x := Option.some_inj.mp hax
        exact hyx ▸ ha
    · intro hx
      exact ⟨some x, hx, rfl⟩
  have hmemD : ∀ x, some x ∈ (nl.netD n).pins →
      (setPinNets nl.pins_ ((nl.netD n).pins.filterMap id) none).getD x default =
        { nl.pinD x with net := none } := by
    intro x hx
    have hb := h.net_pin_bound n x hn hx
    exact setPinNets_getD_mem (h.size_pins ▸ hb) ((hxs_iff x).mpr hx)
  refine ⟨vId_set_none_self _ _, fun x => rfl, ?_, ?_, ?_⟩
  · intro x hx
    show ((setPinNets nl.pins_ ((nl.netD n).pins.filterMap id) none).getD x
      default).net = none
    rw [hmemD x hx]
  · intro x hx
    refine ⟨?_, ?_, ?_⟩
    · show ((setPinNets nl.pins_ ((nl.netD n).pins.filterMap id) none).getD x
        default).port = (nl.pinD x).port
      rw [hmemD x hx]
    · show ((setPinNets nl.pins_ ((nl.netD n).pins.filterMap id) none).getD x
        default).port_bit = (nl.pinD x).port_bit
      rw [hmemD x hx]
    · show ((setPinNets nl.pins_ ((nl.netD n).pins.filterMap id) none).getD x
        default).ptype = (nl.pinD x).ptype
      rw [hmemD x hx]
  · intro x hx
    show (setPinNets nl.pins_ ((nl.netD n).pins.filterMap id) none).getD x default =
      nl.pinD x
    exact setPinNets_getD_nmem (fun hc => hx ((hxs_iff x).mp hc))

/-- C8: lookups of nonexistent entities or unassociated relationships
return the absent handle and never fail: find_block and find_net return
none when no live entity has the name; port_pin and find_pin return none
at a valid port and in-range bit with no pin; and port_net returns none
both when the bit has no pin and when the pin is unassociated. -/
theorem C8_lookup_absent {nl : AtomNetlist} (h : WF nl) :
    (∀ name, (∀ b, nl.valid_block_id b = true → nl.block_name b ≠ name) →
      nl.find_block name = none) ∧
    (∀ name, (∀ n, nl.valid_net_id n = true → nl.net_name n ≠ name) →
      nl.find_net name = none) ∧
    (∀ p bit, nl.valid_port_id p = true → bit < nl.port_width p →
      (∀ x, nl.valid_pin_id x = true →
        ¬(nl.pin_port x = p ∧ nl.pin_port_bit x = bit)) →
      nl.port_pin p bit = none ∧ nl.find_pin p bit = none) ∧
    (∀ p bit, nl.port_pin p bit = none → nl.port_net p bit = none) ∧
    (∀ p bit x, nl.port_pin p bit = some x → nl.pin_net x = none →
      nl.port_net p bit = none) := by
  refine ⟨?_, ?_, ?_, ?_, ?_⟩
  · intro name hno
    exact (nl.find_block_eq_none_iff name).mpr hno
  · intro name hno
    exact (nl.find_net_eq_none_iff name).mpr hno
  · intro p bit hp hbit hno
    have hslot : (nl.portD p).pins.getD bit none = none := by
      rcases hs : (nl.portD p).pins.getD bit none with _ | x
      · rfl
      · rcases h.slot_pin p bit x hp hs with ⟨hv1, hv2, hv3⟩
        exact absurd ⟨hv2, hv3⟩ (hno x hv1)
    exact ⟨hslot, hslot⟩
  · intro p bit hnone
    rw [port_net, hnone]
    rfl
  · intro p bit x hsome hnet
    rw [port_net, hsome]
    exact hnet

/-- C5: a successful add_net installs the given (possibly absent) driver
at position 0, so net_driver returns it, and net_sinks returns exactly
the given sinks; moreover in every valid net of a reachable state,
position 0 of net_pins is the driver and the remaining positions are the
sinks. -/
theorem C5_add_net_layout {nl : AtomNetlist} (h : WF nl) :
    (∀ name d sinks nl2 id, nl.add_net name d sinks = Except.ok (nl2, id) →
      nl2.net_driver id = d ∧ nl2.net_sinks id = sinks ∧
      (∀ x, x ∈ nl2.net_sinks id ↔ x ∈ sinks)) ∧
    (∀ n, nl.valid_net_id n = true →
      nl.net_pins n = nl.net_driver n :: (nl.net_sinks n).map some) := by
  constructor
  · intro name d sinks nl2 id hok
    unfold add_net at hok
    split at hok
    · exact absurd hok (by simp)
    simp only [] at hok
    split at hok
    case isFalse => exact absurd hok (by simp)
    case isTrue hall =>
    simp only [Except.ok.injEq, Prod.mk.injEq] at hok
    obtain ⟨hst, hid⟩ := hok
    have hnetD : nl2.netD id = ⟨name, d :: sinks.map some⟩ := by
      rw [← hst, ← hid]
      show (nl.nets_ ++ [(⟨name, d :: sinks.map some⟩ : NetData)]).getD
        nl.net_ids_.length default = (⟨name, d :: sinks.map some⟩ : NetData)
      rw [h.size_nets]
      exact getD_snoc_self _ _ _
    refine ⟨?_, ?_, ?_⟩
    · rw [net_driver, hnetD]
      rfl
    · rw [net_sinks, hnetD]
      simp only [List.tail_cons]
      exact map_some_filterMap_id sinks
    · intro x
      rw [net_sinks, hnetD]
      simp only [List.tail_cons]
      rw [map_some_filterMap_id sinks]
  · intro n hn
    have h1 := h.net_nonempty n hn
    have h2 := fun s hs => h.net_tail_filled n s hn hs
    rw [net_pins, net_driver, net_sinks]
    cases hp : (nl.netD n).pins with
    | nil => exact absurd hp h1
    | cons hd t =>
      simp only [List.headD_cons, List.tail_cons]
      have ht : ∀ s ∈ t, s ≠ none := by
        intro s hs
        exact h2 s (by rw [hp]; simpa using hs)
      rw [filterMap_id_map_some ht]

/-- C2: every create_* operation is idempotent on its identifying key
with first-writer-wins semantics: a repeated create_block name,
create_port (block, name) key, create_pin (port, bit) key or create_net
name returns the existing handle with the state unchanged (so no new
entity is created and the non-identifying arguments of the repeated call
are not applied); and calling create_block twice on a fresh name returns
the same handle both times while the block count grows by exactly one
over the two calls. -/
theorem C2_create_idempotent {nl : AtomNetlist} (h : WF nl) :
    (∀ name model tt model2 tt2 nl1 b1, nl.find_block name = none →
      nl.create_block name model tt = (nl1, b1) →
      nl1.create_block name model2 tt2 = (nl1, b1) ∧
      nl1.blocks.length = nl.blocks.length + 1) ∧
    (∀ name model tt b, nl.find_block name = some b →
      nl.create_block name model tt = (nl, b)) ∧
    (∀ blk name p, nl.valid_block_id blk = true → nl.find_port blk name = some p →
      nl.create_port blk name = some (nl, p)) ∧
    (∀ port_id port_bit net ptype x, nl.valid_port_id port_id = true →
      port_bit < (nl.portD port_id).pins.length → nl.netOk net = true →
      nl.find_pin port_id port_bit = some x →
      nl.create_pin port_id port_bit net ptype = some (nl, x)) ∧
    (∀ name n, nl.find_net name = some n → nl.create_net name = (nl, n)) := by
  refine ⟨?_, ?_, ?_, ?_, ?_⟩
  · intro name model tt model2 tt2 nl1 b1 hfind hc1
    have hfr := create_block_fresh model tt hfind
    have hfa := create_block_find_after h model tt hfind
    rw [hc1] at hfa
    simp only [] at hfa
    rw [hfr, Prod.mk.injEq] at hc1
    obtain ⟨hX, hk⟩ := hc1
    constructor
    · rw [create_block, hfa, ← hk]
    · rw [← hX]
      show (nl.block_ids_ ++ [some nl.block_ids_.length]).length =
        nl.block_ids_.length + 1
      simp
  · intro name model tt b hf
    rw [create_block, hf]
  · intro blk name p hv hf
    rw [create_port, if_pos hv, hf]
  · intro port_id port_bit net ptype x hv hb hn hf
    have hcond : (nl.valid_port_id port_id &&
        decide (port_bit < (nl.portD port_id).pins.length) && nl.netOk net) = true := by
      rw [hv, hn]
      simp [hb]
    rw [create_pin, if_pos hcond, hf]
  · intro name n hf
    rw [create_net, hf]

theorem getD_map_removePins (l : List NetData) (xs : List Nat) (n : Nat) :
    (l.map (fun nd => nd.removePins xs)).getD n default =
      (l.getD n default).removePins xs := by
  by_cases h : n < l.length
  · rw [getD_of_lt _ (by simpa using h) _, getD_of_lt _ h _]
    simp
  · rw [getD_of_le _ (by simpa using Nat.le_of_not_lt h) _,
      getD_of_le _ (Nat.le_of_not_lt h) _]
    rfl

/-- C3: removing a valid block invalidates the block, every port it owns
and every pin on those ports, while no net is invalidated: net validity
is untouched, every removed pin disappears from every net pin list, and
after compress each previously valid net is still found by its name while
the removed block name no longer resolves. -/
theorem C3_remove_block_cascade {nl : AtomNetlist} (h : Reachable nl) {B : Nat}
    {nl2 : AtomNetlist} (hrm : nl.remove_block B = some nl2) :
    nl2.valid_block_id B = false ∧
    (∀ p, p ∈ (nl.blockD B).allPorts → nl2.valid_port_id p = false) ∧
    (∀ x, x ∈ nl.blockPins B → nl2.valid_pin_id x = false) ∧
    (∀ n, nl2.valid_net_id n = nl.valid_net_id n) ∧
    (∀ n x, x ∈ nl.blockPins B → some x ∉ (nl2.netD n).pins) ∧
    (∀ n, nl.valid_net_id n = true →
      (nl2.compress.find_net ((nl.netD n).name)).isSome = true) ∧
    nl2.compress.find_block ((nl.blockD B).name) = none := by
  have hw := h.toWF
  have hw2 : WF nl2 := remove_block_WF hw B nl2 hrm
  unfold remove_block at hrm
  split at hrm
  case isFalse => exact absurd hrm (by simp)
  case isTrue hBv =>
  simp only [Option.some_inj] at hrm
  rw [← hrm] at hw2 ⊢
  set ps := nl.blockLivePorts B with hpsdef
  set xs := nl.blockPins B with hxsdef
  set N : AtomNetlist := { nl with
    dirty_ := true,
    block_ids_ := nl.block_ids_.set B none,
    port_ids_ := (List.range nl.port_ids_.length).map
      (fun i => if i ∈ ps then none else nl.port_ids_.getD i none),
    pin_ids_ := (List.range nl.pin_ids_.length).map
      (fun i => if i ∈ xs then none else nl.pin_ids_.getD i none),
    pins_ := setPinNets nl.pins_ xs none,
    nets_ := nl.nets_.map (fun nd => nd.removePins xs) } with hNdef
  have hvb_blk : N.valid_block_id B = false := vId_set_none_self _ _
  have hvp_mem : ∀ p, p ∈ ps → N.valid_port_id p = false := fun p hp => vId_mask_mem hp
  have hvp_nmem : ∀ p, p ∉ ps → N.valid_port_id p = vId nl.port_ids_ p :=
    fun p hp => vId_mask_nmem hp
  have hnd : ∀ n, N.netD n = (nl.netD n).removePins xs :=
    fun n => getD_map_removePins nl.nets_ xs n
  refine ⟨hvb_blk, ?_, ?_, fun n => rfl, ?_, ?_, ?_⟩
  · intro p hp
    by_cases hv : nl.valid_port_id p = true
    · exact hvp_mem p (List.mem_filter.mpr ⟨hp, hv⟩)
    · have hnm : p ∉ ps := fun hc => hv (List.mem_filter.mp hc).2
      rw [hvp_nmem p hnm]
      exact Bool.eq_false_iff.mpr hv
  · intro x hx
    exact vId_mask_mem hx
  · intro n x hx
    rw [hnd n]
    exact NetData_removePins_not_mem _ hx
  · intro n hv
    have hv2 : N.valid_net_id n = true := hv
    set s := N.remove_unused with hsdef
    have hvs : vId s.net_ids_ n = true := hv2
    have hlt : n < s.net_ids_.length := vId_lt hvs
    have hws : WF s := remove_unused_WF hw2
    have hwc : WF s.compact := compact_WF hws
    have hrv : s.compact.valid_net_id (rankOf (vId s.net_ids_) n) = true := by
      rw [compact_vn]
      exact decide_eq_true (rank_lt_survivors_length hlt hvs)
    have hfind := find_net_of_valid hwc.net_names_inj hrv
    have hname : (s.compact.netD (rankOf (vId s.net_ids_) n)).name =
        (nl.netD n).name := by
      rw [compact_netD hvs, compactNetRow_name,
        show s.netD n = (nl.netD n).removePins xs from hnd n,
        NetData_removePins_name]
    show (s.compact.find_net ((nl.netD n).name)).isSome = true
    rw [← hname, hfind]
    rfl
  · set s := N.remove_unused with hsdef
    have hend : s.compact.find_block ((nl.blockD B).name) = none := by
      rw [find_block_eq_none_iff]
      intro j hjv
      have hjv2 : s.compact.valid_block_id j = true := hjv
      rw [compact_vb] at hjv2
      have hjlt : j < (survH s.block_ids_).length := of_decide_eq_true hjv2
      obtain ⟨i, hvi, hrank, hget⟩ := survH_spec hjlt
      have hvNi : N.valid_block_id i = true := remove_unused_valid_block hvi
      have hiB : i ≠ B := by
        intro he
        rw [he, hvb_blk] at hvNi
        exact Bool.noConfusion hvNi
      have hvnl : nl.valid_block_id i = true := by
        rwa [show N.valid_block_id i = vId nl.block_ids_ i from
          vId_set_none_ne _ (fun he => hiB he.symm)] at hvNi
      have hbname : (s.compact.blockD j).name = (nl.blockD i).name := by
        rw [compact_blockD_at hjlt, hget, compactBlockRow_name]
        rfl
      rw [hbname]
      intro heq
      exact hiB (hw.block_names_inj i B hvnl hBv heq)
    exact hend

/-- C1: after compress on any reachable netlist, the valid handles of
every entity kind are exactly the contiguous range 0..count-1 (so any
handle at or beyond the new count, in particular any handle that named a
swept entity before the call, is no longer valid), the dirty flag is
cleared, and the validator succeeds. -/
theorem C1_compress_canonical {nl : AtomNetlist} (h : Reachable nl) :
    (∀ b, nl.compress.valid_block_id b = true ↔ b < nl.compress.blocks.length) ∧
    (∀ p, nl.compress.valid_port_id p = true ↔ p < nl.compress.port_ids_.length) ∧
    (∀ x, nl.compress.valid_pin_id x = true ↔ x < nl.compress.pin_ids_.length) ∧
    (∀ n, nl.compress.valid_net_id n = true ↔ n < nl.compress.nets.length) ∧
    nl.compress.dirty = false ∧
    nl.compress.verify = Except.ok true := by
  refine ⟨?_, ?_, ?_, ?_, rfl, compress_verify h.toWF⟩
  · intro b
    have hlen : nl.compress.blocks.length =
        (survH nl.remove_unused.block_ids_).length := by
      show ((List.range (survH nl.remove_unused.block_ids_).length).map some).length = _
      simp
    rw [hlen, show nl.compress.valid_block_id b =
      decide (b < (survH nl.remove_unused.block_ids_).length) from
      compact_vb nl.remove_unused b, decide_eq_true_eq]
  · intro p
    have hlen : nl.compress.port_ids_.length =
        (survH nl.remove_unused.port_ids_).length := by
      show ((List.range (survH nl.remove_unused.port_ids_).length).map some).length = _
      simp
    rw [hlen, show nl.compress.valid_port_id p =
      decide (p < (survH nl.remove_unused.port_ids_).length) from
      compact_vp nl.remove_unused p, decide_eq_true_eq]
  · intro x
    have hlen : nl.compress.pin_ids_.length =
        (survH nl.remove_unused.pin_ids_).length := by
      show ((List.range (survH nl.remove_unused.pin_ids_).length).map some).length = _
      simp
    rw [hlen, show nl.compress.valid_pin_id x =
      decide (x < (survH nl.remove_unused.pin_ids_).length) from
      compact_vx nl.remove_unused x, decide_eq_true_eq]
  · intro n
    have hlen : nl.compress.nets.length =
        (survH nl.remove_unused.net_ids_).length := by
      show ((List.range (survH nl.remove_unused.net_ids_).length).map some).length = _
      simp
    rw [hlen, show nl.compress.valid_net_id n =
      decide (n < (survH nl.remove_unused.net_ids_).length) from
      compact_vn nl.remove_unused n, decide_eq_true_eq]

/-- Witness: C1 applied to the concrete reachable state w4. -/
theorem C1_compress_canonical_witness :
    (w4.compress.valid_block_id 0 = true ↔ 0 < w4.compress.blocks.length) ∧
    w4.compress.dirty = false ∧ w4.compress.verify = Except.ok true := by
  have hc := C1_compress_canonical w4_reachable
  exact ⟨hc.1 0, hc.2.2.2.2.1, hc.2.2.2.2.2⟩

/-- Witness: C2 applied to the concrete state w2 at its existing block
and net names. -/
theorem C2_create_idempotent_witness :
    w2.create_block "b0" wM [] = (w2, 0) ∧ w2.create_net "n0" = (w2, 0) := by
  have hc := C2_create_idempotent w2_reachable.toWF
  exact ⟨hc.2.1 "b0" wM [] 0 (by decide), hc.2.2.2.2 "n0" 0 (by decide)⟩

/-- Witness: C3 applied to the concrete block removal taking w4 to w5. -/
theorem C3_remove_block_cascade_witness :
    w5.valid_block_id 0 = false ∧ w5.valid_net_id 0 = w4.valid_net_id 0 ∧
    w5.compress.find_block "b0" = none := by
  have hc := @C3_remove_block_cascade w4 w4_reachable 0 w5 (by decide)
  refine ⟨hc.1, hc.2.2.2.1 0, ?_⟩
  have hg := hc.2.2.2.2.2.2
  have hn : (w4.blockD 0).name = "b0" := by decide
  rwa [hn] at hg

/-- Witness: C4 applied to the concrete state w2 at its existing net
name. -/
theorem C4_add_net_duplicate_rejected_witness :
    w2.add_net "n0" none [] = Except.error "duplicate net name" :=
  (C4_add_net_duplicate_rejected w2 "n0" none [] 0 (by decide)).1

/-- Witness: C5 applied to the concrete state w4 at its net. -/
theorem C5_add_net_layout_witness :
    w4.net_pins 0 = w4.net_driver 0 :: (w4.net_sinks 0).map some :=
  (C5_add_net_layout w4_reachable.toWF).2 0 (by decide)

/-- Witness: C6 applied to the concrete net removal taking w4 to w6. -/
theorem C6_remove_net_frame_witness :
    w6.valid_net_id 0 = false ∧ w6.pin_net 0 = none ∧
    w6.pin_port 0 = w4.pin_port 0 := by
  have hc := @C6_remove_net_frame w4 w4_reachable.toWF 0 w6 (by decide)
  exact ⟨hc.1, hc.2.2.1 0 (by decide), (hc.2.2.2.1 0 (by decide)).1⟩

/-- Witness: C7 applied to the concrete state w4, whose three checks all
pass. -/
theorem C7_verify_error_discipline_witness : w4.verify = Except.ok true :=
  (C7_verify_error_discipline w4).1 (by decide)

/-- Witness: C8 applied to the concrete states w2 (absent names) and w7
(valid port with an empty bit slot). -/
theorem C8_lookup_absent_witness :
    w2.find_block "zzz" = none ∧ w7.port_pin 1 1 = none := by
  refine ⟨(C8_lookup_absent w2_reachable.toWF).1 "zzz" ?_, ?_⟩
  · intro b hb
    exact (w2.find_block_eq_none_iff "zzz").mp (by decide) b hb
  · refine ((C8_lookup_absent w7_reachable.toWF).2.2.1 1 1 (by decide) (by decide)
      ?_).1
    exact valid_pin_bounded_all w7 _ (by decide)

end AtomNetlist
